import Mathlib

/-!
Verification of the fsticuffs grammar-compiler / recognizer pipeline of
rhasspy-junior (`rhasspy_junior/fsticuffs/`), shallowly embedded in Lean.

Modelling conventions:
* Python `float` is modelled as `ℚ` (all costs/weights in this code are
  produced by exact decimal literals, `+`, `//` and `/`).
* Python strings are Lean `String`s; Python slicing `s[:n]` / `s[n:]` is
  character based, modelled by `pyTake` / `pyDrop` below (which work on
  `String.data`).
* `bytes` values (for the base64 packing of labels) are `List Nat`, each
  element intended `< 256`.
* Python exceptions (`assert`, KeyError, ValueError, ZeroDivisionError) are
  modelled with `Except Err`; a raised exception never returns a value, so
  "returns a SUCCESS Recognition" means an `.ok (.success, some _)` result.
* Unbounded loops / recursion through the replacement table are given
  explicit fuel; running out of fuel is the `.error .fuel` outcome (the
  Python original would simply not have terminated / recursed deeper).
* `networkx.DiGraph` is modelled by `Graph` below: node attributes
  (`start`, `final`, `word`) and an edge list in insertion order;
  `add_edge` on an existing `(src, dst)` pair updates the stored edge in
  place (as networkx does), otherwise appends.
-/

deriving instance DecidableEq for Except

namespace Fsticuffs

/-- Character-based model of Python string slicing `s[:n]`. -/
def pyTake (s : String) (n : Nat) : String :=
  String.mk (s.data.take n)

/-- Character-based model of Python string slicing `s[n:]`. -/
def pyDrop (s : String) (n : Nat) : String :=
  String.mk (s.data.drop n)

/-- Containment of a character, Python `c in s`. -/
def pyContains (s : String) (c : Char) : Bool :=
  s.data.contains c

/-- Python `len(str)` (character count). -/
def pyLen (s : String) : Nat := s.data.length

/-- `olabel[:9] == "__label__"`: the intent-branch marker test used by the
Path Interpreter. -/
def isLabelOlabel (olabel : String) : Bool := pyTake olabel 9 = "__label__"

/-- Association-list lookup, Python `d.get(k)` for an insertion-ordered dict. -/
def alGet {β : Type} (l : List (String × β)) (k : String) : Option β :=
  match l with
  | [] => none
  | (k', v) :: rest => if k' = k then some v else alGet rest k

/-- Association-list store, Python `d[k] = v`: update in place if the key is
present (keeping its position), otherwise append. -/
def alSet {β : Type} (l : List (String × β)) (k : String) (v : β) :
    List (String × β) :=
  match l with
  | [] => [(k, v)]
  | (k', v') :: rest =>
    if k' = k then (k', v) :: rest else (k', v') :: alSet rest k v

/-- Python values that can appear as converted tokens (`typing.Any`). -/
inductive PyVal where
  | str (s : String)
  | int (n : Int)
  | float (q : ℚ)
  | bool (b : Bool)
  | obj (fields : List (String × PyVal))
  deriving Repr

/-- Python `str()` on a `PyVal` (only the cases this code ever renders). -/
def pyStr : PyVal → String
  | .str s => s
  | .int n => toString n
  | .float q => toString q
  | .bool b => if b then "True" else "False"
  | .obj _ => "<object>"

/-- Modelled Python exceptions: assertion failures, missing dict keys,
`ValueError`/`TypeError` from conversions, division by zero -- plus `fuel`,
which marks exhaustion of the explicit recursion fuel (the Python original
would recurse/loop without bound there). -/
inductive Err where
  | assertion (msg : String)
  | keyError
  | valueError
  | zeroDivision
  | fuel
  deriving DecidableEq, Repr

/-! ## Expression model (`jsgf.py`)

The source represents expressions as dataclasses `Word`, `Sequence`,
`RuleReference`, `SlotReference` with the mixins `Substitutable`
(substitution + converters) and `Taggable` (optional `Tag`).  A `Tag` is
itself `Substitutable`.  A Python substitution is `None`, a `str`, or a
`List[str]`; we model it as `Option (List String)` where the single-string
form `s` is `[s]` (exactly how `add_substitution` normalizes it).  The
cosmetic `text` field of non-`Word` expressions (never consulted by the
compiler or recognizer) is not modelled. -/

/-- `Tag` dataclass: tag text plus its own substitution/converters. -/
structure TagData where
  tag_text : String
  substitution : Option (List String) := none
  converters : List String := []
  deriving DecidableEq, Repr

/-- `SequenceType` enum. -/
inductive SequenceType where
  | group
  | alternative
  deriving DecidableEq, Repr

/-- The JSGF expression tree (`Word` / `Sequence` / `RuleReference` /
`SlotReference`).  `RuleReference` is `Taggable` but not `Substitutable`
in the source, hence has no substitution/converter fields. -/
inductive Expression where
  | word (text : String) (substitution : Option (List String) := none)
      (converters : List String := []) (tag : Option TagData := none)
  | sequence (type : SequenceType) (items : List Expression)
      (substitution : Option (List String) := none)
      (converters : List String := []) (tag : Option TagData := none)
  | ruleReference (rule_name : String) (grammar_name : Option String := none)
      (tag : Option TagData := none)
  | slotReference (slot_name : String)
      (substitution : Option (List String) := none)
      (converters : List String := []) (tag : Option TagData := none)
  deriving Repr

/-- `Word.WILDCARD`. -/
def WILDCARD : String := "*"

/-- The replacement table: bracketed key (`<grammar.rule>` or `$slot`) to
list of alternative expressions. -/
def ReplacementsType := List (String × List Expression)

/-- Sentences grouped by intent (`SentencesType`), an insertion-ordered
dict modelled as an association list. -/
def SentencesType := List (String × List Expression)

/-! ## Graph model (`networkx.DiGraph`) -/

/-- One directed edge with its attribute dict (`ilabel`, `olabel`, and the
optional `weight` / `sentence_count` placed on intent-branch edges).  The
cosmetic `label` attribute (never consulted by the recognizer) is not
modelled. -/
structure Edge where
  src : Nat
  dst : Nat
  ilabel : String
  olabel : String
  weight : Option ℚ := none
  sentence_count : Option Nat := none
  deriving DecidableEq, Repr

/-- The compiled graph: node count (nodes are `0 .. numNodes-1`, always
added consecutively by the compiler), the nodes flagged `start` / `final`,
the `word` node attributes, and the edge list in insertion order. -/
structure Graph where
  numNodes : Nat := 0
  starts : List Nat := []
  finals : List Nat := []
  words : List (Nat × String) := []
  edges : List Edge := []
  deriving DecidableEq, Repr

/-- Empty graph, `nx.DiGraph()`. -/
def Graph.empty : Graph := {}

/-- `graph.add_node(n, start=True)`. -/
def Graph.addStartNode (g : Graph) (n : Nat) : Graph :=
  { g with numNodes := max g.numNodes (n + 1), starts := g.starts ++ [n] }

/-- `graph.add_node(n, final=True)`. -/
def Graph.addFinalNode (g : Graph) (n : Nat) : Graph :=
  { g with numNodes := max g.numNodes (n + 1), finals := g.finals ++ [n] }

/-- `graph.add_node(n, word=w)`. -/
def Graph.addWordNode (g : Graph) (n : Nat) (w : String) : Graph :=
  { g with numNodes := max g.numNodes (n + 1), words := g.words ++ [(n, w)] }

/-- Replace the stored edge for `(e.src, e.dst)` if present (keeping its
position), else append: networkx `add_edge` attribute-update semantics. -/
def updateEdgeList (es : List Edge) (e : Edge) : List Edge :=
  match es with
  | [] => [e]
  | e' :: rest =>
    if e'.src = e.src ∧ e'.dst = e.dst then e :: rest
    else e' :: updateEdgeList rest e

/-- `graph.add_edge(src, dst, ilabel=…, olabel=…, …)`; adds missing
endpoint nodes like networkx does. -/
def Graph.addEdge (g : Graph) (e : Edge) : Graph :=
  { g with
    numNodes := max g.numNodes (max (e.src + 1) (e.dst + 1)),
    edges := updateEdgeList g.edges e }

/-- Successors of a node with their edge data, `graph[n].items()`, in edge
insertion order (matches networkx adjacency order because `(src, dst)`
pairs are unique in the stored list). -/
def Graph.succOf (g : Graph) (n : Nat) : List Edge :=
  g.edges.filter (fun e => e.src = n)

/-- `graph[u][v]`: the edge data between two specific nodes, if any. -/
def Graph.edgeBetween (g : Graph) (u v : Nat) : Option Edge :=
  g.edges.find? (fun e => e.src = u ∧ e.dst = v)

/-- `n_data[n].get("final", False)`. -/
def Graph.isFinal (g : Graph) (n : Nat) : Bool := g.finals.contains n

/-- `n_data[n].get("start", False)`. -/
def Graph.isStart (g : Graph) (n : Nat) : Bool := g.starts.contains n

/-- `node_attrs[n].get("word") or ""`. -/
def Graph.wordOf (g : Graph) (n : Nat) : String :=
  match (g.words.find? (fun p => p.1 = n)) with
  | some (_, w) => w
  | none => ""

/-- `get_start_end_nodes` (`jsgf_graph.py`): scan nodes in order, record
the start-flagged and (elif) final-flagged node, stopping once both are
found. -/
def get_start_end_nodes (g : Graph) : Option Nat × Option Nat :=
  go (List.range g.numNodes) none none
where
  go : List Nat → Option Nat → Option Nat → Option Nat × Option Nat
    | [], s, e => (s, e)
    | n :: rest, s, e =>
      let s' := if g.isStart n then some n else s
      let e' := if (¬ g.isStart n) ∧ g.isFinal n then some n else e
      if s'.isSome ∧ e'.isSome then (s', e') else go rest s' e'

/-- Modelled from the spec: the consecutive edges of a node run, `none`
when some hop has no edge. -/
def runEdges (g : Graph) : List Nat → Option (List Edge)
  | [] => some []
  | [_] => some []
  | a :: b :: rest => do
    let e ← g.edgeBetween a b
    let es ← runEdges g (b :: rest)
    pure (e :: es)

/-- Modelled from the spec: a node sequence is an accepting run when it
starts at a start-flagged node, ends at a final-flagged node, and all its
consecutive edges exist. -/
def IsAcceptingRun (g : Graph) (ns : List Nat) : Bool :=
  match ns with
  | [] => false
  | n :: rest =>
    g.isStart n ∧ g.isFinal ((n :: rest).getLastD 0) ∧
      (runEdges g (n :: rest)).isSome

/-- Invariant of each edge of a compiled sentence graph: the destination
is off the start node, and an edge bears a `__label__` output label
exactly when it leaves the start node `0`. -/
def edgeInv (e : Edge) : Prop :=
  1 ≤ e.dst ∧
  (e.src = 0 → isLabelOlabel e.olabel = true) ∧
  (1 ≤ e.src → isLabelOlabel e.olabel = false)

/-- All edges of a graph satisfy `edgeInv`. -/
def edgeInvAll (g : Graph) : Prop := ∀ e ∈ g.edges, edgeInv e

/-- Edge endpoints stay below the node count (maintained by `addEdge`). -/
def edgeBounds (g : Graph) : Prop :=
  ∀ e ∈ g.edges, e.src < g.numNodes ∧ e.dst < g.numNodes

/-- What one sentence-compilation step does to the graph: nodes only
grow, start/final flags are untouched, the start node's outgoing edge
list is untouched, and the edge invariants are preserved. -/
def compileExtends (g g' : Graph) : Prop :=
  g.numNodes ≤ g'.numNodes ∧ g'.starts = g.starts ∧ g'.finals = g.finals ∧
  g'.edges.filter (fun e => e.src = 0) =
    g.edges.filter (fun e => e.src = 0) ∧
  (edgeInvAll g → edgeInvAll g') ∧
  (edgeBounds g → edgeBounds g')

/-- The `(olabel, weight, sentence_count)` attribute triple of the
`__label__` branch edge that `compile_intents` creates for one intent. -/
def labelTriple (aiw : Bool) (ni : Nat) (icnts : List (String × Nat))
    (iwts : List (String × ℚ)) (p : String × List Expression) :
    String × Option ℚ × Option Nat :=
  if aiw ∧ ni > 1 then
    ("__label__" ++ p.1, some ((alGet iwts p.1).getD 0),
      some ((alGet icnts p.1).getD 1))
  else ("__label__" ++ p.1, none, none)

/-! ## Base64 packing (`maybe_pack` in `jsgf_graph.py`, unpacking in
`fsticuffs.py`)

`maybe_pack` runs `base64.encodebytes(olabel.encode()).decode().strip()`.
`encodebytes` splits the input into 57-byte chunks and emits one 76-char
base64 line per chunk, each terminated by a newline; `.strip()` removes
the trailing newline (the first character is never whitespace).
`base64.decodebytes` ignores non-alphabet bytes (newlines) and decodes;
we model it leniently (no padding validation), which agrees with Python
on every string `encodebytes` produces.  Bytes are `List Nat`. -/

/-- The base64 alphabet as byte values (`A-Z a-z 0-9 + /`). -/
def b64table : List Nat :=
  (List.range 26).map (· + 65) ++ (List.range 26).map (· + 97) ++
    (List.range 10).map (· + 48) ++ [43, 47]

/-- 6-bit value to alphabet byte. -/
def valToCode (v : Nat) : Nat := (b64table.get? v).getD 65

/-- Alphabet byte back to 6-bit value; `none` for non-alphabet bytes
(newlines, padding), which `decodebytes` skips. -/
def codeToVal (c : Nat) : Option Nat :=
  let i := b64table.indexOf c
  if i < 64 then some i else none

/-- Bytes to a stream of 6-bit values, three bytes becoming four values;
a trailing group of one or two bytes becomes two or three values (the
bits `b2a_base64` encodes before padding). -/
def encodeVals : List Nat → List Nat
  | a :: b :: c :: rest =>
    [a / 4, (a % 4) * 16 + b / 16, (b % 16) * 4 + c / 64, c % 64] ++
      encodeVals rest
  | [a, b] => [a / 4, (a % 4) * 16 + b / 16, (b % 16) * 4]
  | [a] => [a / 4, (a % 4) * 16]
  | [] => []

/-- Stream of 6-bit values back to bytes, inverse of `encodeVals`. -/
def decodeVals : List Nat → List Nat
  | v1 :: v2 :: v3 :: v4 :: rest =>
    [v1 * 4 + v2 / 16, (v2 % 16) * 16 + v3 / 4, (v3 % 4) * 64 + v4] ++
      decodeVals rest
  | [v1, v2, v3] => [v1 * 4 + v2 / 16, (v2 % 16) * 16 + v3 / 4]
  | [v1, v2] => [v1 * 4 + v2 / 16]
  | _ => []

/-- One base64 line for a chunk: encoded values rendered through the
alphabet plus `=` padding (byte 61) to a multiple of four characters. -/
def b64EncodeLine (bs : List Nat) : List Nat :=
  (encodeVals bs).map valToCode ++
    (match bs.length % 3 with
     | 1 => [61, 61]
     | 2 => [61]
     | _ => [])

/-- Split a list into chunks of 57 bytes (the `MAXBINSIZE = 57` grouping
of `base64.encodebytes`). -/
def chunk57 : List Nat → List (List Nat)
  | [] => []
  | x :: xs => (x :: xs).take 57 :: chunk57 ((x :: xs).drop 57)
  termination_by l => l.length
  decreasing_by
    simp only [List.length_drop, List.length_cons]
    omega

/-- `base64.encodebytes`: one newline-terminated base64 line per 57-byte
chunk. -/
def encodebytes (bs : List Nat) : List Nat :=
  ((chunk57 bs).map (fun c => b64EncodeLine c ++ [10])).flatten

/-- Whitespace bytes (`str.strip` and the FST text format both treat
these as separators). -/
def isWsByte (b : Nat) : Bool :=
  b = 32 ∨ b = 10 ∨ b = 9 ∨ b = 13 ∨ b = 11 ∨ b = 12

/-- `str.strip()`: drop leading and trailing whitespace. -/
def stripBytes (bs : List Nat) : List Nat :=
  ((bs.dropWhile isWsByte).reverse.dropWhile isWsByte).reverse

/-- `base64.decodebytes`, lenient: skip non-alphabet bytes, decode the
6-bit stream. -/
def decodebytes (bs : List Nat) : List Nat :=
  decodeVals (bs.filterMap codeToVal)

/-- UTF-8 encoding of one character (`str.encode`). -/
def utf8Bytes (c : Char) : List Nat :=
  let n := c.toNat
  if n < 128 then [n]
  else if n < 2048 then [192 + n / 64, 128 + n % 64]
  else if n < 65536 then
    [224 + n / 4096, 128 + (n / 64) % 64, 128 + n % 64]
  else
    [240 + n / 262144, 128 + (n / 4096) % 64, 128 + (n / 64) % 64,
      128 + n % 64]

/-- `str.encode()` over a whole string. -/
def stringBytes (s : String) : List Nat :=
  s.data.flatMap utf8Bytes

/-- UTF-8 decoding (`bytes.decode`); `none` on a malformed sequence.
(Overlong encodings are accepted where CPython would reject them; no
label produced by this pipeline is affected.) -/
def utf8Decode : List Nat → Option (List Char)
  | [] => some []
  | b :: rest =>
    if b < 128 then
      (utf8Decode rest).map (fun cs => Char.ofNat b :: cs)
    else if 192 ≤ b ∧ b < 224 then
      if 1 ≤ rest.length ∧ (128 ≤ rest.getD 0 0 ∧ rest.getD 0 0 < 192) then
        (utf8Decode (rest.drop 1)).map
          (fun cs =>
            Char.ofNat ((b - 192) * 64 + (rest.getD 0 0 - 128)) :: cs)
      else none
    else if 224 ≤ b ∧ b < 240 then
      if 2 ≤ rest.length ∧ (128 ≤ rest.getD 0 0 ∧ rest.getD 0 0 < 192) ∧
          (128 ≤ rest.getD 1 0 ∧ rest.getD 1 0 < 192) then
        (utf8Decode (rest.drop 2)).map
          (fun cs =>
            Char.ofNat ((b - 224) * 4096 + (rest.getD 0 0 - 128) * 64 +
              (rest.getD 1 0 - 128)) :: cs)
      else none
    else if 240 ≤ b ∧ b < 248 then
      if 3 ≤ rest.length ∧ (128 ≤ rest.getD 0 0 ∧ rest.getD 0 0 < 192) ∧
          (128 ≤ rest.getD 1 0 ∧ rest.getD 1 0 < 192) ∧
          (128 ≤ rest.getD 2 0 ∧ rest.getD 2 0 < 192) then
        (utf8Decode (rest.drop 3)).map
          (fun cs =>
            Char.ofNat ((b - 240) * 262144 + (rest.getD 0 0 - 128) * 4096 +
              (rest.getD 1 0 - 128) * 64 + (rest.getD 2 0 - 128)) :: cs)
      else none
    else none
  termination_by l => l.length
  decreasing_by all_goals (simp [List.length_drop]; try omega)

/-- The `"__unpack__"` marker as bytes (all ASCII). -/
def unpackMarkerBytes : List Nat := stringBytes "__unpack__"

/-- Byte-level `maybe_pack` (`jsgf_graph.py`): labels containing a space
byte are replaced by `__unpack__` plus their stripped `encodebytes`
rendering; others pass through. -/
def maybe_pack_bytes (bs : List Nat) : List Nat :=
  if bs.contains 32 then unpackMarkerBytes ++ stripBytes (encodebytes bs)
  else bs

/-- Byte-level model of the Path Interpreter's unpacking step
(`fsticuffs.py` lines 516-518): strip the `__unpack__` marker and
base64-decode the payload; other labels pass through. -/
def unpack_step_bytes (bs : List Nat) : List Nat :=
  if bs.take 10 = unpackMarkerBytes then decodebytes (bs.drop 10) else bs

/-- String-level `maybe_pack`, for graph construction: the base64 payload
is ASCII, rendered back into a `String`. -/
def maybe_pack (olabel : String) : String :=
  if pyContains olabel ' ' then
    "__unpack__" ++
      String.mk ((stripBytes (encodebytes (stringBytes olabel))).map
        Char.ofNat)
  else olabel

/-- String-level base64 decoding used by the Path Interpreter on
`__unpack__` payloads: encode the payload characters to bytes, decode the
base64, UTF-8-decode the result; failure models the Python exception. -/
def b64decodeString (payload : String) : Except Err String :=
  match utf8Decode (decodebytes (stringBytes payload)) with
  | some cs => .ok (String.mk cs)
  | none => .error .valueError

/-- The Path Interpreter's unpacking step on one output label
(`fsticuffs.py` lines 516-518): labels whose first ten characters are
`__unpack__` have the rest base64-decoded; other labels pass through. -/
def unpack_step (olabel : String) : Except Err String :=
  if pyTake olabel 10 = "__unpack__" then b64decodeString (pyDrop olabel 10)
  else .ok olabel

/-! ## Graph compiler (`jsgf_graph.py`) -/

/-- The `Substitutable` capability: every variant except `RuleReference`. -/
def Expression.isSub : Expression → Bool
  | .ruleReference _ _ _ => false
  | _ => true

/-- The `substitution` field (`none` on the non-`Substitutable`
`RuleReference`). -/
def Expression.substitutionOf : Expression → Option (List String)
  | .word _ s _ _ => s
  | .sequence _ _ s _ _ => s
  | .ruleReference _ _ _ => none
  | .slotReference _ s _ _ => s

/-- The `converters` field (`[]` on `RuleReference`). -/
def Expression.convertersOf : Expression → List String
  | .word _ _ c _ => c
  | .sequence _ _ _ c _ => c
  | .ruleReference _ _ _ => []
  | .slotReference _ _ c _ => c

/-- The `tag` field (every variant is `Taggable`). -/
def Expression.tagOf : Expression → Option TagData
  | .word _ _ _ t => t
  | .sequence _ _ _ _ t => t
  | .ruleReference _ _ t => t
  | .slotReference _ _ _ t => t

/-- `split_slot_args` (`slots.py`): split `slot,arg1,arg2,...` into name
and arguments. -/
def split_slot_args (slot_name : String) : String × Option (List String) :=
  if pyContains slot_name ',' then
    match slot_name.splitOn "," with
    | [] => (slot_name, none)
    | n :: args => (n, some args)
  else (slot_name, none)

/-- `add_substitution` (`jsgf_graph.py`): one epsilon edge per output
token (a single-string substitution is the one-element list). -/
def add_substitution (g : Graph) (substitution : List String)
    (source_state : Nat) : Graph × Nat :=
  substitution.foldl
    (fun p olabel =>
      let next_state := p.1.numNodes
      (p.1.addEdge
        { src := p.2, dst := next_state, ilabel := "",
          olabel := maybe_pack olabel },
        next_state))
    (g, source_state)

/-- Python truthiness of a substitution value (used by the `SlotReference`
branch, which tests `if slot_ref.substitution` rather than `is not None`). -/
def subTruthy : Option (List String) → Bool
  | none => false
  | some l => ¬ l.isEmpty

/-- No token of a substitution bears the reserved `__label__` output
marker. -/
def subLabelFree : Option (List String) → Bool
  | none => true
  | some toks => toks.all (fun t => ¬ isLabelOlabel t)

/-- No substitution token of a tag bears the `__label__` marker. -/
def tagLabelFree : Option TagData → Bool
  | none => true
  | some t => subLabelFree t.substitution

mutual

/-- The grammar text never uses the reserved `__label__` marker: word
texts and the substitution tokens of words, sequences, slot references
and tags are all label-free.  (Rule and slot names need no proviso: their
edges carry the fixed `__source__` marker.) -/
def labelFree : Expression → Bool
  | .word text substitution _ tag =>
    (¬ isLabelOlabel text) ∧ subLabelFree substitution ∧ tagLabelFree tag
  | .sequence _ items substitution _ tag =>
    labelFreeList items ∧ subLabelFree substitution ∧ tagLabelFree tag
  | .ruleReference _ _ tag => tagLabelFree tag
  | .slotReference _ substitution _ tag =>
    subLabelFree substitution ∧ tagLabelFree tag

/-- `labelFree` over an expression list. -/
def labelFreeList : List Expression → Bool
  | [] => true
  | e :: rest => labelFree e ∧ labelFreeList rest

end

/-- `labelFree` over a sentence or replacement table. -/
def labelFreeTable (l : List (String × List Expression)) : Bool :=
  l.all (fun p => labelFreeList p.2)

/-- The substitution/tag/converter prologue of `expression_to_graph`
(`jsgf_graph.py`, non-recursive): bump `empty_substitution` when the
expression itself carries a substitution, emit the `__begin__` tag edge
(bumping again for a tag substitution), then the `__convert__` chain (tag
converters first, each list reversed). -/
def expr_prologue (expression : Expression) (g : Graph)
    (source_state : Nat) (empty_substitution : Int) :
    Graph × Nat × Int :=
  -- Handle sequence substitution: ensure everything downstream outputs
  -- nothing
  let empty_substitution :=
    if expression.isSub ∧ expression.substitutionOf ≠ none then
      empty_substitution + 1
    else empty_substitution
  -- Handle tag begin
  let (g, source_state, empty_substitution) :=
    match expression.tagOf with
    | some t =>
      let next_state := g.numNodes
      let olabel := "__begin__" ++ t.tag_text
      let g := g.addEdge
        { src := source_state, dst := next_state, ilabel := "",
          olabel := maybe_pack olabel }
      (g, next_state,
        if t.substitution ≠ none then empty_substitution + 1
        else empty_substitution)
    | none => (g, source_state, empty_substitution)
  -- Handle converters begin (tag converters first, each list reversed)
  let begin_converters :=
    (match expression.tagOf with
     | some t => t.converters.reverse
     | none => []) ++
    (if expression.isSub then expression.convertersOf.reverse else [])
  let (g, source_state) := begin_converters.foldl
    (fun p converter_name =>
      let next_state := p.1.numNodes
      (p.1.addEdge
        { src := p.2, dst := next_state, ilabel := "",
          olabel := maybe_pack ("__convert__" ++ converter_name) },
        next_state))
    (g, source_state)
  (g, source_state, empty_substitution)

/-- The `Word` branch of `expression_to_graph` (non-recursive): word node,
wildcard self-loop, then either the single input/output edge or the
loading edge plus (when no substitution is pending) the substitution
output chain. -/
def word_to_graph (text : String) (substitution : Option (List String))
    (g : Graph) (source_state : Nat) (empty_substitution : Int) :
    Graph × Nat :=
  let next_state := g.numNodes
  let g := g.addWordNode next_state text
  let g :=
    if text = WILDCARD then
      g.addEdge
        { src := source_state, dst := source_state, ilabel := text,
          olabel := text }
    else g
  if substitution = none ∧ empty_substitution ≤ 0 then
    -- Single word input/output
    (g.addEdge
      { src := source_state, dst := next_state, ilabel := text,
        olabel := text }, next_state)
  else
    -- Loading edge (input consumed, no output)
    let g := g.addEdge
      { src := source_state, dst := next_state, ilabel := text,
        olabel := "" }
    let olabels := (substitution).getD [text]
    if empty_substitution ≤ 0 then
      add_substitution g olabels next_state
    else
      (g, next_state)

/-- Rule-name resolution of the `RuleReference` branch of
`expression_to_graph`: returns the fully qualified rule name and the new
`rule_grammar`. -/
def resolve_rule_name (rn : String) (gn : Option String)
    (rule_grammar : String) (grammar_name : Option String) :
    String × String :=
  match gn with
  | some gname => (gname ++ "." ++ rn, gname)
  | none =>
    if rule_grammar ≠ "" then (rule_grammar ++ "." ++ rn, rule_grammar)
    else
      match grammar_name with
      | some gname => (gname ++ "." ++ rn, gname)
      | none => (rn, rule_grammar)

/-- The converter/tag tail of the epilogue of `expression_to_graph`
(non-recursive): close the converter frames (`__converted__` chain), then
close the tag (its substitution and the `__end__` edge). -/
def expr_epilogue_tail (expression : Expression) (g : Graph)
    (source_state : Nat) : Graph × Nat :=
  -- Handle converters end
  let end_converters :=
    (if expression.isSub then expression.convertersOf else []) ++
    (match expression.tagOf with
     | some t => t.converters
     | none => [])
  match expression.tagOf with
  | some t =>
    -- Handle tag substitution
    let q :=
      match t.substitution with
      | some sub => add_substitution g sub source_state
      | none => (g, source_state)
    -- Create end transitions for each converter
    let r := end_converters.foldl
      (fun p converter_name =>
        let next_state := p.1.numNodes
        (p.1.addEdge
          { src := p.2, dst := next_state, ilabel := "",
            olabel := maybe_pack ("__converted__" ++ converter_name) },
          next_state))
      q
    -- End tag
    let next_state := r.1.numNodes
    (r.1.addEdge
      { src := r.2, dst := next_state, ilabel := "",
        olabel := maybe_pack ("__end__" ++ t.tag_text) }, next_state)
  | none =>
    end_converters.foldl
      (fun p converter_name =>
        let next_state := p.1.numNodes
        (p.1.addEdge
          { src := p.2, dst := next_state, ilabel := "",
            olabel := maybe_pack ("__converted__" ++ converter_name) },
          next_state))
      (g, source_state)

/-- The substitution/converter/tag epilogue of `expression_to_graph`
(non-recursive): output the pending sequence substitution, then the
converter/tag tail (`expr_epilogue_tail`). -/
def expr_epilogue (expression : Expression) (g : Graph)
    (source_state : Nat) (empty_substitution : Int) : Graph × Nat :=
  -- Handle sequence substitution: output substituted word(s)
  let q :=
    if expression.isSub then
      match expression.substitutionOf with
      | some sub =>
        let empty_substitution := empty_substitution - 1
        if empty_substitution ≤ 0 then
          let p := add_substitution g sub source_state
          (p.1, p.2, empty_substitution)
        else (g, source_state, empty_substitution)
      | none => (g, source_state, empty_substitution)
    else (g, source_state, empty_substitution)
  expr_epilogue_tail expression q.1 q.2.1

mutual

/-- `expression_to_graph` (`jsgf_graph.py`): insert a JSGF expression into
the graph, returning the updated graph and the exit state.  Fuel bounds
the recursion through rule/slot replacements.  The non-recursive opening
and closing sections live in `expr_prologue` / `expr_epilogue`, the
per-variant dispatch in `expr_dispatch`. -/
def expression_to_graph (fuel : Nat) (expression : Expression) (g : Graph)
    (source_state : Nat) (replacements : ReplacementsType)
    (empty_substitution : Int) (grammar_name : Option String)
    (rule_grammar : String) (expand_slots : Bool) :
    Except Err (Graph × Nat) :=
  match fuel with
  | 0 => .error .fuel
  | fuel + 1 => do
    let (g, source_state, empty_substitution) :=
      expr_prologue expression g source_state empty_substitution
    -- Main dispatch on the expression variant
    let (g, source_state) ← expr_dispatch fuel expression g source_state
      replacements empty_substitution grammar_name rule_grammar expand_slots
    pure (expr_epilogue expression g source_state empty_substitution)
  termination_by (fuel, 0, 0)

/-- The main variant dispatch of `expression_to_graph` (between prologue
and epilogue). -/
def expr_dispatch (fuel : Nat) (expression : Expression) (g : Graph)
    (source_state : Nat) (replacements : ReplacementsType)
    (empty_substitution : Int) (grammar_name : Option String)
    (rule_grammar : String) (expand_slots : Bool) :
    Except Err (Graph × Nat) :=
  match expression with
  | .sequence ty items _ _ _ =>
    (match ty with
     | .alternative => do
       let (g, final_states) ← alternative_items_to_graph fuel items g
         source_state replacements empty_substitution grammar_name
         rule_grammar expand_slots
       -- Connect all paths to final state
       let next_state := g.numNodes
       let g := final_states.foldl
         (fun g' fs => g'.addEdge
           { src := fs, dst := next_state, ilabel := "", olabel := "" })
         g
       pure (g, next_state)
     | .group =>
       group_items_to_graph fuel items g source_state replacements
         empty_substitution grammar_name rule_grammar expand_slots)
  | .word text substitution _ _ =>
    pure (word_to_graph text substitution g source_state empty_substitution)
  | .ruleReference rn gn _ =>
    let rg := resolve_rule_name rn gn rule_grammar grammar_name
    let rule_name_brackets := "<" ++ rg.1 ++ ">"
    (match alGet replacements rule_name_brackets with
     | none => .error (.assertion "Missing rule")
     | some [] => .error (.assertion "Missing rule")
     | some (rule_body :: _) =>
       expression_to_graph fuel rule_body g source_state replacements
         empty_substitution grammar_name rg.2 expand_slots)
  | .slotReference slot_name substitution _ _ => do
    let slot_key := "$" ++ slot_name
    let (g, source_state) ←
      if expand_slots then
        match alGet replacements slot_key with
        | none => .error (.assertion "Missing slot")
        | some [] => .error (.assertion "Missing slot")
        | some slot_values =>
          -- Interpret as alternative
          expression_to_graph fuel
            (.sequence .alternative slot_values none [] none) g
            source_state replacements
            (empty_substitution + (if subTruthy substitution then 1 else 0))
            grammar_name rule_grammar expand_slots
      else pure (g, source_state)
    -- Emit __source__ with slot name (no arguments)
    let slot_name_noargs := (split_slot_args slot_name).1
    let next_state := g.numNodes
    pure (g.addEdge
      { src := source_state, dst := next_state, ilabel := "",
        olabel := "__source__" ++ slot_name_noargs }, next_state)
  termination_by (fuel, 2, 0)

/-- The `ALTERNATIVE` branch loop of `expression_to_graph`: compile every
item from the shared source state, collecting branch exit states. -/
def alternative_items_to_graph (fuel : Nat) (items : List Expression)
    (g : Graph) (source_state : Nat) (replacements : ReplacementsType)
    (empty_substitution : Int) (grammar_name : Option String)
    (rule_grammar : String) (expand_slots : Bool) :
    Except Err (Graph × List Nat) :=
  match items with
  | [] => .ok (g, [])
  | item :: rest => do
    let (g, next_state) ← expression_to_graph fuel item g source_state
      replacements empty_substitution grammar_name rule_grammar expand_slots
    let (g, final_states) ← alternative_items_to_graph fuel rest g
      source_state replacements empty_substitution grammar_name rule_grammar
      expand_slots
    pure (g, next_state :: final_states)
  termination_by (fuel, 1, items.length)

/-- The `GROUP` branch loop of `expression_to_graph`: chain the items
state-to-state. -/
def group_items_to_graph (fuel : Nat) (items : List Expression) (g : Graph)
    (next_state : Nat) (replacements : ReplacementsType)
    (empty_substitution : Int) (grammar_name : Option String)
    (rule_grammar : String) (expand_slots : Bool) :
    Except Err (Graph × Nat) :=
  match items with
  | [] => .ok (g, next_state)
  | item :: rest => do
    let (g, next_state) ← expression_to_graph fuel item g next_state
      replacements empty_substitution grammar_name rule_grammar expand_slots
    group_items_to_graph fuel rest g next_state replacements
      empty_substitution grammar_name rule_grammar expand_slots
  termination_by (fuel, 1, items.length)

end

/-! ## Sentence counts and intent weights (`ini_jsgf.py`, `lcm`) -/

mutual

/-- `get_expression_count` (`ini_jsgf.py`): number of possible sentences
in an expression -- product over `GROUP` children, sum over `ALTERNATIVE`
children, rule (and, unless excluded, slot) references counted through the
replacement table, `1` for a `Word`, `0` for anything else (including slot
references when `exclude_slots` is set). -/
def get_expression_count (fuel : Nat) (expression : Expression)
    (replacements : ReplacementsType) (exclude_slots : Bool) :
    Except Err Nat :=
  match fuel with
  | 0 => .error .fuel
  | fuel + 1 =>
    match expression with
    | .sequence .group items _ _ _ =>
      expr_count_product fuel items replacements exclude_slots
    | .sequence .alternative items _ _ _ =>
      expr_count_sum fuel items replacements exclude_slots
    | .ruleReference rn gn _ => do
      let full_rule_name :=
        match gn with
        | some gname => gname ++ "." ++ rn
        | none => rn
      let key := "<" ++ full_rule_name ++ ">"
      if replacements.isEmpty then .error (.assertion key)
      else
        match alGet replacements key with
        | none => .error .keyError
        | some values => expr_count_sum fuel values replacements exclude_slots
    | .slotReference slot_name _ _ _ =>
      if ¬ exclude_slots then do
        let key := "$" ++ slot_name
        if replacements.isEmpty then .error (.assertion key)
        else
          match alGet replacements key with
          | none => .error .keyError
          | some values =>
            expr_count_sum fuel values replacements exclude_slots
      else
        -- Unknown expression type (a SlotReference with exclude_slots
        -- falls through every isinstance test)
        .ok 0
    | .word _ _ _ _ => .ok 1
  termination_by (fuel, 0, 0)

/-- Product of the item counts (`GROUP`). -/
def expr_count_product (fuel : Nat) (items : List Expression)
    (replacements : ReplacementsType) (exclude_slots : Bool) :
    Except Err Nat :=
  match items with
  | [] => .ok 1
  | item :: rest => do
    let c ← get_expression_count fuel item replacements exclude_slots
    let r ← expr_count_product fuel rest replacements exclude_slots
    pure (c * r)
  termination_by (fuel, 1, items.length)

/-- Sum of the item counts (`ALTERNATIVE`, replacement values). -/
def expr_count_sum (fuel : Nat) (items : List Expression)
    (replacements : ReplacementsType) (exclude_slots : Bool) :
    Except Err Nat :=
  match items with
  | [] => .ok 0
  | item :: rest => do
    let c ← get_expression_count fuel item replacements exclude_slots
    let r ← expr_count_sum fuel rest replacements exclude_slots
    pure (c + r)
  termination_by (fuel, 1, items.length)

end

/-- `get_intent_counts` (`ini_jsgf.py`): per intent,
`max(1, sum of sentence counts)`. -/
def get_intent_counts (fuel : Nat) (sentences : SentencesType)
    (replacements : ReplacementsType) (exclude_slots : Bool) :
    Except Err (List (String × Nat)) :=
  match sentences with
  | [] => .ok []
  | (intent_name, intent_sentences) :: rest => do
    let c ← expr_count_sum fuel intent_sentences replacements exclude_slots
    let r ← get_intent_counts fuel rest replacements exclude_slots
    pure ((intent_name, max 1 c) :: r)

/-- `lcm` (`jsgf_graph.py`): fold `(acc * n) // gcd(acc, n)` over the
numbers, `1` for the empty list. -/
def lcm_list (nums : List Nat) : Nat :=
  match nums with
  | [] => 1
  | n :: rest => rest.foldl (fun acc m => acc * m / Nat.gcd acc m) n

/-- The sentence-compilation loop of `sentences_to_graph`: every sentence
of one intent is compiled starting from the intent's branch state,
collecting exit states. -/
def compile_intent_sentences (fuel : Nat) (intent_sentences : List Expression)
    (g : Graph) (intent_state : Nat) (replacements : ReplacementsType)
    (grammar_name : String) (expand_slots : Bool) :
    Except Err (Graph × List Nat) :=
  match intent_sentences with
  | [] => .ok (g, [])
  | sentence :: rest => do
    let (g, next_state) ← expression_to_graph fuel sentence g intent_state
      replacements 0 (some grammar_name) "" expand_slots
    let (g, states) ← compile_intent_sentences fuel rest g intent_state
      replacements grammar_name expand_slots
    pure (g, next_state :: states)

/-- The intent loop of `sentences_to_graph`: branch off each intent from
the start state with a `__label__` edge (weighted when requested and more
than one intent is present), then compile its sentences. -/
def compile_intents (fuel : Nat) (sentences : SentencesType) (g : Graph)
    (replacements : ReplacementsType)
    (intent_counts : List (String × Nat))
    (intent_weights : List (String × ℚ)) (add_intent_weights : Bool)
    (num_intents : Nat) (expand_slots : Bool) :
    Except Err (Graph × List Nat) :=
  match sentences with
  | [] => .ok (g, [])
  | (intent_name, intent_sentences) :: rest => do
    let intent_state := g.numNodes
    let olabel := "__label__" ++ intent_name
    let g :=
      if add_intent_weights ∧ num_intents > 1 then
        g.addEdge
          { src := 0, dst := intent_state, ilabel := "", olabel := olabel,
            weight := some ((alGet intent_weights intent_name).getD 0),
            sentence_count := some ((alGet intent_counts intent_name).getD 1) }
      else
        g.addEdge
          { src := 0, dst := intent_state, ilabel := "", olabel := olabel }
    let (g, states) ← compile_intent_sentences fuel intent_sentences g
      intent_state replacements intent_name expand_slots
    let (g, more) ← compile_intents fuel rest g replacements intent_counts
      intent_weights add_intent_weights num_intents expand_slots
    pure (g, states ++ more)

/-- `sentences_to_graph` (`jsgf_graph.py`): one shared start state, a
`__label__` branch per intent (weighted by the lcm-normalized inverse
sentence counts when requested), all sentence exits joined into one final
state. -/
def sentences_to_graph (fuel : Nat) (sentences : SentencesType)
    (replacements : ReplacementsType := [])
    (add_intent_weights : Bool := true)
    (exclude_slots_from_counts : Bool := true)
    (expand_slots : Bool := true) : Except Err Graph := do
  let num_intents := sentences.length
  let (intent_counts, intent_weights) ←
    if add_intent_weights then do
      -- Count number of possible sentences per intent, fixing zero counts
      let counts0 ← get_intent_counts fuel sentences replacements
        exclude_slots_from_counts
      let intent_counts := counts0.map (fun p => (p.1, max p.2 1))
      let num_sentences_lcm := lcm_list (intent_counts.map Prod.snd)
      let w0 : List (String × Nat) := sentences.map
        (fun p => (p.1,
          num_sentences_lcm / max ((alGet intent_counts p.1).getD 1) 1))
      -- Normalize
      let weight_sum := max (w0.map Prod.snd).sum 1
      let intent_weights : List (String × ℚ) := w0.map
        (fun p => (p.1, (p.2 : ℚ) / (weight_sum : ℚ)))
      pure (intent_counts, intent_weights)
    else pure ([], [])
  -- Create initial graph
  let g := Graph.empty.addStartNode 0
  let (g, final_states) ← compile_intents fuel sentences g replacements
    intent_counts intent_weights add_intent_weights num_intents expand_slots
  -- Create final state and join all sentences to it
  let final_state := g.numNodes
  let g := g.addFinalNode final_state
  let g := final_states.foldl
    (fun g' next_state => g'.addEdge
      { src := next_state, dst := final_state, ilabel := "", olabel := "" })
    g
  pure g

/-- The floored per-intent counts (`intent_counts` in
`sentences_to_graph`). -/
def stg_intent_counts (counts0 : List (String × Nat)) :
    List (String × Nat) :=
  counts0.map (fun p => (p.1, max p.2 1))

/-- `num_sentences_lcm` in `sentences_to_graph`. -/
def stg_lcm (counts0 : List (String × Nat)) : Nat :=
  lcm_list ((stg_intent_counts counts0).map Prod.snd)

/-- The per-intent count lookup of the weight computation in
`sentences_to_graph` (the claim's `c_i`, floored at 1). -/
def intentCountOf (counts0 : List (String × Nat)) (i : String) : Nat :=
  max ((alGet (stg_intent_counts counts0) i).getD 1) 1

/-- The unnormalized weight table `w0` in `sentences_to_graph`. -/
def stg_w0 (sentences : SentencesType) (counts0 : List (String × Nat)) :
    List (String × Nat) :=
  sentences.map (fun p => (p.1, stg_lcm counts0 / intentCountOf counts0 p.1))

/-- The claim's normalizer `W = sum of L / c_j` (the code computes
`max W 1`, a no-op for a non-empty intent table). -/
def stg_wsum (sentences : SentencesType)
    (counts0 : List (String × Nat)) : Nat :=
  ((stg_w0 sentences counts0).map Prod.snd).sum

/-- The normalized `intent_weights` table in `sentences_to_graph`. -/
def stg_intent_weights (sentences : SentencesType)
    (counts0 : List (String × Nat)) : List (String × ℚ) :=
  (stg_w0 sentences counts0).map
    (fun p => (p.1,
      (p.2 : ℚ) / ((max (stg_wsum sentences counts0) 1 : ℕ) : ℚ)))

/-! ## Recognizer -- strict search (`paths_strict`, `fsticuffs.py`) -/

/-- One recorded path step `(node, matching input tokens)`; a full path is
the list of such steps (`PathType`). -/
abbrev PathEntry : Type := Nat × List String

/-- A matched node path. -/
abbrev Path : Type := List PathEntry

/-- Python truthiness of the optional `exclude_tokens` set. -/
def exclTruthy : Option (List String) → Bool
  | none => false
  | some l => ¬ l.isEmpty

/-- The edge-traversal rule of `paths_strict`'s inner loop: `none` means
the edge is skipped (`continue`), otherwise the successor queue item.
Epsilon edges always pass; labelled edges need the next token to match
after `word_transform`, unless the label is excludable (stop-word bypass:
pass without consuming). -/
def strict_edge_step (exclude_tokens : Option (List String))
    (intent_filter : String → Bool) (word_transform : String → String)
    (current_node : Nat) (current_path : Path)
    (current_tokens : List String) (e : Edge) :
    Option (Nat × Path × List String) :=
  let olabel := e.olabel
  if pyTake olabel 9 = "__label__" ∧
      ¬ intent_filter (pyDrop olabel 9) then
    none  -- Skip intent
  else if e.ilabel ≠ "" then
    let ilabel := word_transform e.ilabel
    match current_tokens with
    | [] => none  -- Ran out of tokens
    | t :: rest =>
      if ilabel ≠ word_transform t then
        if ¬ exclTruthy exclude_tokens ∨
            ¬ (exclude_tokens.getD []).contains ilabel then
          none  -- Can't exclude
        else
          -- Excluded label: traverse without consuming
          some (e.dst, current_path ++ [(current_node, [])], current_tokens)
      else
        -- Token match
        some (e.dst, current_path ++ [(current_node, [t])], rest)
  else
    some (e.dst, current_path ++ [(current_node, [])], current_tokens)

/-- The BFS loop of `paths_strict`: FIFO queue of
`(node, path, remaining tokens)`, yielding the path at a final state with
no remaining tokens, optionally stopping after `max_paths` results. -/
def paths_strict_aux (g : Graph) (exclude_tokens : Option (List String))
    (max_paths : Option Nat) (intent_filter : String → Bool)
    (word_transform : String → String) :
    Nat → List (Nat × Path × List String) → Nat → List Path →
    Except Err (List Path)
  | 0, _, _, _ => .error .fuel
  | _ + 1, [], _, acc => .ok acc
  | fuel + 1, (current_node, current_path, current_tokens) :: rest,
      paths_found, acc =>
    let is_accept := g.isFinal current_node && current_tokens.isEmpty
    let acc' := if is_accept then acc ++ [current_path] else acc
    let paths_found' := if is_accept then paths_found + 1 else paths_found
    if is_accept &&
        (match max_paths with
         | some mp => decide (mp ≠ 0 ∧ paths_found' ≥ mp)
         | none => false) then
      .ok acc'  -- break
    else
      let additions := (g.succOf current_node).filterMap
        (strict_edge_step exclude_tokens intent_filter word_transform
          current_node current_path current_tokens)
      paths_strict_aux g exclude_tokens max_paths intent_filter
        word_transform fuel (rest ++ additions) paths_found' acc'

/-- `paths_strict` (`fsticuffs.py`): breadth-first exact matching.  An
empty token list yields no paths at all, before the search starts. -/
def paths_strict (fuel : Nat) (tokens : List String) (g : Graph)
    (exclude_tokens : Option (List String) := none)
    (max_paths : Option Nat := none)
    (intent_filter : Option (String → Bool) := none)
    (word_transform : Option (String → String) := none) :
    Except Err (List Path) :=
  if tokens.isEmpty then .ok []
  else
    let ifil := intent_filter.getD (fun _ => true)
    let wt := word_transform.getD (fun x => x)
    match (get_start_end_nodes g).1 with
    | none => .error (.assertion "no start node")
    | some start_node =>
      paths_strict_aux g exclude_tokens max_paths ifil wt fuel
        [(start_node, ([] : Path), tokens)] 0 []

/-! ## Recognizer -- fuzzy search (`paths_fuzzy`, `fsticuffs.py`) -/

/-- `FuzzyResult`: one candidate path with its intent and cost. -/
structure FuzzyResult where
  intent_name : String
  node_path : Path
  cost : ℚ
  deriving DecidableEq, Repr

/-- `FuzzyCostOutput`; since Python mutates the token list in place, the
remaining tokens are returned explicitly. -/
structure FuzzyCostOutput where
  cost : ℚ
  continue_search : Bool := true
  matching_tokens : List String := []
  tokens : List String
  deriving DecidableEq, Repr

/-- The token-discarding loop of `default_fuzzy_cost`: drop mismatched
leading tokens at cost 0.1 (stop words) or 1 each, until a match or the
end of input. -/
def discard_mismatched (ilabel : String) (word_transform : String → String)
    (stop_words : List String) : List String → ℚ × List String
  | [] => (0, [])
  | t :: rest =>
    if ilabel = word_transform t then (0, t :: rest)
    else
      let bad_token := word_transform t
      let c : ℚ := if stop_words.contains bad_token then 1 / 10 else 1
      let (c', remaining) :=
        discard_mismatched ilabel word_transform stop_words rest
      (c + c', remaining)

/-- `default_fuzzy_cost` (`fsticuffs.py`). -/
def default_fuzzy_cost (ilabel : String) (tokens : List String)
    (stop_words : List String) (word_transform : String → String) :
    FuzzyCostOutput :=
  if ilabel ≠ "" then
    if ¬ tokens.isEmpty ∧ ilabel = WILDCARD then
      match tokens with
      | t :: rest => { cost := 1 / 10, matching_tokens := [t], tokens := rest }
      | [] => { cost := 0, tokens := [] }
    else
      let il := word_transform ilabel
      let (cost, tokens) := discard_mismatched il word_transform stop_words
        tokens
      match tokens with
      | t :: rest =>
        if il = word_transform t then
          -- Consume matching token
          { cost := cost, matching_tokens := [t], tokens := rest }
        else
          { cost := cost, continue_search := false, tokens := t :: rest }
      | [] =>
        -- No matching token
        { cost := cost, continue_search := false, tokens := [] }
  else { cost := 0, tokens := tokens }

/-- The cost of the first stored result for an intent
(`best_intent_costs[0].cost` when `intent_symbols_and_costs.get(q_intent)`
is truthy, else `None`). -/
def best_intent_cost_of (m : List (String × List FuzzyResult))
    (intent : String) : Option ℚ :=
  match alGet m intent with
  | some (r :: _) => some r.cost
  | _ => none

/-- The final-state bookkeeping of `paths_fuzzy` (`fsticuffs.py` lines
326-357): when the accumulated cost is strictly below the consumed-output
count, record `final_cost = cost + remaining-token count` for the item's
intent -- overwriting that intent's stored list when strictly better,
appending when tied, dropping otherwise -- and lower the global best. -/
def fuzzy_final_update (m : List (String × List FuzzyResult))
    (best_cost : ℚ) (q_intent : Option String) (q_out_path : Path)
    (q_out_count : Nat) (q_cost : ℚ) (q_in_tokens : List String) :
    List (String × List FuzzyResult) × ℚ :=
  if q_cost < (q_out_count : ℚ) then
    let intent := q_intent.getD ""
    let best_intent_cost : Option ℚ := best_intent_cost_of m intent
    let final_cost := q_cost + (q_in_tokens.length : ℚ)
    let new_result : FuzzyResult :=
      { intent_name := intent, node_path := q_out_path, cost := final_cost }
    let m' :=
      match best_intent_cost with
      | none => alSet m intent [new_result]
      | some bic =>
        if final_cost < bic then alSet m intent [new_result]
        else if final_cost = bic then
          alSet m intent (((alGet m intent).getD []) ++ [new_result])
        else m
    let best_cost' := if final_cost < best_cost then final_cost else best_cost
    (m', best_cost')
  else (m, best_cost)

/-- A fuzzy frontier item
`(node, in_tokens, out_path, out_count, cost, intent)`. -/
abbrev FuzzyItem : Type :=
  Nat × List String × Path × Nat × ℚ × Option String

/-- The edge-processing rule of `paths_fuzzy`'s inner loop: `none` means
the edge is skipped (filtered intent or a dead cost branch). -/
def fuzzy_edge_step (cost_function : String → List String → FuzzyCostOutput)
    (intent_filter : String → Bool) (q_node : Nat)
    (q_in_tokens : List String) (q_out_path : Path) (q_out_count : Nat)
    (q_cost : ℚ) (q_intent : Option String) (e : Edge) : Option FuzzyItem :=
  let out_label := e.olabel
  let step1 : Option (Option String × Nat) :=
    if out_label ≠ "" then
      if pyTake out_label 9 = "__label__" then
        let next_intent := pyDrop out_label 9
        if ¬ intent_filter next_intent then none  -- Skip intent
        else some (some next_intent, q_out_count)
      else if pyTake out_label 2 ≠ "__" then
        some (q_intent, q_out_count + 1)
      else some (q_intent, q_out_count)
    else some (q_intent, q_out_count)
  match step1 with
  | none => none
  | some (next_intent, next_out_count) =>
    let cost_output := cost_function e.ilabel q_in_tokens
    let next_cost := q_cost + cost_output.cost
    if ¬ cost_output.continue_search then none
    else
      some (e.dst, cost_output.tokens,
        q_out_path ++ [(q_node, cost_output.matching_tokens)],
        next_out_count, next_cost, next_intent)

/-- The BFS loop of `paths_fuzzy`: final-state bookkeeping, then pruning
of branches already costlier than the global best, then edge expansion. -/
def paths_fuzzy_aux (g : Graph)
    (cost_function : String → List String → FuzzyCostOutput)
    (intent_filter : String → Bool) :
    Nat → List FuzzyItem → List (String × List FuzzyResult) → ℚ →
    Except Err (List (String × List FuzzyResult))
  | 0, _, _, _ => .error .fuel
  | _ + 1, [], m, _ => .ok m
  | fuel + 1,
      (q_node, q_in_tokens, q_out_path, q_out_count, q_cost, q_intent) ::
        rest, m, best_cost =>
    let (m, best_cost) :=
      if g.isFinal q_node then
        fuzzy_final_update m best_cost q_intent q_out_path q_out_count
          q_cost q_in_tokens
      else (m, best_cost)
    if q_cost > best_cost then
      -- Can't get any better
      paths_fuzzy_aux g cost_function intent_filter fuel rest m best_cost
    else
      let additions := (g.succOf q_node).filterMap
        (fuzzy_edge_step cost_function intent_filter q_node q_in_tokens
          q_out_path q_out_count q_cost q_intent)
      paths_fuzzy_aux g cost_function intent_filter fuel (rest ++ additions)
        m best_cost

/-- First start-flagged node in node order
(`next(n for n, data in n_data if data.get("start"))`). -/
def Graph.firstStart (g : Graph) : Option Nat :=
  (List.range g.numNodes).find? (fun n => g.isStart n)

/-- `paths_fuzzy` (`fsticuffs.py`): cost-guided BFS; an empty token list
returns the empty intent map before the search starts.  The global best
cost starts at `float(len(n_data))`, the node count. -/
def paths_fuzzy (fuel : Nat) (tokens : List String) (g : Graph)
    (stop_words : List String := [])
    (cost_function : Option (String → List String → FuzzyCostOutput) := none)
    (intent_filter : Option (String → Bool) := none)
    (word_transform : Option (String → String) := none) :
    Except Err (List (String × List FuzzyResult)) :=
  if tokens.isEmpty then .ok []
  else
    let ifil := intent_filter.getD (fun _ => true)
    let wt := word_transform.getD (fun x => x)
    let cf := cost_function.getD
      (fun il toks => default_fuzzy_cost il toks stop_words wt)
    match g.firstStart with
    | none => .error (.assertion "no start node")
    | some start_node =>
      paths_fuzzy_aux g cf ifil fuel
        [(start_node, tokens, ([] : Path), 0, 0, none)] []
        (g.numNodes : ℚ)

/-- Modelled from the spec: the claim's final-state recording rule --
"every frontier item that reaches a final state having consumed at least
one output token is recorded" -- for comparison with the source's
`fuzzy_final_update`, whose guard is `q_cost < q_out_count` instead of
`1 ≤ q_out_count`.  The body after the guard is identical. -/
def fuzzy_final_update_spec (m : List (String × List FuzzyResult))
    (best_cost : ℚ) (q_intent : Option String) (q_out_path : Path)
    (q_out_count : Nat) (q_cost : ℚ) (q_in_tokens : List String) :
    List (String × List FuzzyResult) × ℚ :=
  if 1 ≤ q_out_count then
    let intent := q_intent.getD ""
    let best_intent_cost : Option ℚ := best_intent_cost_of m intent
    let final_cost := q_cost + (q_in_tokens.length : ℚ)
    let new_result : FuzzyResult :=
      { intent_name := intent, node_path := q_out_path, cost := final_cost }
    let m' :=
      match best_intent_cost with
      | none => alSet m intent [new_result]
      | some bic =>
        if final_cost < bic then alSet m intent [new_result]
        else if final_cost = bic then
          alSet m intent (((alGet m intent).getD []) ++ [new_result])
        else m
    let best_cost' := if final_cost < best_cost then final_cost else best_cost
    (m', best_cost')
  else (m, best_cost)

/-- Modelled from the spec: `paths_fuzzy_aux` with the claim's recording
rule substituted. -/
def paths_fuzzy_aux_spec (g : Graph)
    (cost_function : String → List String → FuzzyCostOutput)
    (intent_filter : String → Bool) :
    Nat → List FuzzyItem → List (String × List FuzzyResult) → ℚ →
    Except Err (List (String × List FuzzyResult))
  | 0, _, _, _ => .error .fuel
  | _ + 1, [], m, _ => .ok m
  | fuel + 1,
      (q_node, q_in_tokens, q_out_path, q_out_count, q_cost, q_intent) ::
        rest, m, best_cost =>
    let (m, best_cost) :=
      if g.isFinal q_node then
        fuzzy_final_update_spec m best_cost q_intent q_out_path q_out_count
          q_cost q_in_tokens
      else (m, best_cost)
    if q_cost > best_cost then
      paths_fuzzy_aux_spec g cost_function intent_filter fuel rest m
        best_cost
    else
      let additions := (g.succOf q_node).filterMap
        (fuzzy_edge_step cost_function intent_filter q_node q_in_tokens
          q_out_path q_out_count q_cost q_intent)
      paths_fuzzy_aux_spec g cost_function intent_filter fuel
        (rest ++ additions) m best_cost

/-- Modelled from the spec: `paths_fuzzy` with the claim's recording
rule substituted. -/
def paths_fuzzy_spec (fuel : Nat) (tokens : List String) (g : Graph)
    (stop_words : List String := [])
    (cost_function : Option (String → List String → FuzzyCostOutput) := none)
    (intent_filter : Option (String → Bool) := none)
    (word_transform : Option (String → String) := none) :
    Except Err (List (String × List FuzzyResult)) :=
  if tokens.isEmpty then .ok []
  else
    let ifil := intent_filter.getD (fun _ => true)
    let wt := word_transform.getD (fun x => x)
    let cf := cost_function.getD
      (fun il toks => default_fuzzy_cost il toks stop_words wt)
    match g.firstStart with
    | none => .error (.assertion "no start node")
    | some start_node =>
      paths_fuzzy_aux_spec g cf ifil fuel
        [(start_node, tokens, ([] : Path), 0, 0, none)] []
        (g.numNodes : ℚ)

/-- `best_fuzzy_cost` (`fsticuffs.py`): keep the per-intent result lists
whose head cost matches the lowest cost seen -- note the faithful quirk
that `best_cost` is only assigned for the first non-empty intent, so a
later, strictly cheaper list overwrites the results without lowering the
comparison threshold. -/
def best_fuzzy_cost (m : List (String × List FuzzyResult)) :
    List FuzzyResult :=
  if m.isEmpty then []
  else go m none []
where
  go : List (String × List FuzzyResult) → Option ℚ → List FuzzyResult →
      List FuzzyResult
    | [], _, best_results => best_results
    | (_, fuzzy_results) :: rest, best_cost, best_results =>
      match fuzzy_results with
      | [] => go rest best_cost best_results
      | r :: _ =>
        match best_cost with
        | none => go rest (some r.cost) fuzzy_results
        | some bc =>
          if r.cost < bc then go rest (some bc) fuzzy_results
          else if r.cost = bc then go rest (some bc)
            (best_results ++ fuzzy_results)
          else go rest (some bc) best_results

/-! ## Recognition data structures (`intent.py`) -/

/-- `Intent` dataclass. -/
structure Intent where
  name : String
  confidence : ℚ := 0
  deriving DecidableEq, Repr

/-- `Entity` dataclass.  `end` is a Lean keyword, so the `end` field is
called `end_`; index fields are `Int` because Python computes `end`
indices as `index - 1`, which can be `-1`. -/
structure Entity where
  entity : String
  value : PyVal := .str ""
  raw_value : String := ""
  source : String := ""
  start : Int := 0
  raw_start : Int := 0
  end_ : Int := 0
  raw_end : Int := 0
  tokens : List PyVal := []
  raw_tokens : List String := []
  deriving Repr

/-- `RecognitionResult` enum. -/
inductive RecognitionResult where
  | success
  | failure
  deriving DecidableEq, Repr

/-- `Recognition` dataclass. -/
structure Recognition where
  intent : Option Intent := none
  entities : List Entity := []
  text : String := ""
  raw_text : String := ""
  recognize_seconds : ℚ := 0
  tokens : List PyVal := []
  raw_tokens : List String := []
  deriving Repr

/-! ## Converters (`get_default_converters`, `fsticuffs.py`)

A converter is called as `converter_func(*sub_tokens)`, with the keyword
argument `converter_args` added only when the stored argument list is
truthy.  The Lean model takes the (optional) argument list and the
substituted values, and returns converted values or a modelled exception;
output elements are `Option PyVal` because Python converters may yield
`None`. -/

/-- The type of converter functions. -/
def ConvFn : Type :=
  Option (List String) → List PyVal → Except Err (List (Option PyVal))

/-- Python `int(str)`: optional sign, one or more digits. -/
def parseIntStr (s : String) : Except Err Int :=
  let cs := (s.data.dropWhile (· = ' ')).reverse.dropWhile (· = ' ') |>.reverse
  let (neg, ds) :=
    match cs with
    | '-' :: rest => (true, rest)
    | '+' :: rest => (false, rest)
    | _ => (false, cs)
  if ds.isEmpty ∨ ¬ ds.all (·.isDigit) then .error .valueError
  else
    let n : Nat := ds.foldl (fun acc c => acc * 10 + (c.toNat - 48)) 0
    .ok (if neg then -(n : Int) else (n : Int))

/-- Python `int(x)` over the values this pipeline can produce
(`int(float)` truncates toward zero, `int(bool)` is 0/1, objects raise). -/
def pyToInt : PyVal → Except Err Int
  | .str s => parseIntStr s
  | .int n => .ok n
  | .float q => .ok (q.num.tdiv (q.den : Int))
  | .bool b => .ok (if b then 1 else 0)
  | .obj _ => .error .valueError

/-- Python `float(x)` (string parsing limited to
`[sign]digits[.digits]`, the only shapes produced here). -/
def pyToFloat : PyVal → Except Err ℚ
  | .str s =>
    let cs := s.data
    let (neg, cs) :=
      match cs with
      | '-' :: rest => (true, rest)
      | '+' :: rest => (false, rest)
      | _ => (false, cs)
    let intPart := cs.takeWhile (·.isDigit)
    let rest := cs.dropWhile (·.isDigit)
    let fracPart :=
      match rest with
      | '.' :: fs => if fs.all (·.isDigit) then some fs else none
      | [] => some []
      | _ => none
    match fracPart with
    | none => .error .valueError
    | some fs =>
      if intPart.isEmpty ∧ fs.isEmpty then .error .valueError
      else
        let ip : ℚ := intPart.foldl (fun acc c => acc * 10 + (c.toNat - 48)) 0
        let fp : ℚ := fs.foldr (fun c acc => (acc + (c.toNat - 48)) / 10) 0
        .ok (if neg then -(ip + fp) else ip + fp)
  | .int n => .ok (n : ℚ)
  | .float q => .ok q
  | .bool b => .ok (if b then 1 else 0)
  | .obj _ => .error .valueError

/-- `bool_converter`: false iff the value equals 0 or its string is
`"false"` case-insensitively. -/
def bool_converter (v : PyVal) : Bool :=
  let nonzero :=
    match v with
    | .int n => n ≠ 0
    | .float q => q ≠ 0
    | .bool b => b
    | .str _ => true
    | .obj _ => true
  nonzero && (pyStr v).toLower ≠ "false"

/-- Shared shape of the simple mapped converters: no keyword argument is
accepted, so a truthy argument list is a modelled `TypeError`. -/
def mappedConv (f : PyVal → Except Err (Option PyVal)) : ConvFn :=
  fun args vals =>
    match args with
    | some _ => .error .valueError
    | none => vals.mapM f

/-- `get_default_converters` (`fsticuffs.py`).  The `num`, `duration` and
`datetime` converters delegate to the external `lingua_franca` extractor
(out of scope per §6 of the spec); they are modelled as always raising,
and no claim depends on their value. -/
def get_default_converters : String → Option ConvFn
  | "int" => some (mappedConv (fun v => (pyToInt v).map (fun n => some (.int n))))
  | "float" => some (mappedConv (fun v => (pyToFloat v).map (fun q => some (.float q))))
  | "bool" => some (mappedConv (fun v => .ok (some (.bool (bool_converter v)))))
  | "lower" => some (mappedConv (fun v =>
      match v with
      | .str s => .ok (some (.str s.toLower))
      | _ => .error .valueError))
  | "upper" => some (mappedConv (fun v =>
      match v with
      | .str s => .ok (some (.str s.toUpper))
      | _ => .error .valueError))
  | "object" => some (fun args vals =>
      match args with
      | some _ => .error .valueError
      | none =>
        let value :=
          match vals with
          | [v] => v
          | _ => .str (" ".intercalate (vals.map pyStr))
        .ok [some (.obj [("value", value)])])
  | "kind" => some (fun args vals =>
      match args with
      | some (k :: _) =>
        vals.mapM (fun v =>
          match v with
          | .obj fields => .ok (some (.obj (("kind", .str k) :: fields)))
          | _ => .error .valueError)
      | _ => .error .valueError)
  | "unit" => some (fun args vals =>
      match args with
      | some (u :: _) =>
        vals.mapM (fun v =>
          match v with
          | .obj fields => .ok (some (.obj (("unit", .str u) :: fields)))
          | _ => .error .valueError)
      | _ => .error .valueError)
  | "num" => some (fun _ _ => .error .valueError)
  | "duration" => some (fun _ _ => .error .valueError)
  | "datetime" => some (fun _ _ => .error .valueError)
  | _ => none

/-! ## Path Interpreter (`path_to_recognition`, `fsticuffs.py`) -/

/-- Step-1 stream element: `(raw word, output token, matched input
tokens)`. -/
abbrev RSTok : Type := String × String × List String

/-- Post-conversion stream element; the middle component is `none` when a
converter produced Python `None`. -/
abbrev RCTok : Type := String × Option PyVal × List String

/-- `ConverterInfo`: one open converter frame. -/
structure ConverterInfo where
  key : String
  name : String
  args : Option (List String) := none
  tokens : List RCTok := []
  deriving Repr

/-- Step 1 of `path_to_recognition`: walk the path pairwise, resolve each
edge's output label (wildcard replacement, `__unpack__` decoding), record
`__label__` names, and keep the non-empty `(word, olabel, tokens)`
triples. -/
def resolve_olabels_aux (g : Graph) :
    List (PathEntry × PathEntry) → List RSTok → String →
    Except Err (List RSTok × String)
  | [], acc, intent_name => .ok (acc, intent_name)
  | ((last_node, last_tokens), (next_node, _)) :: rest, acc, intent_name =>
    let word := g.wordOf next_node
    match g.edgeBetween last_node next_node with
    | none => .error .keyError
    | some edge_data => do
      let olabel := edge_data.olabel
      let olabel :=
        if olabel = WILDCARD then " ".intercalate last_tokens else olabel
      let olabel ←
        if pyTake olabel 10 = "__unpack__" then
          b64decodeString (pyDrop olabel 10)
        else pure olabel
      if pyTake olabel 9 = "__label__" then
        resolve_olabels_aux g rest acc (pyDrop olabel 9)
      else if word ≠ "" ∨ olabel ≠ "" then
        resolve_olabels_aux g rest (acc ++ [(word, olabel, last_tokens)])
          intent_name
      else
        resolve_olabels_aux g rest acc intent_name

/-- Consecutive pairs of a path (`pairwise`). -/
def path_pairs (p : Path) : List (PathEntry × PathEntry) :=
  p.zip p.tail

/-- Step-1 wrapper. -/
def resolve_olabels (g : Graph) (node_path : Path) :
    Except Err (List RSTok × String) :=
  resolve_olabels_aux g (path_pairs node_path) [] ""

/-- `itertools.zip_longest` over the three converter output lists, fill
value `""` (modelled as `""`, `some (.str "")`, `[]`). -/
def zip_longest3 (rs : List String) (cs : List (Option PyVal))
    (os : List (List String)) : List RCTok :=
  (List.range (max rs.length (max cs.length os.length))).map
    (fun i => (rs.getD i "", cs.getD i (some (.str "")), os.getD i []))

/-- The `t[1] not in {None, ""}` filter on a frame's substituted values. -/
def keepSubVal : Option PyVal → Option PyVal
  | none => none
  | some (.str s) => if s = "" then none else some (.str s)
  | some v => some v

/-- Python truthiness of the stored converter argument list. -/
def argsTruthy : Option (List String) → Option (List String)
  | none => none
  | some l => if l.isEmpty then none else some l

/-- One iteration of the step-2 converter loop of `path_to_recognition`,
taking the converter stack and the output list to their next state.  The
Python converter stack grows at the end of a list; here the head of
`converter_stack` is the top of the stack. -/
def convert_step (converters : String → Option ConvFn)
    (converter_stack : List ConverterInfo) (out : List RCTok)
    (tok : RSTok) : Except Err (List ConverterInfo × List RCTok) :=
  let (raw_token, sub_token, original_tokens) := tok
  if sub_token ≠ "" ∧ ¬ converter_stack.isEmpty ∧
      pyTake sub_token 2 ≠ "__" then
    -- Add to existing converter
    match converter_stack with
    | top :: others =>
      .ok ({ top with tokens :=
          top.tokens ++ [(raw_token, some (.str sub_token),
            original_tokens)] } :: others, out)
    | [] => .error (.assertion "unreachable")
  else if pyTake sub_token 11 = "__convert__" then
    -- Begin converter
    let converter_key := pyDrop sub_token 11
    let nk :=
      if pyContains converter_key ',' then
        match converter_key.splitOn "," with
        | [] => (converter_key, (none : Option (List String)))
        | n :: args => (n, some args)
      else (converter_key, none)
    .ok ({ key := converter_key, name := nk.1,
           args := nk.2, tokens := [] } :: converter_stack, out)
  else if pyTake sub_token 13 = "__converted__" then
    -- End converter
    match converter_stack with
    | [] => .error (.assertion "Found __converted__ without a __convert__")
    | last_converter :: others =>
      let actual_key := pyDrop sub_token 13
      if last_converter.key ≠ actual_key then
        .error (.assertion "Mismatched converter name")
      else do
        let raw_tokens :=
          (last_converter.tokens.filter (fun t => t.1 ≠ "")).map (·.1)
        let sub_tokens :=
          last_converter.tokens.filterMap (fun t => keepSubVal t.2.1)
        let orig_tokens :=
          (last_converter.tokens.map (fun t => t.2.2)).filter
            (fun o => ¬ o.isEmpty)
        match converters last_converter.name with
        | none => .error .keyError
        | some converter_func => do
          let converted_tokens ← converter_func
            (argsTruthy last_converter.args) sub_tokens
          let zipped := zip_longest3 raw_tokens converted_tokens orig_tokens
          match others with
          | parent :: rest_stack =>
            -- Add to parent converter
            .ok ({ parent with tokens := parent.tokens ++ zipped } ::
              rest_stack, out)
          | [] =>
            -- Add directly to list
            .ok ([], out ++ zipped)
  else
    .ok (converter_stack,
      out ++ [(raw_token, some (.str sub_token), original_tokens)])

/-- Step 2 of `path_to_recognition`: run the converter loop over the
resolved stream; a converter still open at the end is the
`Converter(s) remaining on stack` assertion. -/
def apply_converters (converters : String → Option ConvFn)
    (converter_stack : List ConverterInfo) (out : List RCTok) :
    List RSTok → Except Err (List RCTok)
  | [] =>
    if converter_stack.isEmpty then .ok out
    else .error (.assertion "Converter(s) remaining on stack")
  | tok :: rest => do
    let (converter_stack, out) ← convert_step converters converter_stack
      out tok
    apply_converters converters converter_stack out rest

/-- State of the step-3 entity walk; the head of `entity_stack` is the
most recently begun entity. -/
structure EntState where
  recognition : Recognition
  entity_stack : List Entity := []
  raw_index : Int := 0
  sub_index : Int := 0
  deriving Repr

/-- The raw-token half of one step-3 iteration: extend the recognition's
raw tokens (and the open entity's, if any) with the matched input tokens,
or with the node word when no input tokens were recorded. -/
def raw_token_update (st : EntState) (raw_token : String)
    (original_tokens : List String) : EntState :=
  if ¬ original_tokens.isEmpty then
    let st := { st with
      recognition := { st.recognition with
        raw_tokens := st.recognition.raw_tokens ++ original_tokens },
      raw_index := st.raw_index +
        ((original_tokens.map pyLen).sum + original_tokens.length : Int) }
    match st.entity_stack with
    | last_entity :: others =>
      { st with entity_stack :=
          { last_entity with raw_tokens :=
              last_entity.raw_tokens ++ original_tokens } :: others }
    | [] => st
  else if raw_token ≠ "" then
    let st := { st with
      recognition := { st.recognition with
        raw_tokens := st.recognition.raw_tokens ++ [raw_token] },
      raw_index := st.raw_index + (pyLen raw_token + 1 : Int) }
    match st.entity_stack with
    | last_entity :: others =>
      { st with entity_stack :=
          { last_entity with raw_tokens :=
              last_entity.raw_tokens ++ [raw_token] } :: others }
    | [] => st
  else st

/-- One iteration of the step-3 entity loop of `path_to_recognition`:
raw-token accumulation, then the converted-token dispatch on the
`__begin__` / `__end__` / `__source__` markers. -/
def collect_entity_step (st : EntState) (tok : RCTok) :
    Except Err EntState :=
  let (raw_token, conv_token, original_tokens) := tok
  -- Handle raw (input) token
  let st := raw_token_update st raw_token original_tokens
  -- Handle converted (output) token
  match conv_token with
  | none => .ok st
  | some v =>
    let conv_token_str := pyStr v
    if conv_token_str = "" then .ok st
    else if pyTake conv_token_str 9 = "__begin__" then
      -- Begin tag/entity (Python slices the raw value, a TypeError on
      -- non-strings)
      match v with
      | .str sv =>
        let entity_name := pyDrop sv 9
        .ok { st with entity_stack :=
            { entity := entity_name, value := .str "",
              start := st.sub_index, raw_start := st.raw_index } ::
              st.entity_stack }
      | _ => .error .valueError
    else if pyTake conv_token_str 7 = "__end__" then
      -- End tag/entity
      match v with
      | .str sv =>
        match st.entity_stack with
        | [] => .error (.assertion "Found __end__ without a __begin__")
        | last_entity :: others =>
          let actual_name := pyDrop sv 7
          if last_entity.entity ≠ actual_name then
            .error (.assertion "Mismatched entity name")
          else
            let last_entity := { last_entity with
              end_ := st.sub_index - 1,
              raw_end := st.raw_index - 1 }
            let last_entity := { last_entity with
              value :=
                match last_entity.tokens with
                | [t] => t
                | ts => .str (" ".intercalate (ts.map pyStr)),
              raw_value := " ".intercalate last_entity.raw_tokens }
            .ok { st with
              entity_stack := others,
              recognition := { st.recognition with
                entities := st.recognition.entities ++ [last_entity] } }
      | _ => .error .valueError
    else if pyTake conv_token_str 10 = "__source__" then
      match st.entity_stack with
      | last_entity :: others =>
        .ok { st with entity_stack :=
            { last_entity with source := pyDrop conv_token_str 10 } ::
              others }
      | [] => .ok st
    else
      match st.entity_stack with
      | last_entity :: others =>
        -- Add to most recent named entity
        .ok { st with
          entity_stack :=
            { last_entity with tokens := last_entity.tokens ++ [v] } ::
              others,
          recognition := { st.recognition with
            tokens := st.recognition.tokens ++ [v] },
          sub_index := st.sub_index + (pyLen conv_token_str + 1 : Int) }
      | [] =>
        -- Substituted text
        .ok { st with
          recognition := { st.recognition with
            tokens := st.recognition.tokens ++ [v] },
          sub_index := st.sub_index + (pyLen conv_token_str + 1 : Int) }

/-- Step 3 of `path_to_recognition`: run the entity loop over the
post-conversion stream. -/
def collect_entities (st : EntState) :
    List RCTok → Except Err EntState
  | [] => .ok st
  | tok :: rest => do
    let st ← collect_entity_step st tok
    collect_entities st rest

/-- Step 4 of `path_to_recognition`: text fields, then the fuzzy
confidence `1 - cost / len(raw_tokens)` when a truthy positive cost was
supplied (a `ZeroDivisionError` when there are no raw tokens). -/
def finalize_recognition (cost : Option ℚ) (r : Recognition) :
    Except Err Recognition :=
  let r := { r with
    text := " ".intercalate (r.tokens.map pyStr),
    raw_text := " ".intercalate r.raw_tokens }
  match cost with
  | some c =>
    if 0 < c then
      match r.intent with
      | none => .error (.assertion "no intent")
      | some it =>
        if r.raw_tokens.length = 0 then .error .zeroDivision
        else .ok { r with intent := some { it with
          confidence := 1 - c / (r.raw_tokens.length : ℚ) } }
    else .ok r
  | none => .ok r

/-- Merge `converters` (default when absent) with `extra_converters`
(`converters.update(extra_converters)`). -/
def merge_converters (converters : Option (String → Option ConvFn))
    (extra_converters : Option (String → Option ConvFn)) :
    String → Option ConvFn :=
  let base := converters.getD get_default_converters
  match extra_converters with
  | none => base
  | some extra => fun n =>
    match extra n with
    | some f => some f
    | none => base n

/-- `path_to_recognition` (`fsticuffs.py`): transform a node path into an
intent recognition.  An empty path is the `FAILURE` result; modelled
exceptions surface as `.error`. -/
def path_to_recognition (node_path : Path) (g : Graph)
    (cost : Option ℚ := none)
    (converters : Option (String → Option ConvFn) := none)
    (extra_converters : Option (String → Option ConvFn) := none) :
    Except Err (RecognitionResult × Option Recognition) :=
  if node_path.isEmpty then .ok (.failure, none)
  else do
    let convs := merge_converters converters extra_converters
    let (raw_sub_tokens, intent_name) ← resolve_olabels g node_path
    let recognition : Recognition :=
      { intent := some { name := intent_name, confidence := 1 } }
    let raw_conv_tokens ← apply_converters convs [] [] raw_sub_tokens
    let st ← collect_entities { recognition := recognition } raw_conv_tokens
    let recognition ← finalize_recognition cost st.recognition
    pure (.success, some recognition)

/-! ## `recognize` (`fsticuffs.py`)

`time.perf_counter()` is ambient state in Python; the two readings are
explicit `start_time` / `end_time` parameters here, and
`recognize_seconds` is their difference. -/

/-- Interpret strict paths in order, keeping the `SUCCESS` results with
the elapsed time attached; a modelled exception aborts the whole call,
as an uncaught Python exception would. -/
def interpret_strict_paths (g : Graph)
    (converters extra_converters : Option (String → Option ConvFn))
    (seconds : ℚ) : List Path → Except Err (List Recognition)
  | [] => .ok []
  | p :: rest => do
    let (result, recognition) ← path_to_recognition p g none converters
      extra_converters
    let acc ← interpret_strict_paths g converters extra_converters seconds
      rest
    match result, recognition with
    | .success, some r =>
      .ok ({ r with recognize_seconds := seconds } :: acc)
    | .success, none => .error (.assertion "recognition is not None")
    | .failure, _ => .ok acc

/-- Interpret the best fuzzy results in order, supplying each result's
cost. -/
def interpret_fuzzy_results (g : Graph)
    (converters extra_converters : Option (String → Option ConvFn))
    (seconds : ℚ) : List FuzzyResult → Except Err (List Recognition)
  | [] => .ok []
  | fr :: rest => do
    let (result, recognition) ← path_to_recognition fr.node_path g
      (some fr.cost) converters extra_converters
    let acc ← interpret_fuzzy_results g converters extra_converters seconds
      rest
    match result, recognition with
    | .success, some r =>
      .ok ({ r with recognize_seconds := seconds } :: acc)
    | .success, none => .error (.assertion "recognition is not None")
    | .failure, _ => .ok acc

/-- `recognize` (`fsticuffs.py`): fuzzy recognition via
`best_fuzzy_cost ∘ paths_fuzzy`, or strict recognition via `paths_strict`
with a one-shot stop-word retry; empty result list when nothing matches. -/
def recognize (fuel : Nat) (tokens : List String) (g : Graph)
    (fuzzy : Bool := true) (stop_words : Option (List String) := none)
    (intent_filter : Option (String → Bool) := none)
    (word_transform : Option (String → String) := none)
    (converters : Option (String → Option ConvFn) := none)
    (extra_converters : Option (String → Option ConvFn) := none)
    (start_time : ℚ := 0) (end_time : ℚ := 0) :
    Except Err (List Recognition) :=
  if fuzzy then do
    -- Fuzzy recognition
    let m ← paths_fuzzy fuel tokens g (stop_words.getD []) none
      intent_filter word_transform
    let best_fuzzy := best_fuzzy_cost m
    if ¬ best_fuzzy.isEmpty then
      interpret_fuzzy_results g converters extra_converters
        (end_time - start_time) best_fuzzy
    else
      -- No results
      .ok []
  else do
    -- Strict recognition
    let paths ← paths_strict fuel tokens g none none intent_filter
      word_transform
    let paths ←
      if paths.isEmpty ∧ exclTruthy stop_words then
        -- Try again by excluding stop words
        let tokens := tokens.filter
          (fun t => ¬ (stop_words.getD []).contains t)
        paths_strict fuel tokens g stop_words none intent_filter
          word_transform
      else pure paths
    interpret_strict_paths g converters extra_converters
      (end_time - start_time) paths

/-! ## Number range rewriting (`number_utils.py`) -/

/-- Leading digit span. -/
def spanDigits (cs : List Char) : List Char × List Char :=
  (cs.takeWhile (·.isDigit), cs.dropWhile (·.isDigit))

/-- The anchored match of
`NUMBER_RANGE_PATTERN = ^(-?[0-9]+)\.\.(-?[0-9]+)(,[0-9]+)?$`, returning
the three capture groups (the third includes its comma, like
`match.group(3)`). -/
def number_range_match (s : String) :
    Option (String × String × Option String) :=
  let cs := s.data
  let (sign1, cs1) :=
    match cs with
    | '-' :: r => (['-'], r)
    | _ => ([], cs)
  let (d1, cs2) := spanDigits cs1
  if d1.isEmpty then none
  else
    match cs2 with
    | '.' :: '.' :: cs3 =>
      let (sign2, cs4) :=
        match cs3 with
        | '-' :: r => (['-'], r)
        | _ => ([], cs3)
      let (d2, cs5) := spanDigits cs4
      if d2.isEmpty then none
      else
        match cs5 with
        | [] =>
          some (String.mk (sign1 ++ d1), String.mk (sign2 ++ d2), none)
        | ',' :: cs6 =>
          let (d3, cs7) := spanDigits cs6
          if d3.isEmpty ∨ ¬ cs7.isEmpty then none
          else
            some (String.mk (sign1 ++ d1), String.mk (sign2 ++ d2),
              some (String.mk (',' :: d3)))
        | _ => none
    | _ => none

/-- `number_range_transform` (`number_utils.py`): rewrite a bare
`lower..upper[,step]` word into a `$mycroft/number` slot reference with an
`int` converter.  `none` models the Python `return None` ("leave the node
unchanged").  Faithful quirk: the source guards the step extraction with
`if len(match.groups()) > 3`, but `match.groups()` of this pattern always
has exactly 3 elements, so the guard is never true and `step` stays `1`. -/
def number_range_transform (word : Expression)
    (slot_name : String := "mycroft/number") : Option Expression :=
  match word with
  | .word text _ _ _ =>
    match number_range_match text with
    | none => none
    | some (g1, g2, g3) =>
      match parseIntStr g1, parseIntStr g2 with
      | .ok lower_bound, .ok upper_bound =>
        let groups_len : Nat := 3
        let step : Int :=
          if groups_len > 3 then
            -- dead branch (guard always false); Python would run
            -- int(match.group(3)[1:])
            match g3 with
            | some g => (parseIntStr (pyDrop g 1)).toOption.getD 1
            | none => 1
          else 1
        some (.slotReference
          (slot_name ++ "," ++ toString lower_bound ++ "," ++
            toString upper_bound ++ "," ++ toString step)
          none ["int"] none)
      | _, _ => none  -- ValueError: not a number
  | _ => none  -- Skip anything besides words

/-- The `$mycroft/number` slot generator registered by `intents_to_graph`
(`jsgf_graph.py`): `range(*args)` rendered as decimal strings. -/
def number_range_values (lower upper step : Int) : List String :=
  if step ≤ 0 then []
  else
    let n : Nat := ((upper - lower + step - 1) / step).toNat
    (List.range n).map (fun i => toString (lower + step * i))

/-- Modelled from the spec: the converter-stack discipline of step 2,
tracking only the stack of `__convert__` keys.  `none` marks an
unbalanced `__converted__` (empty stack or key mismatch). -/
def convKeysStep (stack : List String) (tok : RSTok) :
    Option (List String) :=
  let sub_token := tok.2.1
  if sub_token ≠ "" ∧ ¬ stack.isEmpty ∧ pyTake sub_token 2 ≠ "__" then
    some stack
  else if pyTake sub_token 11 = "__convert__" then
    some (pyDrop sub_token 11 :: stack)
  else if pyTake sub_token 13 = "__converted__" then
    match stack with
    | [] => none
    | top :: rest =>
      if top ≠ pyDrop sub_token 13 then none else some rest
  else some stack

/-- Modelled from the spec: a resolved stream is converter-balanced when
every `__converted__` closes the matching open `__convert__` frame and no
frame stays open at the end. -/
def convBalanced (stack : List String) : List RSTok → Bool
  | [] => stack.isEmpty
  | tok :: rest =>
    match convKeysStep stack tok with
    | none => false
    | some stack2 => convBalanced stack2 rest

/-- Modelled from the spec: the entity-stack discipline of step 3,
tracking only the stack of `__begin__` entity names.  `none` marks an
unbalanced `__end__` (empty stack or name mismatch; a non-string marker
value, which raises in Python, also maps to `none`). -/
def entKeysStep (stack : List String) (tok : RCTok) :
    Option (List String) :=
  match tok.2.1 with
  | none => some stack
  | some v =>
    let conv_token_str := pyStr v
    if conv_token_str = "" then some stack
    else if pyTake conv_token_str 9 = "__begin__" then
      match v with
      | .str sv => some (pyDrop sv 9 :: stack)
      | _ => none
    else if pyTake conv_token_str 7 = "__end__" then
      match v with
      | .str sv =>
        match stack with
        | [] => none
        | top :: rest =>
          if top ≠ pyDrop sv 7 then none else some rest
      | _ => none
    else some stack

/-- Modelled from the spec: a converted stream is entity-balanced when
every `__end__` closes the matching open entity (frames may stay open at
the end: the code drops them silently). -/
def entBalanced (stack : List String) : List RCTok → Bool
  | [] => true
  | tok :: rest =>
    match entKeysStep stack tok with
    | none => false
    | some stack2 => entBalanced stack2 rest

mutual

/-- Modelled from the spec: the exhaustive expansion of a plain (word /
group / alternative) expression into its possible token sequences. -/
def expandExpr : Expression → List (List String)
  | .word text _ _ _ => [[text]]
  | .sequence .group items _ _ _ => expandGroup items
  | .sequence .alternative items _ _ _ => expandAlt items
  | .ruleReference _ _ _ => []
  | .slotReference _ _ _ _ => []

def expandGroup : List Expression → List (List String)
  | [] => [[]]
  | e :: rest =>
    (expandExpr e).bind (fun w => (expandGroup rest).map (fun v => w ++ v))

def expandAlt : List Expression → List (List String)
  | [] => []
  | e :: rest => expandExpr e ++ expandAlt rest

end

mutual

/-- A plain grammar expression: words with non-empty, non-reserved,
non-wildcard text and no substitutions, converters or tags, combined by
bare groups and alternatives (no rule or slot references). -/
def plainExpr : Expression → Bool
  | .word text substitution converters tag =>
    text ≠ "" ∧ pyTake text 2 ≠ "__" ∧ text ≠ WILDCARD ∧
      substitution = none ∧ converters = [] ∧ tag = none
  | .sequence _ items substitution converters tag =>
    plainList items ∧ substitution = none ∧ converters = [] ∧ tag = none
  | .ruleReference _ _ _ => false
  | .slotReference _ _ _ _ => false

def plainList : List Expression → Bool
  | [] => true
  | e :: rest => plainExpr e ∧ plainList rest

end

/-- `plainExpr` over a sentence table. -/
def plainTable (l : List (String × List Expression)) : Bool :=
  l.all (fun p => plainList p.2)

/-- Word-attribute indices stay below the node count (maintained by the
compiler, which only attaches words to fresh nodes). -/
def wordBounds (g : Graph) : Prop := ∀ p ∈ g.words, p.1 < g.numNodes

/-- The structural well-formedness the compiler maintains. -/
def plainGraphOK (g : Graph) : Prop := edgeBounds g ∧ wordBounds g

/-- One compile step only grows the graph: old nodes, edge lookups, word
lookups and the start/final flags all survive. -/
def graphExtends (g g2 : Graph) : Prop :=
  g.numNodes ≤ g2.numNodes ∧
  (∀ a b e, g.edgeBetween a b = some e → g2.edgeBetween a b = some e) ∧
  (∀ n, n < g.numNodes → g2.wordOf n = g.wordOf n) ∧
  g2.starts = g.starts ∧ g2.finals = g.finals

/-- Modelled from the spec: a walk through the compiled graph fragment of
a plain expression, from node `a` to node `c`, consuming `toks` and
recording the `paths_strict`-style entries: word edges consume their
token, epsilon edges consume nothing, and every traversed edge is stored
in the graph with the matching word attribute on its target. -/
inductive Frag (g : Graph) : Nat → List String → Nat → Path → Prop
  | nil (a : Nat) : Frag g a [] a []
  | word (a b : Nat) (t : String) (toks : List String) (c : Nat) (p : Path)
      (he : g.edgeBetween a b =
        some { src := a, dst := b, ilabel := t, olabel := t })
      (hw : g.wordOf b = t) (ht : t ≠ "") (h2 : pyTake t 2 ≠ "__")
      (hwc : t ≠ WILDCARD) (hrest : Frag g b toks c p) :
      Frag g a (t :: toks) c ((a, [t]) :: p)
  | eps (a b : Nat) (toks : List String) (c : Nat) (p : Path)
      (he : g.edgeBetween a b =
        some { src := a, dst := b, ilabel := "", olabel := "" })
      (hw : g.wordOf b = "") (hrest : Frag g b toks c p) :
      Frag g a toks c ((a, []) :: p)

/-- Modelled from the spec: the strict BFS can finish path `P` from a
frontier item `(n, p, toks)` -- either the item already sits accepting at
a final state with no tokens left, or one legal `strict_edge_step` (with
the `recognize` defaults: no exclusions, no intent filter, identity word
transform) leads to an item from which `P` can be finished. -/
inductive Reach (g : Graph) : Nat → Path → List String → Path → Prop
  | done (n : Nat) (p : Path) (h : g.isFinal n = true) : Reach g n p [] p
  | step (n : Nat) (p : Path) (toks : List String) (e : Edge) (n2 : Nat)
      (p2 : Path) (toks2 : List String) (P : Path)
      (hmem : e ∈ g.succOf n)
      (hstep : strict_edge_step none (fun _ => true) (fun x => x) n p toks
        e = some (n2, p2, toks2))
      (hrest : Reach g n2 p2 toks2 P) : Reach g n p toks P

/-- The compile postcondition of the plain-grammar completeness proof:
the graph only grows, stays well-formed, and every expansion of the
compiled expression has a walk from the source to the exit state. -/
def c1Post (g : Graph) (s : Nat) (e : Expression) (g2 : Graph)
    (x : Nat) : Prop :=
  graphExtends g g2 ∧ plainGraphOK g2 ∧
    ∀ w ∈ expandExpr e, ∃ pf, Frag g2 s w x pf

/-! ## Shared concrete instances for witnesses and counterexamples -/

/-- The Recognition of the C3 instance (shared by the C3 witness). -/
def recognitionA2 : Recognition :=
  { intent := some { name := "A", confidence := -1 },
    entities := [], text := "a", raw_text := "a",
    recognize_seconds := 0, tokens := [.str "a"], raw_tokens := ["a"] }

/-- Zero out the wall-clock latency field. -/
def clearSeconds (r : Recognition) : Recognition :=
  { r with recognize_seconds := 0 }

/-- The one-intent plain grammar `[TurnOn] ↦ on`. -/
def c1WitSentences : List (String × List Expression) :=
  [("TurnOn", [Expression.word "on"])]

/-- The compiled graph of `c1WitSentences`. -/
def c1WitGraph : Graph :=
  { numNodes := 4, starts := [0], finals := [3], words := [(2, "on")],
    edges := [{ src := 0, dst := 1, ilabel := "",
                olabel := "__label__TurnOn" },
              { src := 1, dst := 2, ilabel := "on", olabel := "on" },
              { src := 2, dst := 3, ilabel := "", olabel := "" }] }

/-- The Recognition strict recognition of `on` produces. -/
def c1WitRec : Recognition :=
  { intent := some { name := "TurnOn", confidence := 1 },
    text := "on", raw_text := "on", tokens := [.str "on"],
    raw_tokens := ["on"] }

/-- The ambiguous plain grammar `[Greet] ↦ hello | hello`. -/
def c1CexSentences : List (String × List Expression) :=
  [("Greet", [Expression.sequence .alternative
    [Expression.word "hello", Expression.word "hello"]])]

/-- The Recognition strict recognition of `hello` produces (twice). -/
def c1CexRec : Recognition :=
  { intent := some { name := "Greet", confidence := 1 },
    text := "hello", raw_text := "hello", tokens := [.str "hello"],
    raw_tokens := ["hello"] }

/-- The compiled graph of the one-intent grammar `[A] ↦ a`. -/
def graphA : Graph :=
  (sentences_to_graph 50 [("A", [.word "a"])]).toOption.getD {}

/-- The compiled graph of the ambiguous grammar `[A] ↦ hello | hello`
(the same sentence generated by two alternatives). -/
def graphHH : Graph :=
  (sentences_to_graph 50
    [("A", [.sequence .alternative [.word "hello", .word "hello"]])]
  ).toOption.getD {}

/-- The compiled graph of the grammar `[A] ↦ __label__B`, whose single
word uses the reserved intent marker as plain text. -/
def c4CexGraph : Graph :=
  (sentences_to_graph 50 [("A", [.word "__label__B"])]).toOption.getD {}

/-- The compiled graph of the label-free grammar `[TurnOn] ↦ on`. -/
def c4WitGraph : Graph :=
  (sentences_to_graph 50 [("TurnOn", [.word "on"])]).toOption.getD {}

/-- A two-node graph whose only edge emits a bare `__converted__x`
marker with no opening `__convert__`. -/
def c8WitGraph : Graph :=
  (Graph.empty.addStartNode 0).addEdge
    { src := 0, dst := 1, ilabel := "", olabel := "__converted__x" }

/-- The compiled graph of the weighted two-intent grammar
`[A] ↦ a` / `[B] ↦ b | c` (counts 1 and 2). -/
def c6WitGraph : Graph :=
  (sentences_to_graph 50
    [("A", [.word "a"]),
     ("B", [.sequence .alternative [.word "b", .word "c"]])]
  ).toOption.getD {}

/-! ## C10 -/

/-- C10 (confirmed): for every graph, `paths_strict` and `paths_fuzzy`
applied to an empty token list return no paths at all (both return before
any search), so `recognize` on empty input always yields the empty result
list -- in particular also when the compiled grammar accepts the empty
sentence. -/
theorem c10_empty_tokens_no_results (fuel : Nat) (g : Graph)
    (excl : Option (List String)) (mp : Option Nat)
    (ifil : Option (String → Bool)) (wt : Option (String → String))
    (sw : List String)
    (cf : Option (String → List String → FuzzyCostOutput)) (fuzzy : Bool)
    (stop : Option (List String))
    (convs extra : Option (String → Option ConvFn)) (t1 t2 : ℚ) :
    paths_strict fuel [] g excl mp ifil wt = .ok [] ∧
    paths_fuzzy fuel [] g sw cf ifil wt = .ok [] ∧
    recognize fuel [] g fuzzy stop ifil wt convs extra t1 t2 = .ok [] := by
  refine ⟨rfl, rfl, ?_⟩
  cases fuzzy with
  | true =>
    simp [recognize, paths_fuzzy, best_fuzzy_cost, Bind.bind, Except.bind]
  | false =>
    cases stop <;>
      simp [recognize, paths_strict, interpret_strict_paths, exclTruthy,
        Bind.bind, Except.bind, Except.pure, Pure.pure]

/-! ## C7 -/

/-- C7 (code_bug): the claim (and the spec) say a bare word
`lower..upper,step` is rewritten to a `$mycroft/number` slot reference
carrying the parsed lower bound, upper bound **and step**, so that the
generated values enumerate the range with the declared step.  The code's
step extraction is dead: it is guarded by `len(match.groups()) > 3`, but
the pattern has exactly three groups, so `step` is always `1`.  On the
word `5..15,5` the code produces slot arguments `(5, 15, 1)`, and the
`$mycroft/number` generator then enumerates every integer in `[5, 15)`
instead of `5, 10`. -/
theorem c7_step_always_one :
    number_range_transform (.word "5..15,5") =
      some (.slotReference "mycroft/number,5,15,1" none ["int"] none) ∧
    number_range_values 5 15 1 =
      ["5", "6", "7", "8", "9", "10", "11", "12", "13", "14"] ∧
    number_range_values 5 15 5 = ["5", "10"] := by
  refine ⟨rfl, ?_, ?_⟩ <;> rfl

/-! ## C3 -/

/-- `raw_token_update` never touches the recognition's intent. -/
theorem raw_token_update_intent (st : EntState) (raw : String)
    (orig : List String) :
    (raw_token_update st raw orig).recognition.intent =
      st.recognition.intent := by
  unfold raw_token_update
  split
  · dsimp only
    split <;> rfl
  · split
    · dsimp only
      split <;> rfl
    · rfl

/-- One entity-loop step never touches the recognition's intent. -/
theorem collect_entity_step_intent (st : EntState) (tok : RCTok)
    (st' : EntState) (h : collect_entity_step st tok = .ok st') :
    st'.recognition.intent = st.recognition.intent := by
  obtain ⟨raw, conv, orig⟩ := tok
  unfold collect_entity_step at h
  dsimp only at h
  rw [show st.recognition.intent =
      (raw_token_update st raw orig).recognition.intent from
    (raw_token_update_intent st raw orig).symm]
  generalize (raw_token_update st raw orig) = st1 at h
  cases conv with
  | none =>
    cases h
    rfl
  | some v =>
    dsimp only at h
    split at h
    · cases h; rfl
    · split at h
      · -- __begin__
        split at h <;> cases h
        rfl
      · split at h
        · -- __end__
          split at h
          · split at h
            · cases h
            · split at h
              · cases h
              · cases h
                rfl
          · cases h
        · split at h
          · -- __source__
            split at h <;> (cases h; rfl)
          · split at h <;> (cases h; rfl)

/-- The entity loop never touches the recognition's intent. -/
theorem collect_entities_intent : ∀ (l : List RCTok) (st st' : EntState),
    collect_entities st l = .ok st' →
    st'.recognition.intent = st.recognition.intent := by
  intro l
  induction l with
  | nil =>
    intro st st' h
    cases h
    rfl
  | cons tok rest ih =>
    intro st st' h
    unfold collect_entities at h
    cases hs : collect_entity_step st tok with
    | error e =>
      rw [hs] at h
      simp [Bind.bind, Except.bind] at h
    | ok st1 =>
      rw [hs] at h
      simp only [Bind.bind, Except.bind] at h
      exact (ih st1 st' h).trans (collect_entity_step_intent st tok st1 hs)

/-- The entity loop never touches the recognition's raw token list...
(not needed; the raw tokens are read off the final record). -/
theorem finalize_recognition_raw (cost : Option ℚ) (r r' : Recognition)
    (h : finalize_recognition cost r = .ok r') :
    r'.raw_tokens = r.raw_tokens ∧ r'.entities = r.entities := by
  unfold finalize_recognition at h
  dsimp only at h
  split at h
  · split at h
    · split at h
      · simp at h
      · split at h
        · simp at h
        · cases h
          exact ⟨rfl, rfl⟩
    · cases h
      exact ⟨rfl, rfl⟩
  · cases h
    exact ⟨rfl, rfl⟩

/-- C3 (counterexample): the Recognition produced by
`path_to_recognition` for the strict path of `a` in the grammar
`[A] ↦ a`, with a fuzzy cost `2 > 0` supplied, has confidence
`1 - 2/1 = -1`, which lies outside `[0, 1]`. -/
theorem c3_confidence_counterexample :
    (path_to_recognition [(0, []), (1, ["a"]), (2, [])] graphA (some 2)
        none none).map
      (fun p => (p.1, p.2.map (fun r =>
        (r.intent.map (fun it => (it.name, it.confidence)),
          r.raw_tokens)))) =
      .ok (.success, some (some ("A", -1), ["a"])) ∧
    ¬ ((0 : ℚ) ≤ -1) := by
  exact ⟨by with_unfolding_all rfl, by norm_num⟩

/-- Successful runs of `path_to_recognition` decompose into the four
phases. -/
theorem path_to_recognition_ok_elim (node_path : Path) (g : Graph)
    (cost : Option ℚ) (convs extra : Option (String → Option ConvFn))
    (res : RecognitionResult) (r : Recognition)
    (h : path_to_recognition node_path g cost convs extra =
      .ok (res, some r)) :
    ∃ stream iname conv_stream st,
      resolve_olabels g node_path = .ok (stream, iname) ∧
      apply_converters (merge_converters convs extra) [] [] stream =
        .ok conv_stream ∧
      collect_entities
        { recognition :=
            { intent := some { name := iname, confidence := 1 } } }
        conv_stream = .ok st ∧
      finalize_recognition cost st.recognition = .ok r ∧
      res = .success := by
  unfold path_to_recognition at h
  split at h
  · simp at h
  · simp only [Bind.bind, Except.bind] at h
    cases h1 : resolve_olabels g node_path with
    | error e =>
      rw [h1] at h
      simp at h
    | ok p =>
      obtain ⟨stream, iname⟩ := p
      rw [h1] at h
      dsimp only at h
      cases h2 : apply_converters (merge_converters convs extra) [] []
          stream with
      | error e =>
        rw [h2] at h
        simp at h
      | ok conv_stream =>
        rw [h2] at h
        dsimp only at h
        cases h3 : collect_entities
            { recognition :=
                { intent := some { name := iname, confidence := 1 } } }
            conv_stream with
        | error e =>
          rw [h3] at h
          simp at h
        | ok st =>
          rw [h3] at h
          dsimp only at h
          cases h4 : finalize_recognition cost st.recognition with
          | error e =>
            rw [h4] at h
            simp at h
          | ok rfin =>
            rw [h4] at h
            simp only [Pure.pure, Except.pure, Except.ok.injEq,
              Prod.mk.injEq, Option.some.injEq] at h
            obtain ⟨hres, hr⟩ := h
            subst hr
            exact ⟨stream, iname, conv_stream, st, rfl, h2, h3, h4,
              hres.symm⟩

/-- C3 (amended): for every Recognition produced by
`path_to_recognition`, the intent confidence is `1.0` when no cost or a
non-positive cost was supplied, and `1 - c / len(raw_tokens)` when a cost
`c > 0` was supplied (in which case `raw_tokens` is non-empty, else the
division raises); the confidence is then always `< 1`, but lies in
`[0, 1]` if and only if `c ≤ len(raw_tokens)` -- it is **not** clamped,
and pipeline costs can exceed `len(raw_tokens)`. -/
theorem c3_confidence_formula (node_path : Path) (g : Graph)
    (cost : Option ℚ) (convs extra : Option (String → Option ConvFn))
    (res : RecognitionResult) (r : Recognition) (it : Intent)
    (h : path_to_recognition node_path g cost convs extra =
      .ok (res, some r))
    (hit : r.intent = some it) :
    (cost = none → it.confidence = 1) ∧
    (∀ c, cost = some c → ¬ 0 < c → it.confidence = 1) ∧
    (∀ c, cost = some c → 0 < c →
      r.raw_tokens ≠ [] ∧
      it.confidence = 1 - c / (r.raw_tokens.length : ℚ) ∧
      it.confidence < 1 ∧
      (0 ≤ it.confidence ↔ c ≤ (r.raw_tokens.length : ℚ))) := by
  obtain ⟨stream, iname, conv_stream, st, _, _, h3, h4, _⟩ :=
    path_to_recognition_ok_elim node_path g cost convs extra res r h
  have hint : st.recognition.intent =
      some { name := iname, confidence := 1 } :=
    collect_entities_intent conv_stream _ st h3
  unfold finalize_recognition at h4
  dsimp only at h4
  cases cost with
  | none =>
    cases h4
    dsimp only at hit
    rw [hint] at hit
    refine ⟨fun _ => ?_, ?_, ?_⟩
    · cases hit
      rfl
    · intro c hc
      exact nomatch hc
    · intro c hc
      exact nomatch hc
  | some c =>
    dsimp only at h4
    refine ⟨(fun hc => nomatch hc), ?_, ?_⟩
    · intro c' hc' hneg
      cases hc'
      rw [if_neg hneg] at h4
      cases h4
      dsimp only at hit
      rw [hint] at hit
      cases hit
      rfl
    · intro c' hc' hpos
      cases hc'
      rw [if_pos hpos] at h4
      rw [show ({ st.recognition with
          text := " ".intercalate (List.map pyStr st.recognition.tokens),
          raw_text := " ".intercalate st.recognition.raw_tokens
        } : Recognition).intent = st.recognition.intent from rfl, hint]
        at h4
      dsimp only at h4
      split at h4
      · cases h4
      · cases h4
        dsimp only at hit ⊢
        have hlen : st.recognition.raw_tokens.length ≠ 0 := by assumption
        have hlenq : (0 : ℚ) < (st.recognition.raw_tokens.length : ℚ) := by
          exact_mod_cast Nat.pos_of_ne_zero hlen
        simp only [Option.some.injEq] at hit
        have hconf : it.confidence =
            1 - c / (st.recognition.raw_tokens.length : ℚ) := by
          rw [← hit]
        refine ⟨?_, hconf, ?_, ?_⟩
        · intro hnil
          rw [hnil] at hlen
          exact hlen rfl
        · have hdp : 0 < c / (st.recognition.raw_tokens.length : ℚ) :=
            div_pos hpos hlenq
          rw [hconf]
          linarith
        · rw [hconf]
          constructor
          · intro h0
            have hd : c / (st.recognition.raw_tokens.length : ℚ) ≤ 1 := by
              linarith
            exact (div_le_one hlenq).mp hd
          · intro hle
            have hd : c / (st.recognition.raw_tokens.length : ℚ) ≤ 1 :=
              (div_le_one hlenq).mpr hle
            linarith

/-- Witness for `c3_confidence_formula` at the concrete `graphA` path
with cost 2. -/
theorem c3_confidence_formula_witness :
    recognitionA2.raw_tokens ≠ [] ∧
    ({ name := "A", confidence := -1 } : Intent).confidence =
      1 - 2 / ((recognitionA2.raw_tokens.length : ℚ)) ∧
    ({ name := "A", confidence := -1 } : Intent).confidence < 1 ∧
    (0 ≤ ({ name := "A", confidence := -1 } : Intent).confidence ↔
      (2 : ℚ) ≤ (recognitionA2.raw_tokens.length : ℚ)) :=
  (c3_confidence_formula [(0, []), (1, ["a"]), (2, [])] graphA (some 2)
    none none .success recognitionA2 { name := "A", confidence := -1 }
    (by with_unfolding_all rfl) rfl).2.2 2 rfl (by norm_num)

/-! ## C9 -/

/-- C9 (counterexample): `recognize` stamps each Recognition with
`end_time - start_time` from `time.perf_counter()`; two calls with
identical tokens, graph and optional arguments but different clock
readings return records that differ in the `recognize_seconds` field, so
the results are not identical field for field. -/
theorem c9_latency_differs :
    (recognize 1000 ["a"] graphA true none none none none none 0 1).map
        (List.map (·.recognize_seconds)) = .ok [1] ∧
    (recognize 1000 ["a"] graphA true none none none none none 0 2).map
        (List.map (·.recognize_seconds)) = .ok [2] ∧
    ((1 : ℚ) ≠ 2) :=
  ⟨by with_unfolding_all rfl, by with_unfolding_all rfl, by norm_num⟩

/-! ## C2 -/

/-- Looking a key up right after storing it. -/
theorem alGet_alSet {β : Type} (l : List (String × β)) (k : String)
    (v : β) : alGet (alSet l k v) k = some v := by
  induction l with
  | nil => simp [alSet, alGet]
  | cons p rest ih =>
    obtain ⟨k1, v1⟩ := p
    unfold alSet
    by_cases h : k1 = k
    · simp [h, alGet]
    · simp only [if_neg h]
      unfold alGet
      simp [h, ih]

/-- C2 (counterexample): in `paths_fuzzy`, a frontier item that reaches
the final state having consumed one output token is silently dropped when
its accumulated cost is not strictly below its output count.  On the
grammar `[A] ↦ a` with input `["x", "a"]` the only path reaches the final
state with `out_count = 1` and `cost = 1`, so the source search records
nothing, while the search with the claim's recording rule
(`paths_fuzzy_spec`, consumed ≥ 1 output token) records the candidate
with `final_cost = cost + remaining = 1`. -/
theorem c2_final_state_drop :
    paths_fuzzy 1000 ["x", "a"] graphA = .ok [] ∧
    paths_fuzzy_spec 1000 ["x", "a"] graphA =
      .ok [("A", [{ intent_name := "A",
                    node_path := [(0, []), (1, ["a"]), (2, [])],
                    cost := 1 }])] :=
  ⟨by with_unfolding_all rfl, by with_unfolding_all rfl⟩

/-- C2 (amended): a frontier item that reaches a final state is recorded
as a candidate for its intent if and only if its accumulated cost is
strictly below its consumed-output-token count **and** its final cost
(accumulated cost plus remaining-token count) improves or ties the
intent's currently stored best; otherwise the item is dropped (the map is
left unchanged). -/
theorem c2_final_recording_guard (m : List (String × List FuzzyResult))
    (best : ℚ) (q_intent : Option String) (path : Path) (out_count : Nat)
    (cost : ℚ) (toks : List String) :
    (¬ cost < (out_count : ℚ) →
      fuzzy_final_update m best q_intent path out_count cost toks =
        (m, best)) ∧
    (cost < (out_count : ℚ) →
      (best_intent_cost_of m (q_intent.getD "") = none ∨
        (∃ b, best_intent_cost_of m (q_intent.getD "") = some b ∧
          cost + (toks.length : ℚ) ≤ b)) →
      ({ intent_name := q_intent.getD "", node_path := path,
         cost := cost + (toks.length : ℚ) } : FuzzyResult) ∈
        ((alGet (fuzzy_final_update m best q_intent path out_count cost
          toks).1 (q_intent.getD "")).getD [])) ∧
    (cost < (out_count : ℚ) → ∀ b,
      best_intent_cost_of m (q_intent.getD "") = some b →
      b < cost + (toks.length : ℚ) →
      (fuzzy_final_update m best q_intent path out_count cost toks).1 =
        m) := by
  refine ⟨?_, ?_, ?_⟩
  · intro hng
    unfold fuzzy_final_update
    rw [if_neg hng]
  · intro hg hb
    unfold fuzzy_final_update
    rw [if_pos hg]
    dsimp only
    cases hb with
    | inl hnone =>
      rw [hnone]
      rw [alGet_alSet]
      simp
    | inr hsome =>
      obtain ⟨b, hbeq, hle⟩ := hsome
      rw [hbeq]
      dsimp only
      rcases lt_or_eq_of_le hle with hlt | heq
      · rw [if_pos hlt]
        rw [alGet_alSet]
        simp
      · rw [if_neg (by rw [heq]; exact lt_irrefl b), if_pos heq]
        rw [alGet_alSet]
        simp
  · intro hg b hbeq hblt
    unfold fuzzy_final_update
    rw [if_pos hg]
    dsimp only
    rw [hbeq]
    dsimp only
    rw [if_neg (by exact not_lt_of_gt hblt),
      if_neg (by exact ne_of_gt hblt)]

/-- Witness for `c2_final_recording_guard`: a fresh intent with
`cost = 1/2 < out_count = 1` is recorded with `final_cost = 1/2`. -/
theorem c2_final_recording_guard_witness :
    ({ intent_name := (some "A").getD "", node_path := ([] : Path),
       cost := (1 / 2 : ℚ) + ((([] : List String).length : ℕ) : ℚ) } :
      FuzzyResult) ∈
      ((alGet (fuzzy_final_update [] 5 (some "A") [] 1 (1 / 2) []).1
        ((some "A").getD "")).getD []) :=
  (c2_final_recording_guard [] 5 (some "A") [] 1 (1 / 2) []).2.1
    (by norm_num) (Or.inl rfl)

/-! ## C9 (amended) -/

/-- The fuzzy interpretation loop is clock-independent after erasing
`recognize_seconds`. -/
theorem interpret_fuzzy_results_clear (g : Graph)
    (convs extra : Option (String → Option ConvFn)) (s s' : ℚ) :
    ∀ l, (interpret_fuzzy_results g convs extra s l).map
        (List.map clearSeconds) =
      (interpret_fuzzy_results g convs extra s' l).map
        (List.map clearSeconds) := by
  intro l
  induction l with
  | nil => rfl
  | cons fr rest ih =>
    unfold interpret_fuzzy_results
    simp only [Bind.bind, Except.bind]
    cases path_to_recognition fr.node_path g (some fr.cost) convs extra with
    | error e => rfl
    | ok p =>
      obtain ⟨result, recognition⟩ := p
      dsimp only
      cases hL : interpret_fuzzy_results g convs extra s rest with
      | error e =>
        cases hR : interpret_fuzzy_results g convs extra s' rest with
        | error f =>
          rw [hL, hR] at ih
          simp only [Except.map] at ih
          cases ih
          cases result <;> cases recognition <;> rfl
        | ok accR =>
          rw [hL, hR] at ih
          simp [Except.map] at ih
      | ok accL =>
        cases hR : interpret_fuzzy_results g convs extra s' rest with
        | error f =>
          rw [hL, hR] at ih
          simp [Except.map] at ih
        | ok accR =>
          rw [hL, hR] at ih
          simp only [Except.map, Except.ok.injEq] at ih
          cases result with
          | failure =>
            cases recognition <;> (simp only [Except.map]; rw [ih])
          | success =>
            cases recognition with
            | none => rfl
            | some r =>
              simp only [Except.map, Except.ok.injEq, List.map_cons,
                clearSeconds]
              rw [ih]

/-- The strict interpretation loop is clock-independent after erasing
`recognize_seconds`. -/
theorem interpret_strict_paths_clear (g : Graph)
    (convs extra : Option (String → Option ConvFn)) (s s' : ℚ) :
    ∀ l, (interpret_strict_paths g convs extra s l).map
        (List.map clearSeconds) =
      (interpret_strict_paths g convs extra s' l).map
        (List.map clearSeconds) := by
  intro l
  induction l with
  | nil => rfl
  | cons p rest ih =>
    unfold interpret_strict_paths
    simp only [Bind.bind, Except.bind]
    cases path_to_recognition p g none convs extra with
    | error e => rfl
    | ok q =>
      obtain ⟨result, recognition⟩ := q
      dsimp only
      cases hL : interpret_strict_paths g convs extra s rest with
      | error e =>
        cases hR : interpret_strict_paths g convs extra s' rest with
        | error f =>
          rw [hL, hR] at ih
          simp only [Except.map] at ih
          cases ih
          cases result <;> cases recognition <;> rfl
        | ok accR =>
          rw [hL, hR] at ih
          simp [Except.map] at ih
      | ok accL =>
        cases hR : interpret_strict_paths g convs extra s' rest with
        | error f =>
          rw [hL, hR] at ih
          simp [Except.map] at ih
        | ok accR =>
          rw [hL, hR] at ih
          simp only [Except.map, Except.ok.injEq] at ih
          cases result with
          | failure =>
            cases recognition <;> (simp only [Except.map]; rw [ih])
          | success =>
            cases recognition with
            | none => rfl
            | some r =>
              simp only [Except.map, Except.ok.injEq, List.map_cons,
                clearSeconds]
              rw [ih]

/-- C9 (amended): `recognize` is deterministic and idempotent up to the
wall-clock latency field: with the same tokens, graph and optional
arguments, any two calls -- whatever the two `perf_counter` readings were
-- return identical lists of Recognition records once
`recognize_seconds` is erased. -/
theorem c9_deterministic_up_to_latency (fuel : Nat)
    (tokens : List String) (g : Graph) (fuzzy : Bool)
    (stop : Option (List String)) (ifil : Option (String → Bool))
    (wt : Option (String → String))
    (convs extra : Option (String → Option ConvFn)) (t1 t2 t1' t2' : ℚ) :
    (recognize fuel tokens g fuzzy stop ifil wt convs extra t1 t2).map
      (List.map clearSeconds) =
    (recognize fuel tokens g fuzzy stop ifil wt convs extra t1' t2').map
      (List.map clearSeconds) := by
  cases fuzzy with
  | true =>
    unfold recognize
    simp only [Bind.bind, Except.bind, if_true]
    cases paths_fuzzy fuel tokens g (stop.getD []) none ifil wt with
    | error e => rfl
    | ok m =>
      dsimp only
      split
      · exact interpret_fuzzy_results_clear g convs extra (t2 - t1)
          (t2' - t1') _
      · rfl
  | false =>
    unfold recognize
    simp only [Bind.bind, Except.bind, Bool.false_eq_true, if_false]
    cases paths_strict fuel tokens g none none ifil wt with
    | error e => rfl
    | ok paths =>
      dsimp only
      split
      · cases paths_strict fuel
            (tokens.filter (fun t => ¬ (stop.getD []).contains t)) g stop
            none ifil wt with
        | error e => rfl
        | ok paths2 =>
          exact interpret_strict_paths_clear g convs extra (t2 - t1)
            (t2' - t1') paths2
      · exact interpret_strict_paths_clear g convs extra (t2 - t1)
          (t2' - t1') paths

/-! ## C5 -/

/-- The alphabet round trip on 6-bit values. -/
theorem codeToVal_valToCode : ∀ v < 64, codeToVal (valToCode v) = some v := by
  decide

/-- The alphabet never produces a space byte. -/
theorem valToCode_ne_space (v : Nat) : valToCode v ≠ 32 := by
  unfold valToCode
  cases h : b64table.get? v with
  | none => simp
  | some c =>
    have hmem : c ∈ b64table := List.get?_mem h
    have hall : ∀ x ∈ b64table, x ≠ 32 := by decide
    simpa using hall c hmem

/-- Whitespace bytes are not base64 alphabet bytes. -/
theorem codeToVal_ws (b : Nat) (h : isWsByte b = true) :
    codeToVal b = none := by
  unfold isWsByte at h
  simp only [decide_eq_true_eq] at h
  rcases h with h | h | h | h | h | h <;> subst h <;> decide

/-- The 6-bit values produced by `encodeVals` are below 64 when the input
bytes are below 256. -/
theorem encodeVals_lt : ∀ (bs : List Nat), (∀ b ∈ bs, b < 256) →
    ∀ v ∈ encodeVals bs, v < 64 := by
  intro bs
  induction bs using encodeVals.induct with
  | case1 a b c rest ih =>
    intro hb v hv
    simp only [encodeVals, List.cons_append, List.nil_append,
      List.mem_cons] at hv
    have ha : a < 256 := hb a (by simp)
    have hbb : b < 256 := hb b (by simp)
    have hc : c < 256 := hb c (by simp)
    rcases hv with h | h | h | h | h
    · omega
    · omega
    · omega
    · omega
    · exact ih (fun x hx => hb x (by simp [hx])) v h
  | case2 a b =>
    intro hb v hv
    simp only [encodeVals, List.mem_cons] at hv
    have ha : a < 256 := hb a (by simp)
    have hbb : b < 256 := hb b (by simp)
    rcases hv with h | h | h | h <;> first | omega | simp at h
  | case3 a =>
    intro hb v hv
    simp only [encodeVals, List.mem_cons] at hv
    have ha : a < 256 := hb a (by simp)
    rcases hv with h | h | h <;> first | omega | simp at h
  | case4 =>
    intro _ v hv
    simp [encodeVals] at hv

/-- Decoding inverts encoding on the 6-bit value stream. -/
theorem decodeVals_encodeVals : ∀ (bs : List Nat),
    (∀ b ∈ bs, b < 256) → decodeVals (encodeVals bs) = bs := by
  intro bs
  induction bs using encodeVals.induct with
  | case1 a b c rest ih =>
    intro hb
    have ha : a < 256 := hb a (by simp)
    have hbb : b < 256 := hb b (by simp)
    have hc : c < 256 := hb c (by simp)
    have hrest := ih (fun x hx => hb x (by simp [hx]))
    have e1 : a / 4 * 4 + (a % 4 * 16 + b / 16) / 16 = a := by omega
    have e2 : (a % 4 * 16 + b / 16) % 16 * 16 +
        (b % 16 * 4 + c / 64) / 4 = b := by omega
    have e3 : (b % 16 * 4 + c / 64) % 4 * 64 + c % 64 = c := by omega
    simp only [encodeVals, List.cons_append, List.nil_append, decodeVals,
      List.append_eq, hrest, e1, e2, e3]
  | case2 a b =>
    intro hb
    have ha : a < 256 := hb a (by simp)
    have hbb : b < 256 := hb b (by simp)
    have e1 : a / 4 * 4 + (a % 4 * 16 + b / 16) / 16 = a := by omega
    have e2 : (a % 4 * 16 + b / 16) % 16 * 16 + (b % 16 * 4) / 4 = b := by
      omega
    simp only [encodeVals, decodeVals, e1, e2]
  | case3 a =>
    intro hb
    have ha : a < 256 := hb a (by simp)
    have e1 : a / 4 * 4 + (a % 4 * 16) / 16 = a := by omega
    simp only [encodeVals, decodeVals, e1]
  | case4 =>
    intro _
    rfl

/-- `encodeVals` distributes over an append at a multiple of three. -/
theorem encodeVals_append : ∀ (l1 l2 : List Nat), l1.length % 3 = 0 →
    encodeVals (l1 ++ l2) = encodeVals l1 ++ encodeVals l2 := by
  intro l1
  induction l1 using encodeVals.induct with
  | case1 a b c rest ih =>
    intro l2 hlen
    simp only [List.length_cons] at hlen
    simp only [List.cons_append, encodeVals, List.append_assoc,
      List.append_eq]
    rw [ih l2 (by omega)]
  | case2 a b =>
    intro l2 hlen
    simp at hlen
  | case3 a =>
    intro l2 hlen
    simp at hlen
  | case4 =>
    intro l2 _
    rfl

/-- Decoding skips nothing over values rendered through the alphabet. -/
theorem filterMap_map_valToCode : ∀ (vs : List Nat), (∀ v ∈ vs, v < 64) →
    (vs.map valToCode).filterMap codeToVal = vs := by
  intro vs
  induction vs with
  | nil => intro _; rfl
  | cons v rest ih =>
    intro hv
    simp only [List.map_cons, List.filterMap_cons,
      codeToVal_valToCode v (hv v (by simp))]
    rw [ih (fun x hx => hv x (by simp [hx]))]

/-- Skipping non-alphabet bytes over one encoded base64 line recovers the
chunk's 6-bit values. -/
theorem filterMap_line (c : List Nat) (hc : ∀ b ∈ c, b < 256) :
    (b64EncodeLine c ++ [10]).filterMap codeToVal = encodeVals c := by
  have hvals : ∀ v ∈ encodeVals c, v < 64 := encodeVals_lt c hc
  unfold b64EncodeLine
  rw [List.append_assoc, List.filterMap_append,
    filterMap_map_valToCode _ hvals]
  have h61 : codeToVal 61 = none := by decide
  have h10 : codeToVal 10 = none := by decide
  have hpad : ((match c.length % 3 with
      | 1 => [61, 61]
      | 2 => [61]
      | _ => ([] : List Nat)) ++ [10]).filterMap codeToVal = [] := by
    cases h3 : c.length % 3 with
    | zero => simp [List.filterMap_cons, h10]
    | succ n =>
      cases n with
      | zero => simp [List.filterMap_cons, h61, h10]
      | succ n2 =>
        cases n2 with
        | zero => simp [List.filterMap_cons, h61, h10]
        | succ n3 => simp [List.filterMap_cons, h10]
  rw [hpad, List.append_nil]

/-- Flattening the 57-byte chunks recovers the original bytes. -/
theorem chunk57_flatten : ∀ (bs : List Nat), (chunk57 bs).flatten = bs := by
  intro bs
  induction bs using chunk57.induct with
  | case1 =>
    rw [chunk57]
    rfl
  | case2 x xs ih =>
    rw [chunk57]
    rw [List.flatten_cons, ih, List.take_append_drop]

/-- A short non-empty byte string is a single chunk. -/
theorem chunk57_short (l : List Nat) (hne : l ≠ []) (hlen : l.length ≤ 57) :
    chunk57 l = [l] := by
  cases l with
  | nil => exact absurd rfl hne
  | cons x xs =>
    rw [chunk57]
    rw [List.take_of_length_le hlen, List.drop_eq_nil_of_le hlen, chunk57]

/-- `encodeVals` splits at the 57-byte chunk boundary (57 = 3 * 19). -/
theorem encodeVals_take_drop (bs : List Nat) :
    encodeVals bs = encodeVals (bs.take 57) ++ encodeVals (bs.drop 57) := by
  by_cases h : bs.length ≤ 57
  · rw [List.take_of_length_le h, List.drop_eq_nil_of_le h]
    rw [show encodeVals [] = [] from rfl, List.append_nil]
  · have hlen : (bs.take 57).length % 3 = 0 := by
      rw [List.length_take]
      omega
    conv_lhs => rw [← List.take_append_drop 57 bs]
    exact encodeVals_append _ _ hlen

/-- Skipping non-alphabet bytes over the whole `encodebytes` rendering
recovers the full 6-bit value stream. -/
theorem filterMap_encodebytes : ∀ (bs : List Nat), (∀ b ∈ bs, b < 256) →
    (encodebytes bs).filterMap codeToVal = encodeVals bs := by
  intro bs
  induction bs using chunk57.induct with
  | case1 =>
    intro _
    unfold encodebytes
    rw [chunk57]
    rfl
  | case2 x xs ih =>
    intro hb
    have hunfold : encodebytes (x :: xs) =
        (b64EncodeLine ((x :: xs).take 57) ++ [10]) ++
          encodebytes ((x :: xs).drop 57) := by
      unfold encodebytes
      rw [chunk57]
      rw [List.map_cons, List.flatten_cons]
    rw [hunfold, List.filterMap_append]
    rw [filterMap_line _ (fun b hbm => hb b (List.take_subset 57 _ hbm))]
    rw [ih (fun b hbm => hb b (List.drop_subset 57 _ hbm))]
    exact (encodeVals_take_drop (x :: xs)).symm

/-- Dropping leading whitespace does not change the decoded value
stream (whitespace bytes never decode). -/
theorem filterMap_dropWhile_ws : ∀ (l : List Nat),
    (l.dropWhile isWsByte).filterMap codeToVal = l.filterMap codeToVal := by
  intro l
  induction l with
  | nil => rfl
  | cons b rest ih =>
    by_cases hws : isWsByte b = true
    · rw [List.dropWhile_cons, if_pos hws, ih,
        List.filterMap_cons_none (codeToVal_ws b hws)]
    · rw [List.dropWhile_cons, if_neg (by simp [hws])]

/-- Stripping outer whitespace does not change the decoded value stream. -/
theorem filterMap_stripBytes (l : List Nat) :
    (stripBytes l).filterMap codeToVal = l.filterMap codeToVal := by
  unfold stripBytes
  rw [List.filterMap_reverse, filterMap_dropWhile_ws, List.filterMap_reverse,
    List.reverse_reverse, filterMap_dropWhile_ws]

/-- Decoding the stripped `encodebytes` rendering recovers the original
bytes: the byte-level base64 round trip. -/
theorem decodebytes_strip_encodebytes (bs : List Nat)
    (hb : ∀ b ∈ bs, b < 256) :
    decodebytes (stripBytes (encodebytes bs)) = bs := by
  unfold decodebytes
  rw [filterMap_stripBytes, filterMap_encodebytes bs hb,
    decodeVals_encodeVals bs hb]

/-- The `__unpack__` marker is ten bytes. -/
theorem unpackMarkerBytes_length : unpackMarkerBytes.length = 10 := by
  with_unfolding_all rfl

/-- Characters are valid Unicode scalar values. -/
theorem char_toNat_valid (c : Char) :
    c.toNat < 55296 ∨ (57344 ≤ c.toNat ∧ c.toNat < 1114112) := by
  have h := c.valid
  unfold UInt32.isValidChar Nat.isValidChar at h
  exact h

/-- `Char.ofNat` is a right inverse of `Char.toNat` on ASCII codes. -/
theorem toNat_ofNat_ascii (b : Nat) (h : b < 128) :
    (Char.ofNat b).toNat = b := by
  have hv : b.isValidChar := Or.inl (by omega)
  unfold Char.ofNat
  rw [dif_pos hv]
  rfl

/-- UTF-8 renderings consist of bytes. -/
theorem utf8Bytes_lt (c : Char) : ∀ b ∈ utf8Bytes c, b < 256 := by
  have hval := char_toNat_valid c
  intro b hb
  simp only [utf8Bytes] at hb
  split at hb
  · simp at hb
    omega
  · split at hb
    · simp at hb
      rcases hb with hb | hb <;> omega
    · split at hb
      · simp at hb
        rcases hb with hb | hb | hb <;> omega
      · simp at hb
        rcases hb with hb | hb | hb | hb <;> omega

/-- Bytes of an encoded string are bytes. -/
theorem stringBytes_lt (s : String) : ∀ b ∈ stringBytes s, b < 256 := by
  intro b hb
  unfold stringBytes at hb
  rw [List.mem_flatMap] at hb
  obtain ⟨c, _, hbc⟩ := hb
  exact utf8Bytes_lt c b hbc

/-- UTF-8 decoding undoes the encoding of one character prepended to any
byte stream. -/
theorem utf8Decode_utf8Bytes_cons (c : Char) (rest : List Nat) :
    utf8Decode (utf8Bytes c ++ rest) = (utf8Decode rest).map (c :: ·) := by
  have hval := char_toNat_valid c
  have hofNat : Char.ofNat c.toNat = c := Char.ofNat_toNat c
  by_cases h1 : c.toNat < 128
  · have he : utf8Bytes c = [c.toNat] := by
      unfold utf8Bytes
      rw [if_pos h1]
    rw [he, List.singleton_append, utf8Decode.eq_def]
    simp only
    rw [if_pos h1, hofNat]
  · by_cases h2 : c.toNat < 2048
    · have he : utf8Bytes c =
          [192 + c.toNat / 64, 128 + c.toNat % 64] := by
        unfold utf8Bytes
        rw [if_neg h1, if_pos h2]
      have harith : (192 + c.toNat / 64 - 192) * 64 +
          (128 + c.toNat % 64 - 128) = c.toNat := by omega
      rw [he, List.cons_append, List.cons_append, List.nil_append,
        utf8Decode.eq_def]
      simp only [List.length_cons, List.getD_cons_zero, List.getD_cons_succ,
        List.drop_succ_cons, List.drop_zero]
      rw [if_neg (by omega), if_pos (by omega), if_pos (by omega)]
      rw [harith, hofNat]
    · by_cases h3 : c.toNat < 65536
      · have he : utf8Bytes c = [224 + c.toNat / 4096,
            128 + (c.toNat / 64) % 64, 128 + c.toNat % 64] := by
          unfold utf8Bytes
          rw [if_neg h1, if_neg h2, if_pos h3]
        have harith : (224 + c.toNat / 4096 - 224) * 4096 +
            (128 + (c.toNat / 64) % 64 - 128) * 64 +
            (128 + c.toNat % 64 - 128) = c.toNat := by omega
        rw [he, List.cons_append, List.cons_append, List.cons_append,
          List.nil_append, utf8Decode.eq_def]
        simp only [List.length_cons, List.getD_cons_zero,
          List.getD_cons_succ, List.drop_succ_cons, List.drop_zero]
        rw [if_neg (by omega), if_neg (by omega), if_pos (by omega),
          if_pos (by omega)]
        rw [harith, hofNat]
      · have he : utf8Bytes c = [240 + c.toNat / 262144,
            128 + (c.toNat / 4096) % 64, 128 + (c.toNat / 64) % 64,
            128 + c.toNat % 64] := by
          unfold utf8Bytes
          rw [if_neg h1, if_neg h2, if_neg h3]
        have harith : (240 + c.toNat / 262144 - 240) * 262144 +
            (128 + (c.toNat / 4096) % 64 - 128) * 4096 +
            (128 + (c.toNat / 64) % 64 - 128) * 64 +
            (128 + c.toNat % 64 - 128) = c.toNat := by omega
        rw [he, List.cons_append, List.cons_append, List.cons_append,
          List.cons_append, List.nil_append, utf8Decode.eq_def]
        simp only [List.length_cons, List.getD_cons_zero,
          List.getD_cons_succ, List.drop_succ_cons, List.drop_zero]
        rw [if_neg (by omega), if_neg (by omega), if_neg (by omega),
          if_pos (by omega), if_pos (by omega)]
        rw [harith, hofNat]

/-- UTF-8 decoding undoes character-wise encoding of any character list. -/
theorem utf8Decode_flatMap : ∀ (cs : List Char),
    utf8Decode (cs.flatMap utf8Bytes) = some cs := by
  intro cs
  induction cs with
  | nil =>
    rw [show ([] : List Char).flatMap utf8Bytes = [] from rfl, utf8Decode]
  | cons c rest ih =>
    rw [List.flatMap_cons, utf8Decode_utf8Bytes_cons, ih]
    rfl

/-- `bytes.decode` undoes `str.encode`. -/
theorem utf8Decode_stringBytes (s : String) :
    utf8Decode (stringBytes s) = some s.data :=
  utf8Decode_flatMap s.data

/-- Every base64 alphabet byte is printable ASCII. -/
theorem b64table_ascii : ∀ v ∈ b64table, 43 ≤ v ∧ v < 128 := by decide

/-- Rendered 6-bit values are printable ASCII. -/
theorem valToCode_ascii (v : Nat) :
    43 ≤ valToCode v ∧ valToCode v < 128 := by
  unfold valToCode
  cases hv : b64table.get? v with
  | none =>
    simp only [Option.getD_none]
    omega
  | some x =>
    simp only [Option.getD_some]
    exact b64table_ascii x (List.get?_mem hv)

/-- Bytes at or above `!` are not whitespace. -/
theorem isWsByte_false_of_ge (b : Nat) (h : 33 ≤ b) :
    isWsByte b = false := by
  unfold isWsByte
  simp only [decide_eq_false_iff_not]
  omega

/-- Every byte of one base64 line (alphabet bytes plus `=` padding) is
printable ASCII. -/
theorem b64EncodeLine_ascii (c : List Nat) :
    ∀ b ∈ b64EncodeLine c, 43 ≤ b ∧ b < 128 := by
  intro b hb
  unfold b64EncodeLine at hb
  rw [List.mem_append] at hb
  rcases hb with hb | hb
  · rw [List.mem_map] at hb
    obtain ⟨v, _, hv⟩ := hb
    rw [← hv]
    exact valToCode_ascii v
  · split at hb <;> (simp at hb; try omega)

/-- Every byte `encodebytes` emits is ASCII (alphabet, padding or the
newline). -/
theorem encodebytes_ascii (bs : List Nat) :
    ∀ b ∈ encodebytes bs, b < 128 := by
  intro b hb
  unfold encodebytes at hb
  rw [List.mem_flatten] at hb
  obtain ⟨l, hl, hbl⟩ := hb
  rw [List.mem_map] at hl
  obtain ⟨c, _, hc⟩ := hl
  rw [← hc, List.mem_append] at hbl
  rcases hbl with h | h
  · exact (b64EncodeLine_ascii c b h).2
  · simp at h
    omega

/-- `str.encode` distributes over string concatenation. -/
theorem stringBytes_append (a b : String) :
    stringBytes (a ++ b) = stringBytes a ++ stringBytes b := by
  unfold stringBytes
  rw [String.data_append, List.flatMap_append]

/-- Stripping only removes bytes. -/
theorem stripBytes_subset (l : List Nat) : stripBytes l ⊆ l := by
  intro b hb
  unfold stripBytes at hb
  rw [List.mem_reverse] at hb
  have h1 : b ∈ (l.dropWhile isWsByte).reverse :=
    List.dropWhile_subset isWsByte hb
  rw [List.mem_reverse] at h1
  exact List.dropWhile_subset isWsByte h1

/-- Encoding the characters of an ASCII byte list yields those bytes. -/
theorem flatMap_utf8_ofNat : ∀ (l : List Nat), (∀ b ∈ l, b < 128) →
    (l.map Char.ofNat).flatMap utf8Bytes = l := by
  intro l
  induction l with
  | nil => intro _; rfl
  | cons b rest ih =>
    intro h
    have hb : b < 128 := h b (by simp)
    have ht := toNat_ofNat_ascii b hb
    have he : utf8Bytes (Char.ofNat b) = [b] := by
      simp only [utf8Bytes, ht]
      rw [if_pos hb]
    rw [List.map_cons, List.flatMap_cons, he,
      ih (fun x hx => h x (by simp [hx]))]
    rfl

/-- `dropWhile` is the identity on whitespace-free byte lists. -/
theorem dropWhile_ws_of_head (l : List Nat)
    (h : ∀ b ∈ l, isWsByte b = false) : l.dropWhile isWsByte = l := by
  cases l with
  | nil => rfl
  | cons b rest =>
    rw [List.dropWhile_cons, h b (by simp), if_neg (by simp)]

/-- Stripping a whitespace-free line plus its trailing newline yields the
line. -/
theorem stripBytes_no_ws (l : List Nat)
    (h : ∀ b ∈ l, isWsByte b = false) : stripBytes (l ++ [10]) = l := by
  cases l with
  | nil => decide
  | cons x rest =>
    unfold stripBytes
    rw [List.cons_append, List.dropWhile_cons, h x (by simp),
      if_neg (by simp)]
    have h1 : (x :: (rest ++ [10])).reverse =
        10 :: (rest.reverse ++ [x]) := by simp
    have h2 : ∀ b ∈ rest.reverse ++ [x], isWsByte b = false := by
      intro b hb
      rw [List.mem_append, List.mem_reverse] at hb
      rcases hb with hb | hb
      · exact h b (by simp [hb])
      · simp at hb
        subst hb
        exact h b (by simp)
    rw [h1, List.dropWhile_cons, show isWsByte 10 = true from rfl,
      if_pos rfl, dropWhile_ws_of_head _ h2]
    simp

/-- In the packed branch, `maybe_pack` prefixes the marker to the
ASCII-rendered, stripped base64 payload. -/
theorem maybe_pack_of_space (s : String) (hc : pyContains s ' ' = true) :
    maybe_pack s = "__unpack__" ++
      String.mk ((stripBytes (encodebytes (stringBytes s))).map
        Char.ofNat) := by
  unfold maybe_pack
  rw [if_pos hc]

/-- Taking ten characters after the marker recovers the marker. -/
theorem pyTake_marker_append (X : String) :
    pyTake ("__unpack__" ++ X) 10 = "__unpack__" := by
  unfold pyTake
  rw [String.data_append,
    show (10 : Nat) = ("__unpack__" : String).data.length from rfl,
    List.take_left]

/-- Dropping ten characters after the marker recovers the payload. -/
theorem pyDrop_marker_append (X : String) :
    pyDrop ("__unpack__" ++ X) 10 = X := by
  unfold pyDrop
  rw [String.data_append,
    show (10 : Nat) = ("__unpack__" : String).data.length from rfl,
    List.drop_left]

/-- Decoding the rendered packed payload recovers the original label. -/
theorem b64decode_pack_payload (s : String) :
    b64decodeString (String.mk
      ((stripBytes (encodebytes (stringBytes s))).map Char.ofNat)) =
      .ok s := by
  have hascii : ∀ b ∈ stripBytes (encodebytes (stringBytes s)), b < 128 :=
    fun b hb => encodebytes_ascii (stringBytes s) b (stripBytes_subset _ hb)
  have hSB : stringBytes (String.mk
      ((stripBytes (encodebytes (stringBytes s))).map Char.ofNat)) =
      stripBytes (encodebytes (stringBytes s)) :=
    flatMap_utf8_ofNat _ hascii
  unfold b64decodeString
  rw [hSB, decodebytes_strip_encodebytes (stringBytes s) (stringBytes_lt s),
    utf8Decode_stringBytes s]

/-- **C5** (amended).  The Path Interpreter's unpacking step recovers
every label `maybe_pack` packs: labels containing a space are
base64-packed behind the `__unpack__` marker and unpacking returns
exactly the original label, and labels without a space pass through both
functions unchanged provided they do not themselves begin with
`__unpack__`.  Moreover, when the packed label's UTF-8 encoding fits in
one 57-byte `base64.encodebytes` chunk, the packed rendering is
whitespace-free.  (The original claim's unconditional whitespace-freedom
is refuted by `c5_packed_label_contains_newline`: longer labels keep an
interior newline, and a spaceless label that itself starts with
`__unpack__` is spuriously decoded.) -/
theorem c5_pack_roundtrip (s : String)
    (h : pyContains s ' ' = true ∨ pyTake s 10 ≠ "__unpack__") :
    unpack_step (maybe_pack s) = .ok s ∧
    (pyContains s ' ' = true → (stringBytes s).length ≤ 57 →
      ∀ b ∈ stringBytes (maybe_pack s), isWsByte b = false) := by
  constructor
  · by_cases hc : pyContains s ' ' = true
    · rw [maybe_pack_of_space s hc]
      unfold unpack_step
      rw [pyTake_marker_append, if_pos rfl, pyDrop_marker_append,
        b64decode_pack_payload]
    · have hm : maybe_pack s = s := by
        unfold maybe_pack
        rw [if_neg hc]
      rw [hm]
      unfold unpack_step
      rw [if_neg (h.resolve_left hc)]
  · intro hc hlen b hb
    rw [maybe_pack_of_space s hc, stringBytes_append,
      List.mem_append] at hb
    rcases hb with hb | hb
    · have hmark : ∀ x ∈ stringBytes "__unpack__",
          isWsByte x = false := by decide
      exact hmark b hb
    · have hascii : ∀ x ∈ stripBytes (encodebytes (stringBytes s)),
          x < 128 := fun x hx =>
        encodebytes_ascii (stringBytes s) x (stripBytes_subset _ hx)
      have hSB : stringBytes (String.mk
          ((stripBytes (encodebytes (stringBytes s))).map Char.ofNat)) =
          stripBytes (encodebytes (stringBytes s)) :=
        flatMap_utf8_ofNat _ hascii
      rw [hSB] at hb
      have hmem : (32 : Nat) ∈ stringBytes s := by
        unfold pyContains at hc
        have hc2 : ' ' ∈ s.data := by simpa using hc
        unfold stringBytes
        rw [List.mem_flatMap]
        exact ⟨' ', hc2, by decide⟩
      have hne : stringBytes s ≠ [] := List.ne_nil_of_mem hmem
      have hchunk : encodebytes (stringBytes s) =
          b64EncodeLine (stringBytes s) ++ [10] := by
        unfold encodebytes
        rw [chunk57_short (stringBytes s) hne hlen]
        simp
      rw [hchunk, stripBytes_no_ws _ (fun x hx =>
        isWsByte_false_of_ge x (by
          have := (b64EncodeLine_ascii (stringBytes s) x hx).1
          omega))] at hb
      exact isWsByte_false_of_ge b
        (by have := (b64EncodeLine_ascii (stringBytes s) b hb).1; omega)

/-- Witness for `c5_pack_roundtrip` at the concrete label `"turn on"`
(contains a space, eight UTF-8 bytes): packing round-trips and the packed
rendering is whitespace-free. -/
theorem c5_pack_roundtrip_witness :
    unpack_step (maybe_pack "turn on") = .ok "turn on" ∧
    ∀ b ∈ stringBytes (maybe_pack "turn on"), isWsByte b = false := by
  have h := c5_pack_roundtrip "turn on" (Or.inl (by with_unfolding_all rfl))
  exact ⟨h.1, h.2 (by with_unfolding_all rfl) (by with_unfolding_all decide)⟩

/-- **C5** (counterexample).  The packed rendering of a 61-byte label (a
space followed by sixty `a`s) still contains a newline character:
`base64.encodebytes` emits one newline-terminated line per 57-byte chunk
and `str.strip` removes only the outer whitespace, so the claimed
whitespace-freedom of `maybe_pack` fails. -/
theorem c5_packed_label_contains_newline :
    pyContains (maybe_pack (String.mk (' ' :: List.replicate 60 'a')))
      (Char.ofNat 10) = true := by
  with_unfolding_all rfl

/-! ## C4: start/final uniqueness and the single-`__label__` invariant -/

/-- A string with a long enough non-`__label__` head is not an intent
marker. -/
theorem isLabelOlabel_append_long (p s : String) (h9 : 9 ≤ p.data.length)
    (hp : String.mk (p.data.take 9) ≠ "__label__") :
    isLabelOlabel (p ++ s) = false := by
  unfold isLabelOlabel pyTake
  rw [String.data_append, List.take_append_of_le_length h9]
  simp [hp]

/-- `__label__`-marked strings are recognized. -/
theorem isLabelOlabel_label (s : String) :
    isLabelOlabel ("__label__" ++ s) = true := by
  unfold isLabelOlabel pyTake
  rw [String.data_append,
    show (9 : Nat) = ("__label__" : String).data.length from rfl,
    List.take_left]
  simp

/-- `__end__`-marked strings are never intent markers (the two markers
differ at their third character). -/
theorem isLabelOlabel_end (s : String) :
    isLabelOlabel ("__end__" ++ s) = false := by
  unfold isLabelOlabel
  simp only [decide_eq_false_iff_not]
  intro hcontra
  have hd : (("__end__" ++ s : String).data).take 9 =
      ("__label__" : String).data := congrArg String.data hcontra
  rw [String.data_append] at hd
  have h2 := congrArg (fun l => l.get? 2) hd
  simp only at h2
  rw [List.get?_take (by omega), List.get?_append (by decide)] at h2
  exact absurd h2 (by decide)

/-- Packing never creates an intent marker. -/
theorem maybe_pack_labelFree (x : String) (hx : isLabelOlabel x = false) :
    isLabelOlabel (maybe_pack x) = false := by
  unfold maybe_pack
  by_cases hc : pyContains x ' ' = true
  · rw [if_pos hc]
    exact isLabelOlabel_append_long "__unpack__" _ (by decide) (by decide)
  · rw [if_neg hc]
    exact hx

/-- Membership after a networkx edge update: an old edge or the new one. -/
theorem updateEdgeList_mem (es : List Edge) (e : Edge) :
    ∀ e' ∈ updateEdgeList es e, e' ∈ es ∨ e' = e := by
  induction es with
  | nil =>
    intro e' h
    unfold updateEdgeList at h
    right
    simpa using h
  | cons a rest ih =>
    intro e' h
    unfold updateEdgeList at h
    by_cases hc : a.src = e.src ∧ a.dst = e.dst
    · rw [if_pos hc] at h
      rcases List.mem_cons.mp h with h | h
      · right; exact h
      · left; exact List.mem_cons_of_mem a h
    · rw [if_neg hc] at h
      rcases List.mem_cons.mp h with h | h
      · left; rw [h]; exact List.mem_cons_self a rest
      · rcases ih e' h with h2 | h2
        · left; exact List.mem_cons_of_mem a h2
        · right; exact h2

/-- Updating with an edge off the start node leaves the start node's
outgoing edge list untouched. -/
theorem updateEdgeList_filter_src0 (es : List Edge) (e : Edge)
    (h : 1 ≤ e.src) :
    (updateEdgeList es e).filter (fun x => x.src = 0) =
      es.filter (fun x => x.src = 0) := by
  have hef : (decide (e.src = 0)) = false := by
    simp
    omega
  induction es with
  | nil =>
    unfold updateEdgeList
    simp [List.filter_cons, hef]
  | cons a rest ih =>
    unfold updateEdgeList
    by_cases hc : a.src = e.src ∧ a.dst = e.dst
    · rw [if_pos hc]
      have haf : (decide (a.src = 0)) = false := by
        simp
        omega
      simp [List.filter_cons, hef, haf]
    · rw [if_neg hc]
      simp [List.filter_cons, ih]

/-- `addEdge` with a well-formed non-start edge is a `compileExtends`
step. -/
theorem compileExtends_addEdge (g : Graph) (e : Edge) (hsrc : 1 ≤ e.src)
    (hdst : 1 ≤ e.dst) (hol : isLabelOlabel e.olabel = false) :
    compileExtends g (g.addEdge e) := by
  unfold compileExtends Graph.addEdge
  refine ⟨?_, rfl, rfl, ?_, ?_, ?_⟩
  · simp
  · exact updateEdgeList_filter_src0 g.edges e hsrc
  · intro hg e' h
    simp only at h
    rcases updateEdgeList_mem g.edges e e' h with h2 | h2
    · exact hg e' h2
    · rw [h2]
      exact ⟨hdst, fun h0 => absurd h0 (by omega), fun _ => hol⟩
  · intro hg e' h
    simp only at h
    rcases updateEdgeList_mem g.edges e e' h with h2 | h2
    · have := hg e' h2
      dsimp only
      constructor <;> omega
    · rw [h2]
      dsimp only
      constructor <;> omega

/-- `addWordNode` is a `compileExtends` step. -/
theorem compileExtends_addWordNode (g : Graph) (n : Nat) (w : String) :
    compileExtends g (g.addWordNode n w) := by
  unfold compileExtends Graph.addWordNode
  refine ⟨by simp, rfl, rfl, rfl, fun h => h, ?_⟩
  intro hg e' h
  simp only at h
  have := hg e' h
  dsimp only
  constructor <;> omega

/-- `compileExtends` is reflexive. -/
theorem compileExtends_refl (g : Graph) : compileExtends g g :=
  ⟨le_refl _, rfl, rfl, rfl, fun h => h, fun h => h⟩

/-- `compileExtends` is transitive. -/
theorem compileExtends_trans {a b c : Graph} (h1 : compileExtends a b)
    (h2 : compileExtends b c) : compileExtends a c :=
  ⟨le_trans h1.1 h2.1, h2.2.1.trans h1.2.1, h2.2.2.1.trans h1.2.2.1,
    h2.2.2.2.1.trans h1.2.2.2.1,
    fun h => h2.2.2.2.2.1 (h1.2.2.2.2.1 h),
    fun h => h2.2.2.2.2.2 (h1.2.2.2.2.2 h)⟩

/-- Fold invariance: a property preserved by every step holds of the
fold. -/
theorem foldl_preserve {α β : Type} (P : β → Prop) (f : β → α → β) :
    ∀ (l : List α) (init : β), (∀ b x, x ∈ l → P b → P (f b x)) →
      P init → P (l.foldl f init) := by
  intro l
  induction l with
  | nil => intro init _ h; exact h
  | cons a rest ih =>
    intro init hstep hinit
    rw [List.foldl_cons]
    exact ih (f init a) (fun b x hx hb => hstep b x (by simp [hx]) hb)
      (hstep init a (by simp) hinit)

/-- The empty output label is not an intent marker. -/
theorem isLabelOlabel_empty : isLabelOlabel "" = false := by decide

/-- `__begin__` labels are not intent markers. -/
theorem isLabelOlabel_begin (s : String) :
    isLabelOlabel ("__begin__" ++ s) = false :=
  isLabelOlabel_append_long "__begin__" s (by decide) (by decide)

/-- `__convert__` labels are not intent markers. -/
theorem isLabelOlabel_convert (s : String) :
    isLabelOlabel ("__convert__" ++ s) = false :=
  isLabelOlabel_append_long "__convert__" s (by decide) (by decide)

/-- `__converted__` labels are not intent markers. -/
theorem isLabelOlabel_converted (s : String) :
    isLabelOlabel ("__converted__" ++ s) = false :=
  isLabelOlabel_append_long "__converted__" s (by decide) (by decide)

/-- `__source__` labels are not intent markers. -/
theorem isLabelOlabel_source (s : String) :
    isLabelOlabel ("__source__" ++ s) = false :=
  isLabelOlabel_append_long "__source__" s (by decide) (by decide)

/-- A converter chain (as emitted by the prologue/epilogue folds) is a
`compileExtends` step ending at a node off the start node. -/
theorem convert_chain_inv (pre : String)
    (hpre : ∀ c : String, isLabelOlabel (pre ++ c) = false)
    (g0 : Graph) (h0 : 1 ≤ g0.numNodes) (names : List String)
    (p : Graph × Nat) (hp : compileExtends g0 p.1 ∧ 1 ≤ p.2) :
    compileExtends g0 (names.foldl (fun p converter_name =>
      let next_state := p.1.numNodes
      (p.1.addEdge
        { src := p.2, dst := next_state, ilabel := "",
          olabel := maybe_pack (pre ++ converter_name) },
        next_state)) p).1 ∧
    1 ≤ (names.foldl (fun p converter_name =>
      let next_state := p.1.numNodes
      (p.1.addEdge
        { src := p.2, dst := next_state, ilabel := "",
          olabel := maybe_pack (pre ++ converter_name) },
        next_state)) p).2 := by
  refine foldl_preserve
    (fun q => compileExtends g0 q.1 ∧ 1 ≤ q.2) _ names p ?_ hp
  intro b x _ hb
  dsimp only
  have hbn : 1 ≤ b.1.numNodes := le_trans h0 hb.1.1
  exact ⟨compileExtends_trans hb.1
    (compileExtends_addEdge _ _ hb.2 hbn
      (maybe_pack_labelFree _ (hpre x))),
    hbn⟩

/-- `add_substitution` with label-free tokens is a `compileExtends` step
ending off the start node. -/
theorem add_substitution_inv (tokens : List String) (g : Graph) (s : Nat)
    (htoks : ∀ t ∈ tokens, isLabelOlabel t = false)
    (hn : 1 ≤ g.numNodes) (hs : 1 ≤ s) :
    compileExtends g (add_substitution g tokens s).1 ∧
      1 ≤ (add_substitution g tokens s).2 := by
  unfold add_substitution
  refine foldl_preserve (fun q => compileExtends g q.1 ∧ 1 ≤ q.2) _ tokens
    (g, s) ?_ ⟨compileExtends_refl g, hs⟩
  intro b x hx hb
  dsimp only
  have hbn : 1 ≤ b.1.numNodes := le_trans hn hb.1.1
  exact ⟨compileExtends_trans hb.1
    (compileExtends_addEdge _ _ hb.2 hbn
      (maybe_pack_labelFree _ (htoks x hx))),
    hbn⟩

/-- Tokens of a label-free substitution are label-free. -/
theorem subLabelFree_elim (toks : List String)
    (h : subLabelFree (some toks) = true) :
    ∀ t ∈ toks, isLabelOlabel t = false := by
  unfold subLabelFree at h
  rw [List.all_eq_true] at h
  intro t ht
  simpa using h t ht

/-- A label-free expression has label-free substitution and tag. -/
theorem labelFree_parts (expr : Expression) (h : labelFree expr = true) :
    subLabelFree expr.substitutionOf = true ∧
      tagLabelFree expr.tagOf = true := by
  cases expr with
  | word text sub conv tag =>
    rw [labelFree] at h
    simp only [decide_eq_true_eq] at h
    exact ⟨h.2.1, h.2.2⟩
  | sequence ty items sub conv tag =>
    rw [labelFree] at h
    simp only [decide_eq_true_eq] at h
    exact ⟨h.2.1, h.2.2⟩
  | ruleReference rn gn tag =>
    rw [labelFree] at h
    exact ⟨rfl, h⟩
  | slotReference sn sub conv tag =>
    rw [labelFree] at h
    simp only [decide_eq_true_eq] at h
    exact ⟨h.1, h.2⟩

/-- Head and tail of a label-free expression list. -/
theorem labelFreeList_head (e : Expression) (rest : List Expression)
    (h : labelFreeList (e :: rest) = true) :
    labelFree e = true ∧ labelFreeList rest = true := by
  rw [labelFreeList] at h
  simpa using h

/-- Lookup in a label-free table yields a label-free expression list. -/
theorem labelFreeTable_get (l : List (String × List Expression))
    (k : String) (es : List Expression) (hl : labelFreeTable l = true)
    (h : alGet l k = some es) : labelFreeList es = true := by
  induction l with
  | nil => simp [alGet] at h
  | cons a rest ih =>
    obtain ⟨k0, v0⟩ := a
    unfold labelFreeTable at hl ih
    simp only [List.all_cons, Bool.and_eq_true] at hl
    unfold alGet at h
    by_cases hc : k0 = k
    · rw [if_pos hc] at h
      cases h
      exact hl.1
    · rw [if_neg hc] at h
      exact ih hl.2 h

/-- The prologue (`__begin__` tag edge plus `__convert__` chain) is a
`compileExtends` step ending off the start node. -/
theorem expr_prologue_inv (expr : Expression) (g : Graph) (src : Nat)
    (esub : Int) (hs : 1 ≤ src) (hn : 1 ≤ g.numNodes) :
    compileExtends g (expr_prologue expr g src esub).1 ∧
      1 ≤ (expr_prologue expr g src esub).2.1 := by
  unfold expr_prologue
  cases htag : expr.tagOf with
  | some t =>
    dsimp only
    refine convert_chain_inv "__convert__" isLabelOlabel_convert g hn _ _
      ⟨?_, hn⟩
    exact compileExtends_addEdge _ _ hs hn
      (maybe_pack_labelFree _ (isLabelOlabel_begin _))
  | none =>
    dsimp only
    exact convert_chain_inv "__convert__" isLabelOlabel_convert g hn _ _
      ⟨compileExtends_refl g, hs⟩

/-- The `Word` branch is a `compileExtends` step ending off the start
node. -/
theorem word_to_graph_inv (text : String) (sub : Option (List String))
    (g : Graph) (src : Nat) (esub : Int)
    (htext : isLabelOlabel text = false) (hsub : subLabelFree sub = true)
    (hs : 1 ≤ src) (hn : 1 ≤ g.numNodes) :
    compileExtends g (word_to_graph text sub g src esub).1 ∧
      1 ≤ (word_to_graph text sub g src esub).2 := by
  have htoks : ∀ t ∈ sub.getD [text], isLabelOlabel t = false := by
    cases sub with
    | none =>
      intro t ht
      simp at ht
      rw [ht]
      exact htext
    | some l => exact subLabelFree_elim l hsub
  unfold word_to_graph
  dsimp only
  have hword : compileExtends g (g.addWordNode g.numNodes text) :=
    compileExtends_addWordNode g g.numNodes text
  have hwild : compileExtends g (if text = WILDCARD then
      (g.addWordNode g.numNodes text).addEdge
        { src := src, dst := src, ilabel := text, olabel := text }
      else g.addWordNode g.numNodes text) := by
    split
    · exact compileExtends_trans hword
        (compileExtends_addEdge _ _ hs hs htext)
    · exact hword
  split
  · dsimp only
    exact ⟨compileExtends_trans hwild
      (compileExtends_addEdge _ _ hs hn htext), hn⟩
  · split
    · refine add_substitution_inv _ _ _ htoks ?_ hn |>.imp
        (fun h => compileExtends_trans ?_ h) (fun h => h)
      · exact le_trans hn (compileExtends_trans hwild
          (compileExtends_addEdge _ _ hs hn isLabelOlabel_empty)).1
      · exact compileExtends_trans hwild
          (compileExtends_addEdge _ _ hs hn isLabelOlabel_empty)
    · dsimp only
      exact ⟨compileExtends_trans hwild
        (compileExtends_addEdge _ _ hs hn isLabelOlabel_empty), hn⟩

/-- The epilogue tail (tag substitution, `__converted__` chain, `__end__`
edge) is a `compileExtends` step ending off the start node. -/
theorem expr_epilogue_tail_inv (expr : Expression) (g : Graph) (src : Nat)
    (htag : tagLabelFree expr.tagOf = true) (hs : 1 ≤ src)
    (hn : 1 ≤ g.numNodes) :
    compileExtends g (expr_epilogue_tail expr g src).1 ∧
      1 ≤ (expr_epilogue_tail expr g src).2 := by
  unfold expr_epilogue_tail
  cases htg : expr.tagOf with
  | some t =>
    dsimp only
    rw [htg] at htag
    unfold tagLabelFree at htag
    dsimp only at htag
    have hq : compileExtends g
        (match t.substitution with
         | some sub => add_substitution g sub src
         | none => (g, src)).1 ∧
        1 ≤ (match t.substitution with
         | some sub => add_substitution g sub src
         | none => (g, src)).2 := by
      cases hts : t.substitution with
      | some sub =>
        rw [hts] at htag
        exact add_substitution_inv sub g src (subLabelFree_elim sub htag)
          hn hs
      | none => exact ⟨compileExtends_refl g, hs⟩
    have hr := convert_chain_inv "__converted__" isLabelOlabel_converted g
      hn ((if expr.isSub then expr.convertersOf else []) ++ t.converters)
      _ hq
    refine ⟨compileExtends_trans hr.1
      (compileExtends_addEdge _ _ hr.2 ?_
        (maybe_pack_labelFree _ (isLabelOlabel_end _))), ?_⟩
    · exact le_trans hn hr.1.1
    · exact le_trans hn hr.1.1
  | none =>
    dsimp only
    exact convert_chain_inv "__converted__" isLabelOlabel_converted g hn _ _
      ⟨compileExtends_refl g, hs⟩

/-- The whole epilogue is a `compileExtends` step ending off the start
node. -/
theorem expr_epilogue_inv (expr : Expression) (g : Graph) (src : Nat)
    (esub : Int) (hl : labelFree expr = true) (hs : 1 ≤ src)
    (hn : 1 ≤ g.numNodes) :
    compileExtends g (expr_epilogue expr g src esub).1 ∧
      1 ≤ (expr_epilogue expr g src esub).2 := by
  obtain ⟨hsub, htag⟩ := labelFree_parts expr hl
  have hmain : ∀ (g1 : Graph) (s1 : Nat), compileExtends g g1 → 1 ≤ s1 →
      compileExtends g (expr_epilogue_tail expr g1 s1).1 ∧
        1 ≤ (expr_epilogue_tail expr g1 s1).2 := by
    intro g1 s1 h1 hs1
    have h2 := expr_epilogue_tail_inv expr g1 s1 htag hs1
      (le_trans hn h1.1)
    exact ⟨compileExtends_trans h1 h2.1, h2.2⟩
  have hQ : (fun q : Graph × Nat × Int =>
      compileExtends g q.1 ∧ 1 ≤ q.2.1)
      (if expr.isSub then
        match expr.substitutionOf with
        | some sub =>
          let empty_substitution := esub - 1
          if empty_substitution ≤ 0 then
            let p := add_substitution g sub src
            (p.1, p.2, empty_substitution)
          else (g, src, empty_substitution)
        | none => (g, src, esub)
      else (g, src, esub)) := by
    by_cases his : expr.isSub = true
    · rw [if_pos his]
      cases hso : expr.substitutionOf with
      | some sub =>
        rw [hso] at hsub
        dsimp only
        by_cases hle : esub - 1 ≤ 0
        · rw [if_pos hle]
          dsimp only
          exact ⟨(add_substitution_inv sub g src
              (subLabelFree_elim sub hsub) hn hs).1,
            (add_substitution_inv sub g src
              (subLabelFree_elim sub hsub) hn hs).2⟩
        · rw [if_neg hle]
          exact ⟨compileExtends_refl g, hs⟩
      | none => exact ⟨compileExtends_refl g, hs⟩
    · rw [if_neg his]
      exact ⟨compileExtends_refl g, hs⟩
  unfold expr_epilogue
  exact hmain _ _ hQ.1 hQ.2

/-- The alternative-items loop preserves the compile invariant and yields
exit states off the start node. -/
theorem alt_items_inv (n : Nat)
    (hexpr : ∀ (expr : Expression) (g : Graph) (src : Nat)
      (repl : ReplacementsType) (esub : Int) (gname : Option String)
      (rgram : String) (exps : Bool) (g' : Graph) (s' : Nat),
      expression_to_graph n expr g src repl esub gname rgram exps =
        .ok (g', s') →
      labelFree expr = true → labelFreeTable repl = true → 1 ≤ src →
      1 ≤ g.numNodes → compileExtends g g' ∧ 1 ≤ s') :
    ∀ (items : List Expression) (g : Graph) (src : Nat)
      (repl : ReplacementsType) (esub : Int) (gname : Option String)
      (rgram : String) (exps : Bool) (g' : Graph) (states : List Nat),
      alternative_items_to_graph n items g src repl esub gname rgram exps =
        .ok (g', states) →
      labelFreeList items = true → labelFreeTable repl = true → 1 ≤ src →
      1 ≤ g.numNodes →
      compileExtends g g' ∧ ∀ fs ∈ states, 1 ≤ fs := by
  intro items
  induction items with
  | nil =>
    intro g src repl esub gname rgram exps g' states hok hl hr hs hn
    rw [alternative_items_to_graph] at hok
    simp only [Except.ok.injEq, Prod.mk.injEq] at hok
    obtain ⟨h1, h2⟩ := hok
    subst h1
    subst h2
    exact ⟨compileExtends_refl g, by simp⟩
  | cons item rest ih =>
    intro g src repl esub gname rgram exps g' states hok hl hr hs hn
    obtain ⟨hitem, hrest⟩ := labelFreeList_head item rest hl
    rw [alternative_items_to_graph] at hok
    cases h1 : expression_to_graph n item g src repl esub gname rgram
        exps with
    | error e =>
      rw [h1] at hok
      simp only [Bind.bind, Except.bind] at hok
      exact Except.noConfusion hok
    | ok p =>
      obtain ⟨g1, s1⟩ := p
      rw [h1] at hok
      simp only [Bind.bind, Except.bind] at hok
      cases h2 : alternative_items_to_graph n rest g1 src repl esub gname
          rgram exps with
      | error e =>
        rw [h2] at hok
        simp only [Except.bind] at hok
        exact Except.noConfusion hok
      | ok q =>
        obtain ⟨g2, states2⟩ := q
        rw [h2] at hok
        simp only [Except.bind, Pure.pure, Except.pure, Except.ok.injEq,
          Prod.mk.injEq] at hok
        obtain ⟨hg', hst⟩ := hok
        subst hg'
        subst hst
        have e1 := hexpr item g src repl esub gname rgram exps g1 s1 h1
          hitem hr hs hn
        have e2 := ih g1 src repl esub gname rgram exps g2 states2 h2
          hrest hr hs (le_trans hn e1.1.1)
        refine ⟨compileExtends_trans e1.1 e2.1, ?_⟩
        intro fs hfs
        rcases List.mem_cons.mp hfs with h | h
        · rw [h]; exact e1.2
        · exact e2.2 fs h

/-- The group-items loop preserves the compile invariant and ends off the
start node. -/
theorem group_items_inv (n : Nat)
    (hexpr : ∀ (expr : Expression) (g : Graph) (src : Nat)
      (repl : ReplacementsType) (esub : Int) (gname : Option String)
      (rgram : String) (exps : Bool) (g' : Graph) (s' : Nat),
      expression_to_graph n expr g src repl esub gname rgram exps =
        .ok (g', s') →
      labelFree expr = true → labelFreeTable repl = true → 1 ≤ src →
      1 ≤ g.numNodes → compileExtends g g' ∧ 1 ≤ s') :
    ∀ (items : List Expression) (g : Graph) (src : Nat)
      (repl : ReplacementsType) (esub : Int) (gname : Option String)
      (rgram : String) (exps : Bool) (g' : Graph) (s' : Nat),
      group_items_to_graph n items g src repl esub gname rgram exps =
        .ok (g', s') →
      labelFreeList items = true → labelFreeTable repl = true → 1 ≤ src →
      1 ≤ g.numNodes → compileExtends g g' ∧ 1 ≤ s' := by
  intro items
  induction items with
  | nil =>
    intro g src repl esub gname rgram exps g' s' hok hl hr hs hn
    rw [group_items_to_graph] at hok
    simp only [Except.ok.injEq, Prod.mk.injEq] at hok
    obtain ⟨h1, h2⟩ := hok
    subst h1
    subst h2
    exact ⟨compileExtends_refl g, hs⟩
  | cons item rest ih =>
    intro g src repl esub gname rgram exps g' s' hok hl hr hs hn
    obtain ⟨hitem, hrest⟩ := labelFreeList_head item rest hl
    rw [group_items_to_graph] at hok
    cases h1 : expression_to_graph n item g src repl esub gname rgram
        exps with
    | error e =>
      rw [h1] at hok
      simp only [Bind.bind, Except.bind] at hok
      exact Except.noConfusion hok
    | ok p =>
      obtain ⟨g1, s1⟩ := p
      rw [h1] at hok
      simp only [Bind.bind, Except.bind] at hok
      have e1 := hexpr item g src repl esub gname rgram exps g1 s1 h1
        hitem hr hs hn
      have e2 := ih g1 s1 repl esub gname rgram exps g' s' hok hrest hr
        e1.2 (le_trans hn e1.1.1)
      exact ⟨compileExtends_trans e1.1 e2.1, e2.2⟩

/-- The per-variant dispatch preserves the compile invariant and ends off
the start node. -/
theorem expr_dispatch_inv (n : Nat)
    (hexpr : ∀ (expr : Expression) (g : Graph) (src : Nat)
      (repl : ReplacementsType) (esub : Int) (gname : Option String)
      (rgram : String) (exps : Bool) (g' : Graph) (s' : Nat),
      expression_to_graph n expr g src repl esub gname rgram exps =
        .ok (g', s') →
      labelFree expr = true → labelFreeTable repl = true → 1 ≤ src →
      1 ≤ g.numNodes → compileExtends g g' ∧ 1 ≤ s') :
    ∀ (expr : Expression) (g : Graph) (src : Nat)
      (repl : ReplacementsType) (esub : Int) (gname : Option String)
      (rgram : String) (exps : Bool) (g' : Graph) (s' : Nat),
      expr_dispatch n expr g src repl esub gname rgram exps =
        .ok (g', s') →
      labelFree expr = true → labelFreeTable repl = true → 1 ≤ src →
      1 ≤ g.numNodes → compileExtends g g' ∧ 1 ≤ s' := by
  have halt := alt_items_inv n hexpr
  have hgroup := group_items_inv n hexpr
  intro expr g src repl esub gname rgram exps g' s' hok hl hr hs hn
  cases expr with
  | word text sub conv tag =>
    rw [expr_dispatch] at hok
    simp only [Pure.pure, Except.pure, Except.ok.injEq] at hok
    rw [labelFree] at hl
    simp only [decide_eq_true_eq] at hl
    have hw := word_to_graph_inv text sub g src esub
      (by simpa using hl.1) hl.2.1 hs hn
    rw [hok] at hw
    exact hw
  | sequence ty items sub conv tag =>
    rw [labelFree] at hl
    simp only [decide_eq_true_eq] at hl
    cases ty with
    | group =>
      rw [expr_dispatch] at hok
      exact hgroup items g src repl esub gname rgram exps g' s' hok hl.1
        hr hs hn
    | alternative =>
      rw [expr_dispatch] at hok
      cases h1 : alternative_items_to_graph n items g src repl esub gname
          rgram exps with
      | error e =>
        rw [h1] at hok
        simp only [Bind.bind, Except.bind] at hok
        exact Except.noConfusion hok
      | ok p =>
        obtain ⟨g1, states⟩ := p
        rw [h1] at hok
        simp only [Bind.bind, Except.bind, Pure.pure, Except.pure,
          Except.ok.injEq, Prod.mk.injEq] at hok
        obtain ⟨hg', hs'⟩ := hok
        have ha := halt items g src repl esub gname rgram exps g1 states
          h1 hl.1 hr hs hn
        have hjoin : compileExtends g (states.foldl (fun g2 fs =>
            g2.addEdge
              { src := fs, dst := g1.numNodes, ilabel := "",
                olabel := "" }) g1) := by
          refine foldl_preserve (fun gg => compileExtends g gg) _ states g1
            ?_ ha.1
          intro b x hx hb
          exact compileExtends_trans hb
            (compileExtends_addEdge _ _ (ha.2 x hx)
              (le_trans hn ha.1.1) isLabelOlabel_empty)
        subst hg'
        subst hs'
        exact ⟨hjoin, le_trans hn ha.1.1⟩
  | ruleReference rn gnm tag =>
    rw [expr_dispatch] at hok
    cases halg : alGet repl
        ("<" ++ (resolve_rule_name rn gnm rgram gname).1 ++ ">") with
    | none =>
      rw [halg] at hok
      simp at hok
    | some l =>
      cases l with
      | nil =>
        rw [halg] at hok
        simp at hok
      | cons body rest2 =>
        rw [halg] at hok
        have hbody := labelFreeTable_get repl _ _ hr halg
        exact hexpr body g src repl esub gname _ exps g' s' hok
          (labelFreeList_head body rest2 hbody).1 hr hs hn
  | slotReference sn sub conv tag =>
    rw [expr_dispatch] at hok
    dsimp only at hok
    rw [labelFree] at hl
    simp only [decide_eq_true_eq] at hl
    split at hok
    · -- expand_slots
      cases halg : alGet repl ("$" ++ sn) with
      | none =>
        rw [halg] at hok
        simp only [Bind.bind, Except.bind] at hok
        exact Except.noConfusion hok
      | some l =>
        cases l with
        | nil =>
          rw [halg] at hok
          simp only [Bind.bind, Except.bind] at hok
          exact Except.noConfusion hok
        | cons v vs =>
          rw [halg] at hok
          dsimp only at hok
          cases h1 : expression_to_graph n
              (.sequence .alternative (v :: vs) none [] none) g src repl
              (esub + (if subTruthy sub then 1 else 0)) gname rgram
              exps with
          | error e =>
            rw [h1] at hok
            simp only [Bind.bind, Except.bind] at hok
            exact Except.noConfusion hok
          | ok p =>
            obtain ⟨g1, s1⟩ := p
            rw [h1] at hok
            simp only [Bind.bind, Except.bind, Pure.pure, Except.pure,
              Except.ok.injEq, Prod.mk.injEq] at hok
            obtain ⟨hg', hs'⟩ := hok
            have hvals := labelFreeTable_get repl _ _ hr halg
            have he := hexpr _ g src repl
              (esub + (if subTruthy sub then 1 else 0)) gname rgram exps
              g1 s1 h1
              (by rw [labelFree]
                  simp only [decide_eq_true_eq]
                  exact ⟨hvals, rfl, rfl⟩) hr hs hn
            subst hg'
            subst hs'
            exact ⟨compileExtends_trans he.1
              (compileExtends_addEdge _ _ he.2 (le_trans hn he.1.1)
                (isLabelOlabel_source _)),
              le_trans hn he.1.1⟩
    · -- expand_slots = false
      simp only [Bind.bind, Except.bind, Pure.pure, Except.pure,
        Except.ok.injEq, Prod.mk.injEq] at hok
      obtain ⟨hg', hs'⟩ := hok
      subst hg'
      subst hs'
      exact ⟨compileExtends_addEdge _ _ hs hn (isLabelOlabel_source _),
        hn⟩

/-- One fuel step of `expression_to_graph` preserves the compile
invariant. -/
theorem expr_step_inv (n : Nat)
    (hdisp : ∀ (expr : Expression) (g : Graph) (src : Nat)
      (repl : ReplacementsType) (esub : Int) (gname : Option String)
      (rgram : String) (exps : Bool) (g' : Graph) (s' : Nat),
      expr_dispatch n expr g src repl esub gname rgram exps =
        .ok (g', s') →
      labelFree expr = true → labelFreeTable repl = true → 1 ≤ src →
      1 ≤ g.numNodes → compileExtends g g' ∧ 1 ≤ s') :
    ∀ (expr : Expression) (g : Graph) (src : Nat)
      (repl : ReplacementsType) (esub : Int) (gname : Option String)
      (rgram : String) (exps : Bool) (g' : Graph) (s' : Nat),
      expression_to_graph (n + 1) expr g src repl esub gname rgram exps =
        .ok (g', s') →
      labelFree expr = true → labelFreeTable repl = true → 1 ≤ src →
      1 ≤ g.numNodes → compileExtends g g' ∧ 1 ≤ s' := by
  intro expr g src repl esub gname rgram exps g' s' hok hl hr hs hn
  rw [expression_to_graph] at hok
  obtain ⟨⟨g1, s1, e1⟩, hpro⟩ : ∃ q, expr_prologue expr g src esub = q :=
    ⟨_, rfl⟩
  rw [hpro] at hok
  dsimp only at hok
  have hpinv := expr_prologue_inv expr g src esub hs hn
  rw [hpro] at hpinv
  have hp1 : compileExtends g g1 := hpinv.1
  have hp2 : 1 ≤ s1 := hpinv.2
  cases h1 : expr_dispatch n expr g1 s1 repl e1 gname rgram exps with
  | error e =>
    rw [h1] at hok
    simp only [Bind.bind, Except.bind] at hok
    exact Except.noConfusion hok
  | ok p =>
    obtain ⟨g2, s2⟩ := p
    rw [h1] at hok
    simp only [Bind.bind, Except.bind, Pure.pure, Except.pure,
      Except.ok.injEq] at hok
    have hd := hdisp expr g1 s1 repl e1 gname rgram exps g2 s2 h1 hl hr
      hp2 (le_trans hn hp1.1)
    have hee := expr_epilogue_inv expr g2 s2 e1 hl hd.2
      (le_trans (le_trans hn hp1.1) hd.1.1)
    rw [hok] at hee
    exact ⟨compileExtends_trans hp1 (compileExtends_trans hd.1 hee.1),
      hee.2⟩

/-- The compile invariant: a successful `expression_to_graph` call from a
label-free grammar, at a source state off the start node, only extends
the graph with invariant-preserving edges and ends off the start node. -/
theorem compiler_inv : ∀ (n : Nat),
    ∀ (expr : Expression) (g : Graph) (src : Nat)
      (repl : ReplacementsType) (esub : Int) (gname : Option String)
      (rgram : String) (exps : Bool) (g' : Graph) (s' : Nat),
      expression_to_graph n expr g src repl esub gname rgram exps =
        .ok (g', s') →
      labelFree expr = true → labelFreeTable repl = true → 1 ≤ src →
      1 ≤ g.numNodes → compileExtends g g' ∧ 1 ≤ s' := by
  intro n
  induction n with
  | zero =>
    intro expr g src repl esub gname rgram exps g' s' hok
    rw [expression_to_graph] at hok
    simp at hok
  | succ n ihn =>
    exact expr_step_inv n (expr_dispatch_inv n ihn)

/-- Adding an invariant-respecting edge preserves `edgeInvAll`. -/
theorem edgeInvAll_addEdge (g : Graph) (e : Edge) (hg : edgeInvAll g)
    (he : edgeInv e) : edgeInvAll (g.addEdge e) := by
  intro e' h
  unfold Graph.addEdge at h
  simp only at h
  rcases updateEdgeList_mem g.edges e e' h with h2 | h2
  · exact hg e' h2
  · rw [h2]
    exact he

/-- `addEdge` preserves the endpoint bounds. -/
theorem edgeBounds_addEdge (g : Graph) (e : Edge) (hg : edgeBounds g) :
    edgeBounds (g.addEdge e) := by
  intro e' h
  unfold Graph.addEdge at h ⊢
  simp only at h
  dsimp only
  rcases updateEdgeList_mem g.edges e e' h with h2 | h2
  · have := hg e' h2
    constructor <;> omega
  · rw [h2]
    constructor <;> omega

/-- When no stored edge shares the endpoints, a networkx edge update is an
append. -/
theorem updateEdgeList_append (es : List Edge) (e : Edge)
    (h : ∀ e' ∈ es, ¬(e'.src = e.src ∧ e'.dst = e.dst)) :
    updateEdgeList es e = es ++ [e] := by
  induction es with
  | nil => rfl
  | cons a rest ih =>
    unfold updateEdgeList
    rw [if_neg (h a (by simp))]
    rw [ih (fun e' he' => h e' (by simp [he']))]
    rfl

/-- The per-intent sentence loop preserves the compile invariant. -/
theorem compile_intent_sentences_inv (fuel : Nat) :
    ∀ (sents : List Expression) (g : Graph) (intent_state : Nat)
      (repl : ReplacementsType) (gname : String) (exps : Bool)
      (g' : Graph) (states : List Nat),
      compile_intent_sentences fuel sents g intent_state repl gname exps =
        .ok (g', states) →
      labelFreeList sents = true → labelFreeTable repl = true →
      1 ≤ intent_state → 1 ≤ g.numNodes →
      compileExtends g g' ∧ ∀ fs ∈ states, 1 ≤ fs := by
  intro sents
  induction sents with
  | nil =>
    intro g ist repl gname exps g' states hok hl hr hs hn
    rw [compile_intent_sentences] at hok
    simp only [Except.ok.injEq, Prod.mk.injEq] at hok
    obtain ⟨h1, h2⟩ := hok
    subst h1
    subst h2
    exact ⟨compileExtends_refl g, by simp⟩
  | cons s rest ih =>
    intro g ist repl gname exps g' states hok hl hr hs hn
    obtain ⟨hitem, hrest⟩ := labelFreeList_head s rest hl
    rw [compile_intent_sentences] at hok
    cases h1 : expression_to_graph fuel s g ist repl 0 (some gname) ""
        exps with
    | error e =>
      rw [h1] at hok
      simp only [Bind.bind, Except.bind] at hok
      exact Except.noConfusion hok
    | ok p =>
      obtain ⟨g1, s1⟩ := p
      rw [h1] at hok
      simp only [Bind.bind, Except.bind] at hok
      cases h2 : compile_intent_sentences fuel rest g1 ist repl gname
          exps with
      | error e =>
        rw [h2] at hok
        simp only [Except.bind] at hok
        exact Except.noConfusion hok
      | ok q =>
        obtain ⟨g2, states2⟩ := q
        rw [h2] at hok
        simp only [Except.bind, Pure.pure, Except.pure, Except.ok.injEq,
          Prod.mk.injEq] at hok
        obtain ⟨hg', hst⟩ := hok
        subst hg'
        subst hst
        have e1 := compiler_inv fuel s g ist repl 0 (some gname) "" exps
          g1 s1 h1 hitem hr hs hn
        have e2 := ih g1 ist repl gname exps g2 states2 h2 hrest hr hs
          (le_trans hn e1.1.1)
        refine ⟨compileExtends_trans e1.1 e2.1, ?_⟩
        intro fs hfs
        rcases List.mem_cons.mp hfs with h | h
        · rw [h]; exact e1.2
        · exact e2.2 fs h

/-- The intent loop: invariants are preserved, exit states stay off the
start node, and the start node's outgoing `__label__` attribute triples
grow by exactly one per intent, in declaration order. -/
theorem compile_intents_inv (fuel : Nat) :
    ∀ (sentences : SentencesType) (g : Graph) (repl : ReplacementsType)
      (icnts : List (String × Nat)) (iwts : List (String × ℚ))
      (aiw : Bool) (ni : Nat) (exps : Bool) (g' : Graph)
      (states : List Nat),
      compile_intents fuel sentences g repl icnts iwts aiw ni exps =
        .ok (g', states) →
      labelFreeTable sentences = true → labelFreeTable repl = true →
      1 ≤ g.numNodes → edgeInvAll g → edgeBounds g →
      edgeInvAll g' ∧ edgeBounds g' ∧ g.numNodes ≤ g'.numNodes ∧
      g'.starts = g.starts ∧ g'.finals = g.finals ∧
      (∀ fs ∈ states, 1 ≤ fs) ∧
      (g'.edges.filter (fun e => e.src = 0)).map
          (fun e => (e.olabel, e.weight, e.sentence_count)) =
        (g.edges.filter (fun e => e.src = 0)).map
          (fun e => (e.olabel, e.weight, e.sentence_count)) ++
        sentences.map (labelTriple aiw ni icnts iwts) := by
  intro sentences
  induction sentences with
  | nil =>
    intro g repl icnts iwts aiw ni exps g' states hok hl hr hn hi hb
    rw [compile_intents] at hok
    simp only [Except.ok.injEq, Prod.mk.injEq] at hok
    obtain ⟨h1, h2⟩ := hok
    subst h1
    subst h2
    exact ⟨hi, hb, le_refl _, rfl, rfl, by simp, by simp⟩
  | cons pr rest ih =>
    intro g repl icnts iwts aiw ni exps g' states hok hl hr hn hi hb
    obtain ⟨iname, isents⟩ := pr
    unfold labelFreeTable at hl
    simp only [List.all_cons, Bool.and_eq_true] at hl
    rw [compile_intents] at hok
    dsimp only at hok
    -- the __label__ branch edge
    have hlabbase : ∀ (w : Option ℚ) (c : Option Nat),
        edgeInvAll (g.addEdge
          { src := 0, dst := g.numNodes, ilabel := "",
            olabel := "__label__" ++ iname, weight := w,
            sentence_count := c }) ∧
        edgeBounds (g.addEdge
          { src := 0, dst := g.numNodes, ilabel := "",
            olabel := "__label__" ++ iname, weight := w,
            sentence_count := c }) ∧
        (g.addEdge
          { src := 0, dst := g.numNodes, ilabel := "",
            olabel := "__label__" ++ iname, weight := w,
            sentence_count := c }).edges =
          g.edges ++
            [{ src := 0, dst := g.numNodes, ilabel := "",
               olabel := "__label__" ++ iname, weight := w,
               sentence_count := c }] := by
      intro w c
      have hedge : edgeInv
          { src := 0, dst := g.numNodes, ilabel := "",
            olabel := "__label__" ++ iname, weight := w,
            sentence_count := c } := by
        unfold edgeInv
        dsimp only
        exact ⟨hn, fun _ => isLabelOlabel_label iname, fun hc => by omega⟩
      refine ⟨edgeInvAll_addEdge g _ hi hedge,
        edgeBounds_addEdge g _ hb, ?_⟩
      unfold Graph.addEdge
      dsimp only
      exact updateEdgeList_append g.edges _
        (fun e' he' hc => by
          have hbd := (hb e' he').2
          have hd : e'.dst = g.numNodes := hc.2
          omega)
    by_cases hw : (aiw = true ∧ ni > 1)
    · rw [if_pos hw] at hok
      obtain ⟨hialla, hballa, hedgesa⟩ := hlabbase
        (some ((alGet iwts iname).getD 0))
        (some ((alGet icnts iname).getD 1))
      cases h1 : compile_intent_sentences fuel isents
          (g.addEdge { src := 0, dst := g.numNodes, ilabel := "",
                       olabel := "__label__" ++ iname, weight := some ((alGet iwts iname).getD 0),
                       sentence_count := some ((alGet icnts iname).getD 1) }) g.numNodes repl iname
          exps with
      | error e =>
        rw [h1] at hok
        simp only [Bind.bind, Except.bind] at hok
        exact Except.noConfusion hok
      | ok p =>
        obtain ⟨g2, states1⟩ := p
        rw [h1] at hok
        simp only [Bind.bind, Except.bind] at hok
        cases h2 : compile_intents fuel rest g2 repl icnts iwts aiw ni
            exps with
        | error e =>
          rw [h2] at hok
          simp only [Except.bind] at hok
          exact Except.noConfusion hok
        | ok q =>
          obtain ⟨g3, more⟩ := q
          rw [h2] at hok
          simp only [Except.bind, Pure.pure, Except.pure,
            Except.ok.injEq, Prod.mk.injEq] at hok
          obtain ⟨hg', hst⟩ := hok
          subst hg'
          subst hst
          have hG1n : g.numNodes ≤ (g.addEdge
              { src := 0, dst := g.numNodes, ilabel := "",
                olabel := "__label__" ++ iname, weight := some ((alGet iwts iname).getD 0),
                sentence_count := some ((alGet icnts iname).getD 1) }).numNodes := by
            unfold Graph.addEdge
            dsimp only
            omega
          have hcs := compile_intent_sentences_inv fuel isents _
            g.numNodes repl iname exps g2 states1 h1 hl.1 hr hn
            (le_trans hn hG1n)
          have hrest := ih g2 repl icnts iwts aiw ni exps g3 more h2
            hl.2 hr (le_trans (le_trans hn hG1n) hcs.1.1)
            (hcs.1.2.2.2.2.1 hialla) (hcs.1.2.2.2.2.2 hballa)
          have hG1filter : ((g.addEdge
              { src := 0, dst := g.numNodes, ilabel := "",
                olabel := "__label__" ++ iname, weight := some ((alGet iwts iname).getD 0),
                sentence_count := some ((alGet icnts iname).getD 1) }).edges.filter
                (fun e => e.src = 0)).map
                (fun e => (e.olabel, e.weight, e.sentence_count)) =
              (g.edges.filter (fun e => e.src = 0)).map
                (fun e => (e.olabel, e.weight, e.sentence_count)) ++
              [("__label__" ++ iname, some ((alGet iwts iname).getD 0), some ((alGet icnts iname).getD 1))] := by
            rw [hedgesa, List.filter_append, List.map_append]
            simp [List.filter_cons]
          refine ⟨hrest.1, hrest.2.1, ?_, ?_, ?_, ?_, ?_⟩
          · exact le_trans (le_trans hG1n hcs.1.1) hrest.2.2.1
          · rw [hrest.2.2.2.1, hcs.1.2.1]
            rfl
          · rw [hrest.2.2.2.2.1, hcs.1.2.2.1]
            rfl
          · intro fs hfs
            rcases List.mem_append.mp hfs with h | h
            · exact hcs.2 fs h
            · exact hrest.2.2.2.2.2.1 fs h
          · rw [hrest.2.2.2.2.2.2,
              congrArg (List.map
                (fun e => (e.olabel, e.weight, e.sentence_count)))
                hcs.1.2.2.2.1,
              hG1filter, List.append_assoc, List.singleton_append,
              List.map_cons]
            simp only [labelTriple, if_pos hw]
    · rw [if_neg hw] at hok
      obtain ⟨hialla, hballa, hedgesa⟩ := hlabbase none none
      cases h1 : compile_intent_sentences fuel isents
          (g.addEdge { src := 0, dst := g.numNodes, ilabel := "",
                       olabel := "__label__" ++ iname, weight := none,
                       sentence_count := none }) g.numNodes repl iname
          exps with
      | error e =>
        rw [h1] at hok
        simp only [Bind.bind, Except.bind] at hok
        exact Except.noConfusion hok
      | ok p =>
        obtain ⟨g2, states1⟩ := p
        rw [h1] at hok
        simp only [Bind.bind, Except.bind] at hok
        cases h2 : compile_intents fuel rest g2 repl icnts iwts aiw ni
            exps with
        | error e =>
          rw [h2] at hok
          simp only [Except.bind] at hok
          exact Except.noConfusion hok
        | ok q =>
          obtain ⟨g3, more⟩ := q
          rw [h2] at hok
          simp only [Except.bind, Pure.pure, Except.pure,
            Except.ok.injEq, Prod.mk.injEq] at hok
          obtain ⟨hg', hst⟩ := hok
          subst hg'
          subst hst
          have hG1n : g.numNodes ≤ (g.addEdge
              { src := 0, dst := g.numNodes, ilabel := "",
                olabel := "__label__" ++ iname, weight := none,
                sentence_count := none }).numNodes := by
            unfold Graph.addEdge
            dsimp only
            omega
          have hcs := compile_intent_sentences_inv fuel isents _
            g.numNodes repl iname exps g2 states1 h1 hl.1 hr hn
            (le_trans hn hG1n)
          have hrest := ih g2 repl icnts iwts aiw ni exps g3 more h2
            hl.2 hr (le_trans (le_trans hn hG1n) hcs.1.1)
            (hcs.1.2.2.2.2.1 hialla) (hcs.1.2.2.2.2.2 hballa)
          have hG1filter : ((g.addEdge
              { src := 0, dst := g.numNodes, ilabel := "",
                olabel := "__label__" ++ iname, weight := none,
                sentence_count := none }).edges.filter
                (fun e => e.src = 0)).map
                (fun e => (e.olabel, e.weight, e.sentence_count)) =
              (g.edges.filter (fun e => e.src = 0)).map
                (fun e => (e.olabel, e.weight, e.sentence_count)) ++
              [("__label__" ++ iname, none, none)] := by
            rw [hedgesa, List.filter_append, List.map_append]
            simp [List.filter_cons]
          refine ⟨hrest.1, hrest.2.1, ?_, ?_, ?_, ?_, ?_⟩
          · exact le_trans (le_trans hG1n hcs.1.1) hrest.2.2.1
          · rw [hrest.2.2.2.1, hcs.1.2.1]
            rfl
          · rw [hrest.2.2.2.2.1, hcs.1.2.2.1]
            rfl
          · intro fs hfs
            rcases List.mem_append.mp hfs with h | h
            · exact hcs.2 fs h
            · exact hrest.2.2.2.2.2.1 fs h
          · rw [hrest.2.2.2.2.2.2,
              congrArg (List.map
                (fun e => (e.olabel, e.weight, e.sentence_count)))
                hcs.1.2.2.2.1,
              hG1filter, List.append_assoc, List.singleton_append,
              List.map_cons]
            simp only [labelTriple, if_neg hw]

/-- Graphs built by `sentences_to_graph` have start list `[0]`, a single
final node off the start node, and label edges exactly out of the start
node. -/
theorem sentences_to_graph_inv (fuel : Nat) (sentences : SentencesType)
    (repl : ReplacementsType) (aiw ecs exps : Bool) (G : Graph)
    (hok : sentences_to_graph fuel sentences repl aiw ecs exps = .ok G)
    (hsent : labelFreeTable sentences = true)
    (hrepl : labelFreeTable repl = true) :
    G.starts = [0] ∧ (∃ F, 1 ≤ F ∧ G.finals = [F]) ∧ edgeInvAll G := by
  have tail2 : ∀ (icnts : List (String × Nat)) (iwts : List (String × ℚ)),
      ((do
        let g := Graph.empty.addStartNode 0
        let (g, final_states) ← compile_intents fuel sentences g repl
          icnts iwts aiw sentences.length exps
        let final_state := g.numNodes
        let g := g.addFinalNode final_state
        let g := final_states.foldl
          (fun g' next_state => g'.addEdge
            { src := next_state, dst := final_state, ilabel := "",
              olabel := "" })
          g
        pure g : Except Err Graph) = .ok G) →
      G.starts = [0] ∧ (∃ F, 1 ≤ F ∧ G.finals = [F]) ∧ edgeInvAll G := by
    intro icnts iwts hok2
    dsimp only at hok2
    cases hci : compile_intents fuel sentences
        (Graph.empty.addStartNode 0) repl icnts iwts aiw sentences.length
        exps with
    | error e =>
      rw [hci] at hok2
      simp only [Bind.bind, Except.bind] at hok2
      exact Except.noConfusion hok2
    | ok p =>
      obtain ⟨g1, fstates⟩ := p
      rw [hci] at hok2
      simp only [Bind.bind, Except.bind, Pure.pure, Except.pure,
        Except.ok.injEq] at hok2
      have hg0i : edgeInvAll (Graph.empty.addStartNode 0) := by
        intro e he
        simp [Graph.empty, Graph.addStartNode] at he
      have hg0b : edgeBounds (Graph.empty.addStartNode 0) := by
        intro e he
        simp [Graph.empty, Graph.addStartNode] at he
      have hg0n : 1 ≤ (Graph.empty.addStartNode 0).numNodes := by decide
      have hc := compile_intents_inv fuel sentences _ repl icnts iwts aiw
        sentences.length exps g1 fstates hci hsent hrepl hg0n hg0i hg0b
      have hstarts1 : g1.starts = [0] := by
        rw [hc.2.2.2.1]
        rfl
      have hfinals1 : g1.finals = [] := by
        rw [hc.2.2.2.2.1]
        rfl
      have hn1 : 1 ≤ g1.numNodes := le_trans hg0n hc.2.2.1
      have hinit : (g1.addFinalNode g1.numNodes).starts = [0] ∧
          (g1.addFinalNode g1.numNodes).finals = [g1.numNodes] ∧
          edgeInvAll (g1.addFinalNode g1.numNodes) := by
        refine ⟨?_, ?_, hc.1⟩
        · show g1.starts = [0]
          exact hstarts1
        · show g1.finals ++ [g1.numNodes] = [g1.numNodes]
          rw [hfinals1]
          rfl
      have hfold := foldl_preserve (fun gg : Graph => gg.starts = [0] ∧
          gg.finals = [g1.numNodes] ∧ edgeInvAll gg)
        (fun g2 next_state => g2.addEdge
          { src := next_state, dst := g1.numNodes, ilabel := "",
            olabel := "" }) fstates (g1.addFinalNode g1.numNodes)
        (by
          intro b x hx hb
          have hedge : edgeInv
              { src := x, dst := g1.numNodes, ilabel := "",
                olabel := "" } := by
            unfold edgeInv
            dsimp only
            have hx1 := hc.2.2.2.2.2.1 x hx
            exact ⟨hn1, fun h0 => by omega, fun _ => isLabelOlabel_empty⟩
          exact ⟨hb.1, hb.2.1, edgeInvAll_addEdge b _ hb.2.2 hedge⟩)
        hinit
      rw [← hok2]
      exact ⟨hfold.1, ⟨g1.numNodes, hn1, hfold.2.1⟩, hfold.2.2⟩
  unfold sentences_to_graph at hok
  split at hok
  · cases hcnt : get_intent_counts fuel sentences repl ecs with
    | error e =>
      rw [hcnt] at hok
      simp only [Bind.bind, Except.bind] at hok
      exact Except.noConfusion hok
    | ok counts0 =>
      rw [hcnt] at hok
      simp only [Bind.bind, Except.bind, Pure.pure, Except.pure] at hok
      exact tail2 _ _ hok
  · simp only [Bind.bind, Except.bind, Pure.pure, Except.pure] at hok
    exact tail2 _ _ hok

/-- A stored edge found by `edgeBetween` has the queried endpoints. -/
theorem edgeBetween_mem (g : Graph) (u v : Nat) (e : Edge)
    (h : g.edgeBetween u v = some e) :
    e ∈ g.edges ∧ e.src = u ∧ e.dst = v := by
  unfold Graph.edgeBetween at h
  have hm := List.mem_of_find?_eq_some h
  have hp := List.find?_some h
  simp only [decide_eq_true_eq] at hp
  exact ⟨hm, hp⟩

/-- A run that starts off the start node never traverses a `__label__`
edge (in an invariant graph). -/
theorem runEdges_no_label (g : Graph) (hinv : edgeInvAll g) :
    ∀ (ns : List Nat) (n : Nat) (es : List Edge), 1 ≤ n →
      runEdges g (n :: ns) = some es →
      es.filter (fun e => isLabelOlabel e.olabel) = [] := by
  intro ns
  induction ns with
  | nil =>
    intro n es _ h
    rw [runEdges] at h
    cases h
    rfl
  | cons m rest ih =>
    intro n es hn h
    rw [runEdges] at h
    cases hb : g.edgeBetween n m with
    | none =>
      rw [hb] at h
      simp only [Bind.bind, Option.bind] at h
      exact Option.noConfusion h
    | some e =>
      rw [hb] at h
      simp only [Bind.bind, Option.bind] at h
      cases hr : runEdges g (m :: rest) with
      | none =>
        rw [hr] at h
        simp only at h
        exact Option.noConfusion h
      | some es2 =>
        rw [hr] at h
        simp only [Pure.pure, Option.some.injEq] at h
        subst h
        obtain ⟨hmem, hsrc, hdst⟩ := edgeBetween_mem g n m e hb
        have hinv_e := hinv e hmem
        have hol : isLabelOlabel e.olabel = false := hinv_e.2.2 (by omega)
        have hm1 : 1 ≤ m := by
          have := hinv_e.1
          omega
        simp [List.filter_cons, hol, ih m es2 hm1 hr]

/-- **C4** (amended).  Every graph `sentences_to_graph` builds has
exactly one start-flagged node (node 0) and exactly one final-flagged
node (off the start node); and when the grammar and replacement texts
never use the reserved `__label__` marker (`labelFreeTable`), every
accepting run from the start node to the final node traverses exactly
one edge whose output label begins with `__label__` -- its first edge.
(Without the label-free proviso the run part fails:
`c4_label_text_counterexample` exhibits a grammar whose word text itself
is `__label__B`, giving an accepting run with two such edges.) -/
theorem c4_unique_start_final_single_label (fuel : Nat)
    (sentences : SentencesType) (repl : ReplacementsType)
    (aiw ecs exps : Bool) (G : Graph)
    (hne : sentences ≠ [])
    (hsent : labelFreeTable sentences = true)
    (hrepl : labelFreeTable repl = true)
    (hok : sentences_to_graph fuel sentences repl aiw ecs exps = .ok G) :
    G.starts = [0] ∧ (∃ F, 1 ≤ F ∧ G.finals = [F]) ∧
    ∀ (ns : List Nat) (es : List Edge), IsAcceptingRun G ns = true →
      runEdges G ns = some es →
      (es.filter (fun e => isLabelOlabel e.olabel)).length = 1 := by
  obtain ⟨hstarts, ⟨F, hF1, hfinals⟩, hinv⟩ :=
    sentences_to_graph_inv fuel sentences repl aiw ecs exps G hok hsent
      hrepl
  refine ⟨hstarts, ⟨F, hF1, hfinals⟩, ?_⟩
  intro ns es hrun hedges
  cases ns with
  | nil => simp [IsAcceptingRun] at hrun
  | cons n0 rest =>
    rw [IsAcceptingRun] at hrun
    simp only [decide_eq_true_eq] at hrun
    obtain ⟨hstart, hfin, _⟩ := hrun
    have hn0 : n0 = 0 := by
      unfold Graph.isStart at hstart
      rw [hstarts] at hstart
      simpa using hstart
    subst hn0
    cases rest with
    | nil =>
      exfalso
      unfold Graph.isFinal at hfin
      rw [hfinals] at hfin
      simp at hfin
      omega
    | cons n1 rest2 =>
      rw [runEdges] at hedges
      cases hb : G.edgeBetween 0 n1 with
      | none =>
        rw [hb] at hedges
        simp only [Bind.bind, Option.bind] at hedges
        exact Option.noConfusion hedges
      | some e0 =>
        rw [hb] at hedges
        simp only [Bind.bind, Option.bind] at hedges
        cases hr : runEdges G (n1 :: rest2) with
        | none =>
          rw [hr] at hedges
          simp only at hedges
          exact Option.noConfusion hedges
        | some es2 =>
          rw [hr] at hedges
          simp only [Pure.pure, Option.some.injEq] at hedges
          subst hedges
          obtain ⟨hmem, hsrc, hdst⟩ := edgeBetween_mem G 0 n1 e0 hb
          have hiv := hinv e0 hmem
          have hlab : isLabelOlabel e0.olabel = true := hiv.2.1 hsrc
          have hn1 : 1 ≤ n1 := by
            have := hiv.1
            omega
          have hrest := runEdges_no_label G hinv rest2 n1 es2 hn1 hr
          simp [List.filter_cons, hlab, hrest]

set_option maxRecDepth 40000 in
/-- Witness for `c4_unique_start_final_single_label` on the concrete
grammar `[TurnOn] ↦ on`: start list `[0]`, one final node, and the
accepting run `0-1-2-3` traverses exactly one `__label__` edge. -/
theorem c4_unique_start_final_single_label_witness :
    c4WitGraph.starts = [0] ∧
    (∃ F, 1 ≤ F ∧ c4WitGraph.finals = [F]) ∧
    (((runEdges c4WitGraph [0, 1, 2, 3]).getD []).filter
      (fun e => isLabelOlabel e.olabel)).length = 1 := by
  have h := c4_unique_start_final_single_label 50
    [("TurnOn", [.word "on"])] [] true true true c4WitGraph
    (by simp) (by with_unfolding_all rfl) (by with_unfolding_all rfl)
    (by with_unfolding_all rfl)
  refine ⟨h.1, h.2.1, ?_⟩
  exact h.2.2 [0, 1, 2, 3] ((runEdges c4WitGraph [0, 1, 2, 3]).getD [])
    (by with_unfolding_all rfl) (by with_unfolding_all rfl)

set_option maxRecDepth 40000 in
/-- **C4** (counterexample).  For the grammar `[A] ↦ __label__B` -- a
word whose text uses the reserved marker -- the compiled graph has an
accepting run (`0-1-2-3`) traversing TWO edges with `__label__` output
labels, refuting the claim's unrestricted single-label-edge invariant. -/
theorem c4_label_text_counterexample :
    sentences_to_graph 50 [("A", [.word "__label__B"])] [] true true
      true = .ok c4CexGraph ∧
    IsAcceptingRun c4CexGraph [0, 1, 2, 3] = true ∧
    (((runEdges c4CexGraph [0, 1, 2, 3]).getD []).filter
      (fun e => isLabelOlabel e.olabel)).length = 2 := by
  refine ⟨?_, ?_, ?_⟩ <;> with_unfolding_all rfl

/-! ## C6: intent weights -/

/-- With weighting enabled, the start node's outgoing attribute triples
of a compiled graph are exactly one `__label__` edge per intent carrying
the computed weight and count attributes, in declaration order. -/
theorem sentences_to_graph_label_edges (fuel : Nat)
    (sentences : SentencesType) (repl : ReplacementsType)
    (ecs exps : Bool) (G : Graph) (counts0 : List (String × Nat))
    (hsent : labelFreeTable sentences = true)
    (hrepl : labelFreeTable repl = true)
    (hcnt : get_intent_counts fuel sentences repl ecs = .ok counts0)
    (hok : sentences_to_graph fuel sentences repl true ecs exps = .ok G) :
    (G.edges.filter (fun e => e.src = 0)).map
        (fun e => (e.olabel, e.weight, e.sentence_count)) =
      sentences.map (labelTriple true sentences.length
        (stg_intent_counts counts0)
        (stg_intent_weights sentences counts0)) := by
  have tail3 : ∀ (icnts : List (String × Nat))
      (iwts : List (String × ℚ)),
      ((do
        let g := Graph.empty.addStartNode 0
        let (g, final_states) ← compile_intents fuel sentences g repl
          icnts iwts true sentences.length exps
        let final_state := g.numNodes
        let g := g.addFinalNode final_state
        let g := final_states.foldl
          (fun g' next_state => g'.addEdge
            { src := next_state, dst := final_state, ilabel := "",
              olabel := "" })
          g
        pure g : Except Err Graph) = .ok G) →
      (G.edges.filter (fun e => e.src = 0)).map
          (fun e => (e.olabel, e.weight, e.sentence_count)) =
        sentences.map (labelTriple true sentences.length icnts iwts) := by
    intro icnts iwts hok2
    dsimp only at hok2
    cases hci : compile_intents fuel sentences
        (Graph.empty.addStartNode 0) repl icnts iwts true
        sentences.length exps with
    | error e =>
      rw [hci] at hok2
      simp only [Bind.bind, Except.bind] at hok2
      exact Except.noConfusion hok2
    | ok p =>
      obtain ⟨g1, fstates⟩ := p
      rw [hci] at hok2
      simp only [Bind.bind, Except.bind, Pure.pure, Except.pure,
        Except.ok.injEq] at hok2
      have hg0i : edgeInvAll (Graph.empty.addStartNode 0) := by
        intro e he
        simp [Graph.empty, Graph.addStartNode] at he
      have hg0b : edgeBounds (Graph.empty.addStartNode 0) := by
        intro e he
        simp [Graph.empty, Graph.addStartNode] at he
      have hg0n : 1 ≤ (Graph.empty.addStartNode 0).numNodes := by decide
      have hc := compile_intents_inv fuel sentences _ repl icnts iwts true
        sentences.length exps g1 fstates hci hsent hrepl hg0n hg0i hg0b
      have hfold := foldl_preserve (fun gg : Graph =>
          gg.edges.filter (fun e => e.src = 0) =
            g1.edges.filter (fun e => e.src = 0))
        (fun g2 next_state => g2.addEdge
          { src := next_state, dst := g1.numNodes, ilabel := "",
            olabel := "" }) fstates (g1.addFinalNode g1.numNodes)
        (by
          intro b x hx hb
          have hx1 := hc.2.2.2.2.2.1 x hx
          calc ((b.addEdge
                  { src := x, dst := g1.numNodes, ilabel := "",
                    olabel := "" }).edges.filter (fun e => e.src = 0))
              = b.edges.filter (fun e => e.src = 0) :=
                updateEdgeList_filter_src0 b.edges _ hx1
            _ = g1.edges.filter (fun e => e.src = 0) := hb)
        rfl
      rw [← hok2, hfold, hc.2.2.2.2.2.2]
      simp [Graph.empty, Graph.addStartNode]
  unfold sentences_to_graph at hok
  split at hok
  · cases hcnt2 : get_intent_counts fuel sentences repl ecs with
    | error e =>
      rw [hcnt2] at hok
      simp only [Bind.bind, Except.bind] at hok
      exact Except.noConfusion hok
    | ok counts1 =>
      have hsame : counts1 = counts0 := by
        rw [hcnt2] at hcnt
        exact (Except.ok.injEq _ _).mp hcnt.symm |>.symm
      subst hsame
      rw [hcnt2] at hok
      simp only [Bind.bind, Except.bind, Pure.pure, Except.pure] at hok
      have h3 := tail3 _ _ hok
      with_unfolding_all exact h3
  · rename_i hfalse
    exact absurd rfl hfalse

/-- The running fold of `lcm` stays positive and is divided by the
accumulator and every list element. -/
theorem foldl_lcm_inv : ∀ (rest : List Nat) (acc : Nat), 1 ≤ acc →
    (∀ x ∈ rest, 1 ≤ x) →
    1 ≤ rest.foldl Nat.lcm acc ∧ acc ∣ rest.foldl Nat.lcm acc ∧
      ∀ x ∈ rest, x ∣ rest.foldl Nat.lcm acc := by
  intro rest
  induction rest with
  | nil =>
    intro acc ha _
    exact ⟨ha, dvd_refl acc, by simp⟩
  | cons m rest ih =>
    intro acc ha hx
    rw [List.foldl_cons]
    have hm : 1 ≤ m := hx m (by simp)
    have hl : 1 ≤ Nat.lcm acc m := Nat.lcm_pos ha hm
    have hrec := ih (Nat.lcm acc m) hl (fun x hx2 => hx x (by simp [hx2]))
    refine ⟨hrec.1, dvd_trans (Nat.dvd_lcm_left acc m) hrec.2.1, ?_⟩
    intro x hx2
    rcases List.mem_cons.mp hx2 with h | h
    · rw [h]
      exact dvd_trans (Nat.dvd_lcm_right acc m) hrec.2.1
    · exact hrec.2.2 x h

/-- `lcm` of a list of positive numbers is positive and divided by every
element. -/
theorem lcm_list_inv (nums : List Nat) (hpos : ∀ x ∈ nums, 1 ≤ x) :
    1 ≤ lcm_list nums ∧ ∀ x ∈ nums, x ∣ lcm_list nums := by
  cases nums with
  | nil => exact ⟨le_refl 1, by simp⟩
  | cons n rest =>
    have heq : lcm_list (n :: rest) = rest.foldl Nat.lcm n := rfl
    rw [heq]
    have hrec := foldl_lcm_inv rest n (hpos n (by simp))
      (fun x hx => hpos x (by simp [hx]))
    refine ⟨hrec.1, ?_⟩
    intro x hx
    rcases List.mem_cons.mp hx with h | h
    · rw [h]
      exact hrec.2.1
    · exact hrec.2.2 x h

/-- Looking up a key-determined table finds the key's value. -/
theorem alGet_pairmap {α β : Type} (f : String → β) :
    ∀ (l : List (String × α)) (k : String), k ∈ l.map Prod.fst →
      alGet (l.map (fun p => (p.1, f p.1))) k = some (f k) := by
  intro l
  induction l with
  | nil =>
    intro k hk
    simp at hk
  | cons a rest ih =>
    intro k hk
    rw [List.map_cons]
    unfold alGet
    by_cases hc : a.1 = k
    · rw [if_pos hc, hc]
    · rw [if_neg hc]
      apply ih
      simp only [List.map_cons, List.mem_cons] at hk
      rcases hk with h | h
      · exact absurd h.symm hc
      · exact h

/-- A value found by `alGet` is among the stored values. -/
theorem alGet_mem_snd {β : Type} :
    ∀ (l : List (String × β)) (k : String) (v : β),
      alGet l k = some v → v ∈ l.map Prod.snd := by
  intro l
  induction l with
  | nil =>
    intro k v h
    simp [alGet] at h
  | cons a rest ih =>
    intro k v h
    obtain ⟨k0, v0⟩ := a
    unfold alGet at h
    by_cases hc : k0 = k
    · rw [if_pos hc] at h
      cases h
      simp
    · rw [if_neg hc] at h
      simp only [List.map_cons, List.mem_cons]
      right
      exact ih k v h

/-- The code's per-intent count divides the lcm and the lcm is
positive. -/
theorem intentCountOf_dvd (counts0 : List (String × Nat)) (i : String) :
    1 ≤ stg_lcm counts0 ∧ intentCountOf counts0 i ∣ stg_lcm counts0 := by
  have hpos : ∀ x ∈ (stg_intent_counts counts0).map Prod.snd, 1 ≤ x := by
    intro x hx
    unfold stg_intent_counts at hx
    rw [List.map_map, List.mem_map] at hx
    obtain ⟨p, _, hp⟩ := hx
    simp only [Function.comp] at hp
    omega
  have hlcm := lcm_list_inv _ hpos
  refine ⟨hlcm.1, ?_⟩
  unfold intentCountOf
  cases halg : alGet (stg_intent_counts counts0) i with
  | none =>
    simp only [Option.getD_none]
    exact (by simpa using hlcm.1 : max 1 1 ∣ stg_lcm counts0)
  | some v =>
    have hv : v ∈ (stg_intent_counts counts0).map Prod.snd :=
      alGet_mem_snd _ i v halg
    have hv1 : 1 ≤ v := hpos v hv
    simp only [Option.getD_some]
    rw [Nat.max_eq_left hv1]
    exact hlcm.2 v hv

/-- `1 ≤ L / c` for a divisor `c` of a positive `L`. -/
theorem div_ge_one_of_dvd (L c : Nat) (hd : c ∣ L) (hL : 1 ≤ L) :
    1 ≤ L / c := by
  rcases hd with ⟨k, hk⟩
  subst hk
  have hc : 1 ≤ c := by
    by_contra h
    simp at h
    subst h
    simp at hL
  have hk1 : 1 ≤ k := by
    by_contra h
    simp at h
    subst h
    simp at hL
  rw [Nat.mul_div_cancel_left k hc]
  exact hk1

/-- Exact division by a strictly larger divisor gives a strictly
smaller quotient. -/
theorem div_lt_div_of_dvd_lt (L c1 c2 : Nat) (h1 : c1 ∣ L) (h2 : c2 ∣ L)
    (hL : 1 ≤ L) (hlt : c1 < c2) : L / c2 < L / c1 := by
  have e1 : L / c1 * c1 = L := Nat.div_mul_cancel h1
  have e2 : L / c2 * c2 = L := Nat.div_mul_cancel h2
  have q1 : 1 ≤ L / c1 := div_ge_one_of_dvd L c1 h1 hL
  by_contra h
  push_neg at h
  have hlt2 : L / c1 * c1 < L / c1 * c2 :=
    mul_lt_mul_of_pos_left hlt (by omega)
  have hle2 : L / c1 * c2 ≤ L / c2 * c2 :=
    mul_le_mul_of_nonneg_right h (by omega)
  omega

/-- Casting a sum of naturals into `ℚ`. -/
theorem cast_list_sum_q : ∀ (l : List Nat),
    ((l.sum : ℕ) : ℚ) = (l.map (fun n : Nat => (n : ℚ))).sum := by
  intro l
  induction l with
  | nil => simp
  | cons a rest ih => simp [ih]

/-- Summing termwise division by a constant. -/
theorem list_sum_div_q (c : ℚ) : ∀ (l : List ℚ),
    (l.map (fun x => x / c)).sum = l.sum / c := by
  intro l
  induction l with
  | nil => simp
  | cons a rest ih =>
    simp only [List.map_cons, List.sum_cons, ih]
    rw [add_div]

/-- **C6** (confirmed).  With intent weighting enabled and more than one
intent, each start-to-intent `__label__` branch edge carries weight
`(L / c_i) / W`: `c_i` is the intent's floored combinatorial sentence
count (the `get_intent_counts` value, `intentCountOf`), `L` the lcm of
all counts (`stg_lcm`), and `W` the sum of `L / c_j` over the intents
(`stg_wsum`); the weights sum to 1, and an intent with strictly fewer
expansions gets a strictly higher weight.  (Stated under the same
reserved-marker-free grammar proviso as C4, which the edge bookkeeping
induction rides on.) -/
theorem c6_intent_weights (fuel : Nat)
    (sentences : List (String × List Expression))
    (repl : ReplacementsType) (ecs exps : Bool) (G : Graph)
    (counts0 : List (String × Nat))
    (hsent : labelFreeTable sentences = true)
    (hrepl : labelFreeTable repl = true)
    (hlen : 1 < sentences.length)
    (hcnt : get_intent_counts fuel sentences repl ecs = .ok counts0)
    (hok : sentences_to_graph fuel sentences repl true ecs exps = .ok G) :
    (G.edges.filter (fun e => e.src = 0)).map
        (fun e => (e.olabel, e.weight)) =
      sentences.map (fun p => ("__label__" ++ p.1,
        some (((stg_lcm counts0 / intentCountOf counts0 p.1 : ℕ) : ℚ) /
          ((stg_wsum sentences counts0 : ℕ) : ℚ)))) ∧
    (sentences.map (fun p =>
        ((stg_lcm counts0 / intentCountOf counts0 p.1 : ℕ) : ℚ) /
          ((stg_wsum sentences counts0 : ℕ) : ℚ))).sum = 1 ∧
    ∀ p ∈ sentences, ∀ q ∈ sentences,
      intentCountOf counts0 p.1 < intentCountOf counts0 q.1 →
      ((stg_lcm counts0 / intentCountOf counts0 q.1 : ℕ) : ℚ) /
          ((stg_wsum sentences counts0 : ℕ) : ℚ) <
        ((stg_lcm counts0 / intentCountOf counts0 p.1 : ℕ) : ℚ) /
          ((stg_wsum sentences counts0 : ℕ) : ℚ) := by
  have hL1 : 1 ≤ stg_lcm counts0 := (intentCountOf_dvd counts0 "").1
  have hterm : ∀ i, 1 ≤ stg_lcm counts0 / intentCountOf counts0 i :=
    fun i => div_ge_one_of_dvd _ _ (intentCountOf_dvd counts0 i).2 hL1
  have hWsum1 : 1 ≤ stg_wsum sentences counts0 := by
    unfold stg_wsum stg_w0
    rw [List.map_map]
    cases hs : sentences with
    | nil =>
      rw [hs] at hlen
      simp at hlen
    | cons a rest =>
      simp only [List.map_cons, List.sum_cons]
      have h1 := hterm a.1
      have h2 : (a.1,
          stg_lcm counts0 / intentCountOf counts0 a.1).2 =
          stg_lcm counts0 / intentCountOf counts0 a.1 := rfl
      simp only [Function.comp]
      omega
  have hWne : ((stg_wsum sentences counts0 : ℕ) : ℚ) ≠ 0 := by
    rw [Ne, Nat.cast_eq_zero]
    omega
  have hWpos : (0 : ℚ) < ((stg_wsum sentences counts0 : ℕ) : ℚ) := by
    rw [show ((0 : ℚ) = ((0 : ℕ) : ℚ)) from rfl, Nat.cast_lt]
    omega
  have hmax : max (stg_wsum sentences counts0) 1 =
      stg_wsum sentences counts0 := Nat.max_eq_left hWsum1
  have hedges := sentences_to_graph_label_edges fuel sentences repl ecs
    exps G counts0 hsent hrepl hcnt hok
  refine ⟨?_, ?_, ?_⟩
  · have hcomp : (G.edges.filter (fun e => e.src = 0)).map
        (fun e => (e.olabel, e.weight)) =
      ((G.edges.filter (fun e => e.src = 0)).map
        (fun e => (e.olabel, e.weight, e.sentence_count))).map
        (fun t => (t.1, t.2.1)) := by
      rw [List.map_map]
      rfl
    rw [hcomp, hedges, List.map_map]
    refine List.map_eq_map_iff.mpr ?_
    intro p hp
    have hin : p.1 ∈ sentences.map Prod.fst :=
      List.mem_map_of_mem Prod.fst hp
    have hlist : stg_intent_weights sentences counts0 =
        sentences.map (fun q => (q.1,
          ((stg_lcm counts0 / intentCountOf counts0 q.1 : ℕ) : ℚ) /
            ((max (stg_wsum sentences counts0) 1 : ℕ) : ℚ))) := by
      unfold stg_intent_weights stg_w0
      rw [List.map_map]
      rfl
    have halg : alGet (stg_intent_weights sentences counts0) p.1 =
        some (((stg_lcm counts0 / intentCountOf counts0 p.1 : ℕ) : ℚ) /
          ((max (stg_wsum sentences counts0) 1 : ℕ) : ℚ)) := by
      rw [hlist]
      exact alGet_pairmap (fun i =>
        ((stg_lcm counts0 / intentCountOf counts0 i : ℕ) : ℚ) /
          ((max (stg_wsum sentences counts0) 1 : ℕ) : ℚ))
        sentences p.1 hin
    simp only [Function.comp]
    unfold labelTriple
    rw [if_pos ⟨rfl, hlen⟩]
    dsimp only
    rw [halg]
    simp only [Option.getD_some]
    rw [hmax]
  · have hsplit : (sentences.map (fun p =>
        ((stg_lcm counts0 / intentCountOf counts0 p.1 : ℕ) : ℚ) /
          ((stg_wsum sentences counts0 : ℕ) : ℚ))).sum =
      ((sentences.map (fun p =>
        ((stg_lcm counts0 / intentCountOf counts0 p.1 : ℕ) : ℚ))).map
          (fun x => x / ((stg_wsum sentences counts0 : ℕ) : ℚ))).sum := by
      rw [List.map_map]
      rfl
    rw [hsplit, list_sum_div_q]
    have hnum : (sentences.map (fun p =>
        ((stg_lcm counts0 / intentCountOf counts0 p.1 : ℕ) : ℚ))).sum =
        ((stg_wsum sentences counts0 : ℕ) : ℚ) := by
      unfold stg_wsum stg_w0
      rw [List.map_map, cast_list_sum_q, List.map_map]
      rfl
    rw [hnum]
    exact div_self hWne
  · intro p hp q hq hlt
    have hdltN : stg_lcm counts0 / intentCountOf counts0 q.1 <
        stg_lcm counts0 / intentCountOf counts0 p.1 :=
      div_lt_div_of_dvd_lt _ _ _ (intentCountOf_dvd counts0 p.1).2
        (intentCountOf_dvd counts0 q.1).2 hL1 hlt
    exact div_lt_div_of_pos_right (Nat.cast_lt.mpr hdltN) hWpos

set_option maxRecDepth 100000 in
/-- Witness for `c6_intent_weights` on the two-intent grammar
`[A] ↦ a` (count 1) / `[B] ↦ b | c` (count 2): `L = 2`, `W = 3`, the
label edges carry weights `2/3` and `1/3`, and the weights sum to 1. -/
theorem c6_intent_weights_witness :
    (c6WitGraph.edges.filter (fun e => e.src = 0)).map
        (fun e => (e.olabel, e.weight)) =
      [("__label__A", some ((2 : ℚ) / 3)),
       ("__label__B", some ((1 : ℚ) / 3))] ∧
    ([("A", [Expression.word "a"]),
      ("B", [Expression.sequence .alternative [.word "b", .word "c"]])].map
        (fun p : String × List Expression =>
          ((stg_lcm [("A", 1), ("B", 2)] /
              intentCountOf [("A", 1), ("B", 2)] p.1 : ℕ) : ℚ) /
            ((stg_wsum
              [("A", [Expression.word "a"]),
               ("B", [Expression.sequence .alternative [.word "b",
                 .word "c"]])] [("A", 1), ("B", 2)] : ℕ) : ℚ))).sum =
      1 := by
  have h := c6_intent_weights 50
    [("A", [Expression.word "a"]),
     ("B", [Expression.sequence .alternative [.word "b", .word "c"]])]
    [] true true c6WitGraph [("A", 1), ("B", 2)]
    (by with_unfolding_all rfl) (by with_unfolding_all rfl)
    (by decide) (by with_unfolding_all rfl) (by with_unfolding_all rfl)
  refine ⟨?_, h.2.1⟩
  rw [h.1]
  with_unfolding_all rfl

/-! ## C8: unbalanced control tokens -/

/-- `map key` commutes with `isEmpty`. -/
theorem map_key_isEmpty (stack : List ConverterInfo) :
    (stack.map ConverterInfo.key).isEmpty = stack.isEmpty := by
  cases stack <;> rfl

/-- A successful `convert_step` is simulated on the key stacks by the
spec-modelled `convKeysStep`. -/
theorem convert_step_keys (conv : String → Option ConvFn)
    (stack stack' : List ConverterInfo) (out out' : List RCTok)
    (tok : RSTok)
    (h : convert_step conv stack out tok = .ok (stack', out')) :
    convKeysStep (stack.map ConverterInfo.key) tok =
      some (stack'.map ConverterInfo.key) := by
  obtain ⟨raw, sub, orig⟩ := tok
  unfold convert_step at h
  unfold convKeysStep
  dsimp only at h ⊢
  by_cases h1 : sub ≠ "" ∧ ¬ stack.isEmpty ∧ pyTake sub 2 ≠ "__"
  · rw [if_pos h1] at h
    rw [if_pos (by rw [map_key_isEmpty]; exact h1)]
    cases stack with
    | nil => exact Except.noConfusion h
    | cons top others =>
      simp only [Except.ok.injEq, Prod.mk.injEq] at h
      obtain ⟨hs, -⟩ := h
      rw [← hs]
      rfl
  · rw [if_neg h1] at h
    rw [if_neg (by rw [map_key_isEmpty]; exact h1)]
    by_cases h2 : pyTake sub 11 = "__convert__"
    · rw [if_pos h2] at h
      rw [if_pos h2]
      simp only [Except.ok.injEq, Prod.mk.injEq] at h
      obtain ⟨hs, -⟩ := h
      rw [← hs]
      rfl
    · rw [if_neg h2] at h
      rw [if_neg h2]
      by_cases h3 : pyTake sub 13 = "__converted__"
      · rw [if_pos h3] at h
        rw [if_pos h3]
        cases stack with
        | nil => exact Except.noConfusion h
        | cons last others =>
          simp only [List.map_cons]
          dsimp only at h
          by_cases hk : last.key ≠ pyDrop sub 13
          · rw [if_pos hk] at h
            exact Except.noConfusion h
          · rw [if_neg hk] at h
            rw [if_neg hk]
            cases hcv : conv last.name with
            | none =>
              rw [hcv] at h
              exact Except.noConfusion h
            | some f =>
              rw [hcv] at h
              dsimp only at h
              simp only [Bind.bind, Except.bind] at h
              cases hft : f (argsTruthy last.args)
                  (last.tokens.filterMap (fun t => keepSubVal t.2.1)) with
              | error e =>
                rw [hft] at h
                exact Except.noConfusion h
              | ok ct =>
                rw [hft] at h
                dsimp only at h
                cases others with
                | nil =>
                  rw [Except.ok.injEq, Prod.mk.injEq] at h
                  obtain ⟨hs, -⟩ := h
                  rw [← hs]
                | cons parent rest =>
                  rw [Except.ok.injEq, Prod.mk.injEq] at h
                  obtain ⟨hs, -⟩ := h
                  rw [← hs]
                  rfl
      · rw [if_neg h3] at h
        rw [if_neg h3]
        simp only [Except.ok.injEq, Prod.mk.injEq] at h
        obtain ⟨hs, -⟩ := h
        rw [← hs]

/-- A stream whose key stacks are not converter-balanced can never make
`apply_converters` succeed. -/
theorem apply_converters_unbalanced (conv : String → Option ConvFn)
    (stack : List ConverterInfo) (out : List RCTok) (toks : List RSTok)
    (hb : convBalanced (stack.map ConverterInfo.key) toks = false) :
    ∀ r, apply_converters conv stack out toks ≠ .ok r := by
  induction toks generalizing stack out with
  | nil =>
    intro r h
    rw [apply_converters] at h
    rw [convBalanced, map_key_isEmpty] at hb
    rw [hb] at h
    simp only [Bool.false_eq_true, if_false] at h
    exact Except.noConfusion h
  | cons tok rest ih =>
    intro r h
    rw [apply_converters] at h
    simp only [Bind.bind, Except.bind] at h
    cases hstep : convert_step conv stack out tok with
    | error e =>
      rw [hstep] at h
      exact Except.noConfusion h
    | ok p =>
      obtain ⟨stack2, out2⟩ := p
      rw [hstep] at h
      dsimp only at h
      have hk := convert_step_keys conv stack stack2 out out2 tok hstep
      rw [convBalanced, hk] at hb
      dsimp only at hb
      exact ih stack2 out2 hb r h

/-- `raw_token_update` never changes the names on the entity stack. -/
theorem raw_token_update_names (st : EntState) (raw : String)
    (orig : List String) :
    (raw_token_update st raw orig).entity_stack.map Entity.entity =
      st.entity_stack.map Entity.entity := by
  rw [raw_token_update]
  by_cases h1 : ¬ orig.isEmpty
  · rw [if_pos h1]
    dsimp only
    cases st.entity_stack with
    | nil => rfl
    | cons e es => rfl
  · rw [if_neg h1]
    by_cases h2 : raw ≠ ""
    · rw [if_pos h2]
      dsimp only
      cases st.entity_stack with
      | nil => rfl
      | cons e es => rfl
    · rw [if_neg h2]

/-- A successful `collect_entity_step` is simulated on the entity-name
stacks by the spec-modelled `entKeysStep`. -/
theorem collect_entity_step_names (st st' : EntState) (tok : RCTok)
    (h : collect_entity_step st tok = .ok st') :
    entKeysStep (st.entity_stack.map Entity.entity) tok =
      some (st'.entity_stack.map Entity.entity) := by
  obtain ⟨raw, conv, orig⟩ := tok
  unfold collect_entity_step at h
  unfold entKeysStep
  dsimp only at h ⊢
  have hraw := raw_token_update_names st raw orig
  rw [← hraw]
  cases conv with
  | none =>
    rw [Except.ok.injEq] at h
    rw [h]
  | some v =>
    dsimp only at h ⊢
    by_cases hs : pyStr v = ""
    · rw [if_pos hs] at h
      rw [if_pos hs]
      rw [Except.ok.injEq] at h
      rw [h]
    · rw [if_neg hs] at h
      rw [if_neg hs]
      by_cases hb : pyTake (pyStr v) 9 = "__begin__"
      · rw [if_pos hb] at h
        rw [if_pos hb]
        cases v with
        | str sv =>
          rw [Except.ok.injEq] at h
          rw [← h]
          rfl
        | int n => exact Except.noConfusion h
        | float q => exact Except.noConfusion h
        | bool b => exact Except.noConfusion h
        | obj o => exact Except.noConfusion h
      · rw [if_neg hb] at h
        rw [if_neg hb]
        by_cases he : pyTake (pyStr v) 7 = "__end__"
        · rw [if_pos he] at h
          rw [if_pos he]
          cases v with
          | str sv =>
            dsimp only at h ⊢
            cases hes : (raw_token_update st raw orig).entity_stack with
            | nil =>
              rw [hes] at h
              exact Except.noConfusion h
            | cons last oth =>
              rw [hes] at h
              dsimp only at h
              simp only [List.map_cons]
              by_cases hn : last.entity ≠ pyDrop sv 7
              · rw [if_pos hn] at h
                exact Except.noConfusion h
              · rw [if_neg hn] at h
                rw [if_neg hn]
                rw [Except.ok.injEq] at h
                rw [← h]
          | int n => exact Except.noConfusion h
          | float q => exact Except.noConfusion h
          | bool b => exact Except.noConfusion h
          | obj o => exact Except.noConfusion h
        · rw [if_neg he] at h
          rw [if_neg he]
          by_cases hsrc : pyTake (pyStr v) 10 = "__source__"
          · rw [if_pos hsrc] at h
            cases hes : (raw_token_update st raw orig).entity_stack with
            | nil =>
              rw [hes] at h
              rw [Except.ok.injEq] at h
              rw [← h, hes]
            | cons last oth =>
              rw [hes] at h
              dsimp only at h
              rw [Except.ok.injEq] at h
              rw [← h]
              rfl
          · rw [if_neg hsrc] at h
            cases hes : (raw_token_update st raw orig).entity_stack with
            | nil =>
              rw [hes] at h
              rw [Except.ok.injEq] at h
              rw [← h]
            | cons last oth =>
              rw [hes] at h
              dsimp only at h
              rw [Except.ok.injEq] at h
              rw [← h]
              rfl

/-- A converted stream whose name stacks are not entity-balanced can never
make `collect_entities` succeed. -/
theorem collect_entities_unbalanced (st : EntState) (toks : List RCTok)
    (hb : entBalanced (st.entity_stack.map Entity.entity) toks = false) :
    ∀ st', collect_entities st toks ≠ .ok st' := by
  induction toks generalizing st with
  | nil =>
    intro st' h
    rw [entBalanced] at hb
    exact Bool.noConfusion hb
  | cons tok rest ih =>
    intro st' h
    rw [collect_entities] at h
    simp only [Bind.bind, Except.bind] at h
    cases hstep : collect_entity_step st tok with
    | error e =>
      rw [hstep] at h
      exact Except.noConfusion h
    | ok st2 =>
      rw [hstep] at h
      dsimp only at h
      have hk := collect_entity_step_names st st2 tok hstep
      rw [entBalanced, hk] at hb
      dsimp only at hb
      exact ih st2 hb st' h

/-- **C8**: `path_to_recognition` fails (never returns a `SUCCESS`
`Recognition`) on every path whose control tokens are unbalanced: a
resolved stream that breaks the converter-stack discipline (a
`__converted__` on an empty stack or with a mismatched key, or a frame
still open at the end of the path), or whose converted stream breaks the
entity-stack discipline (an `__end__` on an empty stack or with a
mismatched name). -/
theorem c8_unbalanced_markers_fail (node_path : Path) (g : Graph)
    (cost : Option ℚ) (convs extra : Option (String → Option ConvFn))
    (stream : List RSTok) (iname : String)
    (hres : resolve_olabels g node_path = .ok (stream, iname))
    (hbad : convBalanced [] stream = false ∨
      ∀ conv_stream, apply_converters (merge_converters convs extra) [] []
        stream = .ok conv_stream → entBalanced [] conv_stream = false) :
    ∀ r : Recognition, path_to_recognition node_path g cost convs extra ≠
      .ok (.success, some r) := by
  intro r h
  obtain ⟨stream2, iname2, conv_stream, st, h1, h2, h3, -, -⟩ :=
    path_to_recognition_ok_elim node_path g cost convs extra .success r h
  rw [hres] at h1
  rw [Except.ok.injEq, Prod.mk.injEq] at h1
  obtain ⟨hs, -⟩ := h1
  subst hs
  cases hbad with
  | inl hc =>
    exact apply_converters_unbalanced (merge_converters convs extra) [] []
      stream hc conv_stream h2
  | inr he =>
    have hb : entBalanced
        (({ recognition :=
            { intent := some { name := iname2, confidence := 1 } } } :
          EntState).entity_stack.map Entity.entity) conv_stream = false :=
      he conv_stream h2
    exact collect_entities_unbalanced _ conv_stream hb st h3

/-- The grammar-free graph `0 -"__converted__x"-> 1` yields the resolved
stream `[("", "__converted__x", [])]`, which is converter-unbalanced, and
interpreting its path indeed never succeeds. -/
theorem c8_unbalanced_markers_fail_witness :
    resolve_olabels c8WitGraph [(0, []), (1, [])] =
      .ok ([("", "__converted__x", [])], "") ∧
    convBalanced [] [("", "__converted__x", [])] = false ∧
    path_to_recognition [(0, []), (1, [])] c8WitGraph none none none ≠
      .ok (.success, some {}) := by
  refine ⟨by with_unfolding_all rfl, by with_unfolding_all rfl, ?_⟩
  exact c8_unbalanced_markers_fail [(0, []), (1, [])] c8WitGraph none none
    none [("", "__converted__x", [])] "" (by with_unfolding_all rfl)
    (Or.inl (by with_unfolding_all rfl)) {}

/-! ## C1: plain-grammar completeness -- graph-growth lemmas -/

/-- A found edge is stored with the queried endpoints. -/
theorem edgeBetween_elim (g : Graph) (u v : Nat) (e : Edge)
    (h : g.edgeBetween u v = some e) :
    e ∈ g.edges ∧ e.src = u ∧ e.dst = v := by
  unfold Graph.edgeBetween at h
  have hmem := List.mem_of_find?_eq_some h
  have hp := List.find?_some h
  simp only [decide_eq_true_eq] at hp
  exact ⟨hmem, hp⟩

/-- A found edge shows up in its source node's successor list. -/
theorem succOf_of_edgeBetween (g : Graph) (u v : Nat) (e : Edge)
    (h : g.edgeBetween u v = some e) : e ∈ g.succOf u := by
  obtain ⟨hm, hs, -⟩ := edgeBetween_elim g u v e h
  unfold Graph.succOf
  rw [List.mem_filter]
  exact ⟨hm, by simp [hs]⟩

/-- `find?` looks left first on an append. -/
theorem find?_append_some {α : Type} (p : α → Bool) (l1 l2 : List α)
    (x : α) (h : l1.find? p = some x) : (l1 ++ l2).find? p = some x := by
  induction l1 with
  | nil => exact absurd h (by simp)
  | cons a rest ih =>
    by_cases ha : p a
    · rw [List.find?_cons_of_pos _ ha] at h
      rw [List.cons_append, List.find?_cons_of_pos _ ha]
      exact h
    · rw [List.find?_cons_of_neg _ ha] at h
      rw [List.cons_append, List.find?_cons_of_neg _ ha]
      exact ih h

/-- `find?` falls through to the right part of an append. -/
theorem find?_append_none {α : Type} (p : α → Bool) (l1 l2 : List α)
    (h : l1.find? p = none) : (l1 ++ l2).find? p = l2.find? p := by
  induction l1 with
  | nil => rfl
  | cons a rest ih =>
    by_cases ha : p a
    · rw [List.find?_cons_of_pos _ ha] at h
      exact Option.noConfusion h
    · rw [List.find?_cons_of_neg _ ha] at h
      rw [List.cons_append, List.find?_cons_of_neg _ ha]
      exact ih h

/-- A networkx edge update keeps every stored edge findable, unless the
very same endpoint pair is overwritten (with the same edge). -/
theorem updateEdgeList_find?_keep (es : List Edge) (e : Edge) (a b : Nat)
    (e2 : Edge)
    (h : es.find? (fun x => x.src = a ∧ x.dst = b) = some e2)
    (hcase : ¬(e.src = a ∧ e.dst = b) ∨ e = e2) :
    (updateEdgeList es e).find? (fun x => x.src = a ∧ x.dst = b) =
      some e2 := by
  induction es with
  | nil => exact absurd h (by simp)
  | cons x rest ih =>
    rw [updateEdgeList]
    by_cases hx : x.src = e.src ∧ x.dst = e.dst
    · rw [if_pos hx]
      by_cases hq : x.src = a ∧ x.dst = b
      · rw [List.find?_cons_of_pos _ (by simp [hq])] at h
        rw [Option.some.injEq] at h
        have hep : e.src = a ∧ e.dst = b := by
          obtain ⟨h1, h2⟩ := hx
          obtain ⟨h3, h4⟩ := hq
          omega
        cases hcase with
        | inl hc => exact absurd hep hc
        | inr hc =>
          rw [List.find?_cons_of_pos _ (by simp [hep])]
          rw [hc]
      · rw [List.find?_cons_of_neg _ (by simp [hq])] at h
        by_cases hel : e.src = a ∧ e.dst = b
        · cases hcase with
          | inl hc => exact absurd hel hc
          | inr hc =>
            rw [List.find?_cons_of_pos _ (by simp [hel])]
            rw [hc]
        · rw [List.find?_cons_of_neg _ (by simp [hel])]
          exact h
    · rw [if_neg hx]
      by_cases hq : x.src = a ∧ x.dst = b
      · rw [List.find?_cons_of_pos _ (by simp [hq])] at h
        rw [List.find?_cons_of_pos _ (by simp [hq])]
        exact h
      · rw [List.find?_cons_of_neg _ (by simp [hq])] at h
        rw [List.find?_cons_of_neg _ (by simp [hq])]
        exact ih h

/-- After a networkx edge update the updated pair finds the new edge. -/
theorem updateEdgeList_find?_self (es : List Edge) (e : Edge) :
    (updateEdgeList es e).find?
      (fun x => x.src = e.src ∧ x.dst = e.dst) = some e := by
  induction es with
  | nil =>
    rw [updateEdgeList]
    rw [List.find?_cons_of_pos _ (by simp)]
  | cons x rest ih =>
    rw [updateEdgeList]
    by_cases hx : x.src = e.src ∧ x.dst = e.dst
    · rw [if_pos hx]
      rw [List.find?_cons_of_pos _ (by simp)]
    · rw [if_neg hx]
      rw [List.find?_cons_of_neg _ (by simp [hx])]
      exact ih

/-- Old edges survive `addEdge` unless their pair is overwritten with the
same edge. -/
theorem edgeBetween_addEdge_keep (g : Graph) (e : Edge) (a b : Nat)
    (e2 : Edge) (h : g.edgeBetween a b = some e2)
    (hcase : ¬(e.src = a ∧ e.dst = b) ∨ e = e2) :
    (g.addEdge e).edgeBetween a b = some e2 := by
  unfold Graph.edgeBetween Graph.addEdge at *
  dsimp only at *
  exact updateEdgeList_find?_keep g.edges e a b e2 h hcase

/-- `addEdge` makes its own edge findable. -/
theorem edgeBetween_addEdge_self (g : Graph) (e : Edge) :
    (g.addEdge e).edgeBetween e.src e.dst = some e := by
  unfold Graph.edgeBetween Graph.addEdge
  dsimp only
  exact updateEdgeList_find?_self g.edges e

/-- Nodes at or above the node count carry no word attribute. -/
theorem wordOf_big (g : Graph) (hwb : wordBounds g) (n : Nat)
    (hn : g.numNodes ≤ n) : g.wordOf n = "" := by
  unfold Graph.wordOf
  have hfind : g.words.find? (fun p => p.1 = n) = none := by
    rw [List.find?_eq_none]
    intro x hx
    simp only [decide_eq_true_eq]
    have := hwb x hx
    omega
  rw [hfind]

/-- `addEdge` changes no word attribute. -/
theorem wordOf_addEdge (g : Graph) (e : Edge) (n : Nat) :
    (g.addEdge e).wordOf n = g.wordOf n := rfl

/-- `addFinalNode` changes no word attribute and no edge. -/
theorem wordOf_addFinalNode (g : Graph) (m n : Nat) :
    (g.addFinalNode m).wordOf n = g.wordOf n := rfl

/-- `addFinalNode` changes no edge lookup. -/
theorem edgeBetween_addFinalNode (g : Graph) (m a b : Nat) :
    (g.addFinalNode m).edgeBetween a b = g.edgeBetween a b := rfl

/-- A fresh word node keeps every old node's word attribute. -/
theorem wordOf_addWordNode_keep (g : Graph) (m : Nat) (w : String)
    (hm : g.numNodes ≤ m) (n : Nat) (hn : n < g.numNodes) :
    (g.addWordNode m w).wordOf n = g.wordOf n := by
  unfold Graph.wordOf Graph.addWordNode
  dsimp only
  cases hf : g.words.find? (fun p => p.1 = n) with
  | some q => rw [find?_append_some _ _ _ q hf]
  | none =>
    rw [find?_append_none _ _ _ hf]
    rw [List.find?_cons_of_neg _ (by simp; omega)]
    rfl

/-- A fresh word node carries its word. -/
theorem wordOf_addWordNode_self (g : Graph) (m : Nat) (w : String)
    (hwb : wordBounds g) (hm : g.numNodes ≤ m) :
    (g.addWordNode m w).wordOf m = w := by
  unfold Graph.wordOf Graph.addWordNode
  dsimp only
  have hfind : g.words.find? (fun p => p.1 = m) = none := by
    rw [List.find?_eq_none]
    intro x hx
    simp only [decide_eq_true_eq]
    have := hwb x hx
    omega
  rw [find?_append_none _ _ _ hfind]
  rw [List.find?_cons_of_pos _ (by simp)]

/-- `graphExtends` is reflexive. -/
theorem graphExtends_refl (g : Graph) : graphExtends g g :=
  ⟨le_refl _, fun _ _ _ h => h, fun _ _ => rfl, rfl, rfl⟩

/-- `graphExtends` is transitive. -/
theorem graphExtends_trans {a b c : Graph} (h1 : graphExtends a b)
    (h2 : graphExtends b c) : graphExtends a c :=
  ⟨le_trans h1.1 h2.1,
   fun u v e h => h2.2.1 u v e (h1.2.1 u v e h),
   fun n hn => by rw [h2.2.2.1 n (lt_of_lt_of_le hn h1.1), h1.2.2.1 n hn],
   h2.2.2.2.1.trans h1.2.2.2.1, h2.2.2.2.2.trans h1.2.2.2.2⟩

/-- Adding an edge into a fresh destination grows the graph. -/
theorem graphExtends_addEdge_fresh (g : Graph) (e : Edge)
    (hb : edgeBounds g) (hd : g.numNodes ≤ e.dst) :
    graphExtends g (g.addEdge e) := by
  refine ⟨?_, ?_, fun n _ => rfl, rfl, rfl⟩
  · unfold Graph.addEdge
    dsimp only
    exact le_max_left _ _
  · intro a b e2 h
    refine edgeBetween_addEdge_keep g e a b e2 h (Or.inl ?_)
    rintro ⟨-, h2⟩
    obtain ⟨hm, -, hbd⟩ := edgeBetween_elim g a b e2 h
    have := (hb e2 hm).2
    omega

/-- Re-adding an already stored edge grows (keeps) the graph. -/
theorem graphExtends_addEdge_dup (g : Graph) (e : Edge)
    (hdup : g.edgeBetween e.src e.dst = some e) :
    graphExtends g (g.addEdge e) := by
  refine ⟨?_, ?_, fun n _ => rfl, rfl, rfl⟩
  · unfold Graph.addEdge
    dsimp only
    exact le_max_left _ _
  · intro a b e2 h
    by_cases hp : e.src = a ∧ e.dst = b
    · refine edgeBetween_addEdge_keep g e a b e2 h (Or.inr ?_)
      obtain ⟨h1, h2⟩ := hp
      rw [h1, h2] at hdup
      rw [hdup] at h
      exact (Option.some.injEq _ _).mp h
    · exact edgeBetween_addEdge_keep g e a b e2 h (Or.inl hp)

/-- Adding a fresh word node grows the graph. -/
theorem graphExtends_addWordNode (g : Graph) (m : Nat) (w : String)
    (hm : g.numNodes ≤ m) : graphExtends g (g.addWordNode m w) := by
  refine ⟨?_, fun a b e h => h, ?_, rfl, rfl⟩
  · unfold Graph.addWordNode
    dsimp only
    exact le_max_left _ _
  · intro n hn
    exact wordOf_addWordNode_keep g m w hm n hn

/-- `addEdge` keeps the structural invariants. -/
theorem plainGraphOK_addEdge (g : Graph) (e : Edge)
    (h : plainGraphOK g) : plainGraphOK (g.addEdge e) := by
  refine ⟨edgeBounds_addEdge g e h.1, ?_⟩
  intro q hq
  have := h.2 q hq
  unfold Graph.addEdge
  dsimp only
  omega

/-- `addWordNode` keeps the structural invariants. -/
theorem plainGraphOK_addWordNode (g : Graph) (m : Nat) (w : String)
    (h : plainGraphOK g) : plainGraphOK (g.addWordNode m w) := by
  constructor
  · intro e he
    have := h.1 e he
    unfold Graph.addWordNode
    dsimp only
    omega
  · intro q hq
    unfold Graph.addWordNode at hq ⊢
    dsimp only at hq ⊢
    rcases List.mem_append.mp hq with h2 | h2
    · have := h.2 q h2
      omega
    · rw [List.mem_singleton.mp h2]
      dsimp only
      omega

/-- `addFinalNode` keeps the structural invariants. -/
theorem plainGraphOK_addFinalNode (g : Graph) (m : Nat)
    (h : plainGraphOK g) : plainGraphOK (g.addFinalNode m) := by
  constructor
  · intro e he
    have := h.1 e he
    unfold Graph.addFinalNode
    dsimp only
    omega
  · intro q hq
    have := h.2 q hq
    unfold Graph.addFinalNode
    dsimp only
    omega

/-- Plain walks survive graph growth. -/
theorem Frag_mono (g g2 : Graph)
    (hpe : ∀ a b e, g.edgeBetween a b = some e →
      g2.edgeBetween a b = some e)
    (hpw : ∀ n, n < g.numNodes → g2.wordOf n = g.wordOf n)
    (hb : edgeBounds g) :
    ∀ (a : Nat) (w : List String) (c : Nat) (pf : Path),
      Frag g a w c pf → Frag g2 a w c pf := by
  intro a w c pf hf
  induction hf with
  | nil a => exact Frag.nil a
  | word a b t toks c p he hw ht h2 hwc hrest ih =>
    have hbd : b < g.numNodes := by
      obtain ⟨hm, -, -⟩ := edgeBetween_elim g a b _ he
      have hb2 := (hb _ hm).2
      dsimp only at hb2
      exact hb2
    exact Frag.word a b t toks c p (hpe a b _ he)
      (by rw [hpw b hbd]; exact hw) ht h2 hwc ih
  | eps a b toks c p he hw hrest ih =>
    have hbd : b < g.numNodes := by
      obtain ⟨hm, -, -⟩ := edgeBetween_elim g a b _ he
      have hb2 := (hb _ hm).2
      dsimp only at hb2
      exact hb2
    exact Frag.eps a b toks c p (hpe a b _ he)
      (by rw [hpw b hbd]; exact hw) ih

/-- The shape of a walk: empty, or starting with an entry at its first
node. -/
theorem Frag_shape (g : Graph) (a : Nat) (w : List String) (c : Nat)
    (pf : Path) (hf : Frag g a w c pf) :
    (pf = [] ∧ a = c ∧ w = []) ∨ ∃ ts p2, pf = (a, ts) :: p2 := by
  cases hf with
  | nil => exact Or.inl ⟨rfl, rfl, rfl⟩
  | word a b t toks c p he hw ht h2 hwc hrest => exact Or.inr ⟨[t], p, rfl⟩
  | eps a b toks c p he hw hrest => exact Or.inr ⟨[], p, rfl⟩

/-- Walks compose. -/
theorem Frag_append (g : Graph) (a : Nat) (w1 : List String) (b : Nat)
    (p1 : Path) (h1 : Frag g a w1 b p1) :
    ∀ (w2 : List String) (c : Nat) (p2 : Path), Frag g b w2 c p2 →
      Frag g a (w1 ++ w2) c (p1 ++ p2) := by
  induction h1 with
  | nil a =>
    intro w2 c p2 h2
    simpa using h2
  | word a b2 t toks c p he hw ht hp2 hwc hrest ih =>
    intro w2 c2 p2 h2
    exact Frag.word a b2 t (toks ++ w2) c2 (p ++ p2) he hw ht hp2 hwc
      (ih w2 c2 p2 h2)
  | eps a b2 toks c p he hw hrest ih =>
    intro w2 c2 p2 h2
    exact Frag.eps a b2 (toks ++ w2) c2 (p ++ p2) he hw (ih w2 c2 p2 h2)

/-- Every token consumed by a walk is a plain word. -/
theorem Frag_words (g : Graph) (a : Nat) (w : List String) (c : Nat)
    (pf : Path) (hf : Frag g a w c pf) :
    ∀ t ∈ w, t ≠ "" ∧ pyTake t 2 ≠ "__" := by
  induction hf with
  | nil a =>
    intro t htm
    exact absurd htm (List.not_mem_nil t)
  | word a b t0 toks c p he hw ht h2 hwc hrest ih =>
    intro t htm
    rcases List.mem_cons.mp htm with hh | hh
    · subst hh
      exact ⟨ht, h2⟩
    · exact ih t hh
  | eps a b toks c p he hw hrest ih => exact ih

/-- A word edge passes `strict_edge_step` by consuming its token. -/
theorem strict_edge_step_word (a b : Nat) (t : String) (p : Path)
    (rest : List String) (ht : t ≠ "") :
    strict_edge_step none (fun _ => true) (fun x => x) a p (t :: rest)
      { src := a, dst := b, ilabel := t, olabel := t } =
      some (b, p ++ [(a, [t])], rest) := by
  unfold strict_edge_step
  dsimp only
  rw [if_neg (fun hcon => hcon.2 rfl)]
  rw [if_pos ht]
  rw [if_neg (fun hcon => hcon rfl)]

/-- An epsilon edge passes `strict_edge_step` without consuming. -/
theorem strict_edge_step_eps (a b : Nat) (olabel : String) (p : Path)
    (toks : List String) :
    strict_edge_step none (fun _ => true) (fun x => x) a p toks
      { src := a, dst := b, ilabel := "", olabel := olabel } =
      some (b, p ++ [(a, [])], toks) := by
  unfold strict_edge_step
  dsimp only
  rw [if_neg (fun hcon => hcon.2 rfl)]
  rw [if_neg (fun hcon => hcon rfl)]

/-- A walk prefixes any reachable acceptance. -/
theorem Frag_reach (g : Graph) (a : Nat) (w : List String) (c : Nat)
    (pf : Path) (hf : Frag g a w c pf) :
    ∀ (p : Path) (rest : List String) (P : Path),
      Reach g c (p ++ pf) rest P → Reach g a p (w ++ rest) P := by
  induction hf with
  | nil a =>
    intro p rest P h
    simpa using h
  | word a b t toks c pf2 he hw ht h2 hwc hrest ih =>
    intro p rest P h
    refine Reach.step a p (t :: toks ++ rest)
      { src := a, dst := b, ilabel := t, olabel := t } b
      (p ++ [(a, [t])]) (toks ++ rest) P
      (succOf_of_edgeBetween g a b _ he)
      (strict_edge_step_word a b t p (toks ++ rest) ht) ?_
    refine ih (p ++ [(a, [t])]) rest P ?_
    rw [List.append_assoc]
    exact h
  | eps a b toks c pf2 he hw hrest ih =>
    intro p rest P h
    refine Reach.step a p (toks ++ rest)
      { src := a, dst := b, ilabel := "", olabel := "" } b
      (p ++ [(a, [])]) (toks ++ rest) P
      (succOf_of_edgeBetween g a b _ he)
      (strict_edge_step_eps a b "" p (toks ++ rest)) ?_
    refine ih (p ++ [(a, [])]) rest P ?_
    rw [List.append_assoc]
    exact h

/-- Completeness of the strict BFS with the `recognize` defaults: when the
search returns, every path finishable from a frontier item is in the
result list. -/
theorem paths_strict_aux_complete (g : Graph) :
    ∀ (fuel : Nat) (queue : List (Nat × Path × List String)) (pfound : Nat)
      (acc res : List Path),
      paths_strict_aux g none none (fun _ => true) (fun x => x) fuel queue
        pfound acc = .ok res →
      (∀ P ∈ acc, P ∈ res) ∧
      (∀ item ∈ queue, ∀ P, Reach g item.1 item.2.1 item.2.2 P →
        P ∈ res) := by
  intro fuel
  induction fuel with
  | zero =>
    intro queue pfound acc res h
    rw [paths_strict_aux] at h
    exact Except.noConfusion h
  | succ n ih =>
    intro queue pfound acc res h
    cases queue with
    | nil =>
      rw [paths_strict_aux] at h
      rw [Except.ok.injEq] at h
      subst h
      exact ⟨fun P hP => hP, fun item hi => absurd hi (List.not_mem_nil _)⟩
    | cons cur rest =>
      obtain ⟨node, path, toks⟩ := cur
      rw [paths_strict_aux] at h
      dsimp only at h
      split at h
      · rename_i hcond
        rw [Bool.and_eq_true] at hcond
        exact Bool.noConfusion hcond.2
      · have IH := ih _ _ _ res h
        refine ⟨?_, ?_⟩
        · intro P hP
          refine IH.1 P ?_
          by_cases hacc : (g.isFinal node && toks.isEmpty) = true
          · rw [if_pos hacc]
            exact List.mem_append_left _ hP
          · rw [if_neg hacc]
            exact hP
        · intro item hitem P hreach
          rcases List.mem_cons.mp hitem with hh | hh
          · subst hh
            cases hreach with
            | done _ _ hfin =>
              refine IH.1 path ?_
              rw [if_pos (by rw [hfin]; rfl)]
              exact List.mem_append_right _ (List.mem_singleton.mpr rfl)
            | step _ _ _ e n2 p2 toks2 _ hmem hstep hrest =>
              refine IH.2 (n2, p2, toks2) ?_ P hrest
              refine List.mem_append_right _ ?_
              exact List.mem_filterMap.mpr ⟨e, hmem, hstep⟩
          · exact IH.2 item (List.mem_append_left _ hh) P hreach

/-- `get_start_end_nodes` reports start node `0` when the start flags are
exactly `[0]`. -/
theorem get_start_end_fst (g : Graph) (hs : g.starts = [0])
    (hn : 0 < g.numNodes) : (get_start_end_nodes g).1 = some 0 := by
  have hgo : ∀ (L : List Nat) (s0 : Nat) (e0 : Option Nat),
      (∀ m ∈ L, g.isStart m = false) →
      (get_start_end_nodes.go g L (some s0) e0).1 = some s0 := by
    intro L
    induction L with
    | nil =>
      intro s0 e0 hall
      rfl
    | cons m L2 ihL =>
      intro s0 e0 hall
      have hm := hall m (List.mem_cons_self m L2)
      have htail : ∀ m2 ∈ L2, g.isStart m2 = false :=
        fun m2 hm2 => hall m2 (List.mem_cons_of_mem m hm2)
      by_cases hfin : g.isFinal m = true
      · rw [get_start_end_nodes.go, hm, hfin]
        rfl
      · have hf2 : g.isFinal m = false := Bool.eq_false_iff.mpr hfin
        rw [get_start_end_nodes.go, hm, hf2]
        cases e0 with
        | none =>
          show (get_start_end_nodes.go g L2 (some s0) none).1 = some s0
          exact ihL s0 none htail
        | some v => rfl
  unfold get_start_end_nodes
  obtain ⟨k, hk⟩ : ∃ k, g.numNodes = k + 1 := ⟨g.numNodes - 1, by omega⟩
  rw [hk, List.range_succ_eq_map]
  have h0 : g.isStart 0 = true := by
    unfold Graph.isStart
    rw [hs]
    simp
  rw [get_start_end_nodes.go, h0]
  show (get_start_end_nodes.go g ((List.range k).map Nat.succ) (some 0)
    none).1 = some 0
  refine hgo _ 0 none ?_
  intro m hm
  obtain ⟨i, -, hi⟩ := List.mem_map.mp hm
  unfold Graph.isStart
  rw [hs]
  simp
  omega

/-- Completeness of `paths_strict` with the `recognize` defaults. -/
theorem paths_strict_complete (fuel : Nat) (tokens : List String)
    (g : Graph) (paths : List Path)
    (hok : paths_strict fuel tokens g none none none none = .ok paths)
    (hne : tokens ≠ [])
    (hstart : (get_start_end_nodes g).1 = some 0)
    (P : Path) (hreach : Reach g 0 [] tokens P) : P ∈ paths := by
  unfold paths_strict at hok
  rw [if_neg (by simpa using hne)] at hok
  rw [hstart] at hok
  dsimp only [Option.getD] at hok
  exact (paths_strict_aux_complete g fuel _ 0 [] paths hok).2
    (0, ([] : Path), tokens) (List.mem_singleton.mpr rfl) P hreach

/-- Adding an edge with an endpoint pair not yet present grows the
graph. -/
theorem graphExtends_addEdge_new (g : Graph) (e : Edge)
    (hno : ∀ e2 ∈ g.edges, e2.dst ≠ e.dst ∨ e2.src ≠ e.src) :
    graphExtends g (g.addEdge e) := by
  refine ⟨?_, ?_, fun n _ => rfl, rfl, rfl⟩
  · unfold Graph.addEdge
    dsimp only
    exact le_max_left _ _
  · intro a b e2 h
    refine edgeBetween_addEdge_keep g e a b e2 h (Or.inl ?_)
    rintro ⟨h1, h2⟩
    obtain ⟨hm, hsrc, hdst⟩ := edgeBetween_elim g a b e2 h
    rcases hno e2 hm with hh | hh
    · exact hh (by omega)
    · exact hh (by omega)

/-- A plain list splits into a plain head and tail. -/
theorem plainList_head (e : Expression) (rest : List Expression)
    (h : plainList (e :: rest) = true) :
    plainExpr e = true ∧ plainList rest = true := by
  rw [plainList] at h
  simpa using h

/-- The expression prologue is a no-op on plain expressions. -/
theorem expr_prologue_plain (e : Expression) (g : Graph) (s : Nat)
    (esub : Int) (hp : plainExpr e = true) :
    expr_prologue e g s esub = (g, s, esub) := by
  cases e with
  | word text sub conv tag =>
    rw [plainExpr] at hp
    simp only [decide_eq_true_eq] at hp
    obtain ⟨-, -, -, hsub, hconv, htag⟩ := hp
    subst hsub
    subst hconv
    subst htag
    rfl
  | sequence ty items sub conv tag =>
    rw [plainExpr] at hp
    simp only [decide_eq_true_eq] at hp
    obtain ⟨-, hsub, hconv, htag⟩ := hp
    subst hsub
    subst hconv
    subst htag
    rfl
  | ruleReference rn gn tag =>
    rw [plainExpr] at hp
    exact Bool.noConfusion hp
  | slotReference sn sub conv tag =>
    rw [plainExpr] at hp
    exact Bool.noConfusion hp

/-- The expression epilogue is a no-op on plain expressions. -/
theorem expr_epilogue_plain (e : Expression) (g : Graph) (s : Nat)
    (esub : Int) (hp : plainExpr e = true) :
    expr_epilogue e g s esub = (g, s) := by
  cases e with
  | word text sub conv tag =>
    rw [plainExpr] at hp
    simp only [decide_eq_true_eq] at hp
    obtain ⟨-, -, -, hsub, hconv, htag⟩ := hp
    subst hsub
    subst hconv
    subst htag
    rfl
  | sequence ty items sub conv tag =>
    rw [plainExpr] at hp
    simp only [decide_eq_true_eq] at hp
    obtain ⟨-, hsub, hconv, htag⟩ := hp
    subst hsub
    subst hconv
    subst htag
    rfl
  | ruleReference rn gn tag =>
    rw [plainExpr] at hp
    exact Bool.noConfusion hp
  | slotReference sn sub conv tag =>
    rw [plainExpr] at hp
    exact Bool.noConfusion hp

/-- What compiling a plain word does: a fresh word node plus the
input/output edge carrying its text. -/
theorem c1_word_to_graph (text : String) (g : Graph) (s : Nat)
    (hwc : text ≠ WILDCARD) (hOK : plainGraphOK g) :
    graphExtends g (word_to_graph text none g s 0).1 ∧
    plainGraphOK (word_to_graph text none g s 0).1 ∧
    (word_to_graph text none g s 0).1.edgeBetween s g.numNodes =
      some { src := s, dst := g.numNodes, ilabel := text,
             olabel := text } ∧
    (word_to_graph text none g s 0).1.wordOf g.numNodes = text ∧
    (word_to_graph text none g s 0).2 = g.numNodes := by
  unfold word_to_graph
  dsimp only
  rw [if_neg hwc]
  rw [if_pos ⟨rfl, le_refl (0 : Int)⟩]
  dsimp only
  have hext1 : graphExtends g (g.addWordNode g.numNodes text) :=
    graphExtends_addWordNode g g.numNodes text (le_refl _)
  have hok1 : plainGraphOK (g.addWordNode g.numNodes text) :=
    plainGraphOK_addWordNode g g.numNodes text hOK
  have hno : ∀ e2 ∈ (g.addWordNode g.numNodes text).edges,
      e2.dst ≠ ({ src := s, dst := g.numNodes, ilabel := text,
                  olabel := text } : Edge).dst ∨
      e2.src ≠ ({ src := s, dst := g.numNodes, ilabel := text,
                  olabel := text } : Edge).src := by
    intro e2 hm
    have := (hOK.1 e2 hm).2
    dsimp only
    omega
  refine ⟨graphExtends_trans hext1 (graphExtends_addEdge_new _ _ hno),
    plainGraphOK_addEdge _ _ hok1, ?_, ?_, rfl⟩
  · exact edgeBetween_addEdge_self (g.addWordNode g.numNodes text)
      { src := s, dst := g.numNodes, ilabel := text, olabel := text }
  · rw [wordOf_addEdge]
    exact wordOf_addWordNode_self g g.numNodes text hOK.2 (le_refl _)

/-- The epsilon join of an alternative: every branch exit gets an epsilon
edge into the join node, and the graph otherwise only grows. -/
theorem c1_alt_join (next : Nat) : ∀ (states : List Nat) (gg : Graph),
    plainGraphOK gg →
    (∀ e2 ∈ gg.edges, e2.dst = next → e2.ilabel = "" ∧ e2.olabel = "" ∧
      e2.weight = none ∧ e2.sentence_count = none) →
    graphExtends gg (states.foldl (fun gcur fs => gcur.addEdge
      { src := fs, dst := next, ilabel := "", olabel := "" }) gg) ∧
    plainGraphOK (states.foldl (fun gcur fs => gcur.addEdge
      { src := fs, dst := next, ilabel := "", olabel := "" }) gg) ∧
    (∀ n, (states.foldl (fun gcur fs => gcur.addEdge
      { src := fs, dst := next, ilabel := "", olabel := "" }) gg).wordOf n =
      gg.wordOf n) ∧
    ∀ fs ∈ states, (states.foldl (fun gcur fs => gcur.addEdge
      { src := fs, dst := next, ilabel := "", olabel := "" })
        gg).edgeBetween fs next =
      some { src := fs, dst := next, ilabel := "", olabel := "" } := by
  intro states
  induction states with
  | nil =>
    intro gg hOK hinv
    exact ⟨graphExtends_refl gg, hOK, fun n => rfl,
      fun fs hfs => absurd hfs (List.not_mem_nil fs)⟩
  | cons fs0 rest ih =>
    intro gg hOK hinv
    rw [List.foldl_cons]
    have hstep : graphExtends gg (gg.addEdge
        { src := fs0, dst := next, ilabel := "", olabel := "" }) := by
      cases hfind : gg.edgeBetween fs0 next with
      | some e2 =>
        obtain ⟨hm, hsrc, hdst⟩ := edgeBetween_elim gg fs0 next e2 hfind
        obtain ⟨hi, ho, hwt, hsc⟩ := hinv e2 hm hdst
        have he2 : e2 = { src := fs0, dst := next, ilabel := "",
                          olabel := "" } := by
          cases e2
          dsimp only at hsrc hdst hi ho hwt hsc
          subst hsrc
          subst hdst
          subst hi
          subst ho
          subst hwt
          subst hsc
          rfl
        refine graphExtends_addEdge_dup gg _ ?_
        rw [he2] at hfind
        exact hfind
      | none =>
        refine graphExtends_addEdge_new gg _ ?_
        intro e2 hm
        by_cases hd : e2.dst = next
        · by_cases hsrc : e2.src = fs0
          · exfalso
            unfold Graph.edgeBetween at hfind
            rw [List.find?_eq_none] at hfind
            have := hfind e2 hm
            simp only [decide_eq_true_eq] at this
            exact this ⟨hsrc, hd⟩
          · exact Or.inr hsrc
        · exact Or.inl hd
    have hinv2 : ∀ e2 ∈ (gg.addEdge { src := fs0, dst := next,
                                      ilabel := "", olabel := "" }).edges,
        e2.dst = next →
        e2.ilabel = "" ∧ e2.olabel = "" ∧ e2.weight = none ∧
          e2.sentence_count = none := by
      intro e2 hm hd
      unfold Graph.addEdge at hm
      dsimp only at hm
      rcases updateEdgeList_mem gg.edges _ e2 hm with h2 | h2
      · exact hinv e2 h2 hd
      · rw [h2]
        exact ⟨rfl, rfl, rfl, rfl⟩
    have IH := ih (gg.addEdge { src := fs0, dst := next, ilabel := "",
                                olabel := "" })
      (plainGraphOK_addEdge gg _ hOK) hinv2
    refine ⟨graphExtends_trans hstep IH.1, IH.2.1, ?_, ?_⟩
    · intro n
      rw [IH.2.2.1 n]
      rfl
    · intro fs hfs
      rcases List.mem_cons.mp hfs with hh | hh
      · subst hh
        refine IH.1.2.1 fs next _ ?_
        exact edgeBetween_addEdge_self gg
          { src := fs, dst := next, ilabel := "", olabel := "" }
      · exact IH.2.2.2 fs hh

/-- The alternative loop on plain items: each branch compiles from the
shared source and each branch expansion has a walk to a recorded exit. -/
theorem c1_alt_items (n : Nat)
    (hexpr : ∀ (e : Expression) (g : Graph) (s : Nat)
      (repl : ReplacementsType) (gn : Option String) (rg : String)
      (xs : Bool) (g2 : Graph) (x : Nat),
      expression_to_graph n e g s repl 0 gn rg xs = .ok (g2, x) →
      plainExpr e = true → plainGraphOK g → c1Post g s e g2 x) :
    ∀ (items : List Expression) (g : Graph) (s : Nat)
      (repl : ReplacementsType) (gn : Option String) (rg : String)
      (xs : Bool) (g2 : Graph) (states : List Nat),
      alternative_items_to_graph n items g s repl 0 gn rg xs =
        .ok (g2, states) →
      plainList items = true → plainGraphOK g →
      graphExtends g g2 ∧ plainGraphOK g2 ∧
        ∀ w ∈ expandAlt items, ∃ fs ∈ states, ∃ pf, Frag g2 s w fs pf := by
  intro items
  induction items with
  | nil =>
    intro g s repl gn rg xs g2 states hok hp hOK
    rw [alternative_items_to_graph] at hok
    simp only [Except.ok.injEq, Prod.mk.injEq] at hok
    obtain ⟨h1, h2⟩ := hok
    subst h1
    subst h2
    exact ⟨graphExtends_refl g, hOK, fun w hw =>
      absurd hw (List.not_mem_nil w)⟩
  | cons item rest ih =>
    intro g s repl gn rg xs g2 states hok hp hOK
    obtain ⟨hpi, hpr⟩ := plainList_head item rest hp
    rw [alternative_items_to_graph] at hok
    cases h1 : expression_to_graph n item g s repl 0 gn rg xs with
    | error e =>
      rw [h1] at hok
      simp only [Bind.bind, Except.bind] at hok
      exact Except.noConfusion hok
    | ok q =>
      obtain ⟨g1, x1⟩ := q
      rw [h1] at hok
      simp only [Bind.bind, Except.bind] at hok
      cases h2 : alternative_items_to_graph n rest g1 s repl 0 gn rg
          xs with
      | error e =>
        rw [h2] at hok
        simp only [Except.bind] at hok
        exact Except.noConfusion hok
      | ok q2 =>
        obtain ⟨g2b, states2⟩ := q2
        rw [h2] at hok
        simp only [Except.bind, Pure.pure, Except.pure, Except.ok.injEq,
          Prod.mk.injEq] at hok
        obtain ⟨hg2, hst⟩ := hok
        subst hg2
        subst hst
        have he := hexpr item g s repl gn rg xs g1 x1 h1 hpi hOK
        have hr := ih g1 s repl gn rg xs g2b states2 h2 hpr he.2.1
        refine ⟨graphExtends_trans he.1 hr.1, hr.2.1, ?_⟩
        intro w hw
        rw [expandAlt] at hw
        rcases List.mem_append.mp hw with hh | hh
        · obtain ⟨pf, hpf⟩ := he.2.2 w hh
          refine ⟨x1, List.mem_cons_self _ _, pf, ?_⟩
          exact Frag_mono g1 g2b hr.1.2.1 hr.1.2.2.1 he.2.1.1 s w x1 pf
            hpf
        · obtain ⟨fs, hfs, pf, hpf⟩ := hr.2.2 w hh
          exact ⟨fs, List.mem_cons_of_mem _ hfs, pf, hpf⟩

/-- The group loop on plain items: branches chain, walks append. -/
theorem c1_group_items (n : Nat)
    (hexpr : ∀ (e : Expression) (g : Graph) (s : Nat)
      (repl : ReplacementsType) (gn : Option String) (rg : String)
      (xs : Bool) (g2 : Graph) (x : Nat),
      expression_to_graph n e g s repl 0 gn rg xs = .ok (g2, x) →
      plainExpr e = true → plainGraphOK g → c1Post g s e g2 x) :
    ∀ (items : List Expression) (g : Graph) (s : Nat)
      (repl : ReplacementsType) (gn : Option String) (rg : String)
      (xs : Bool) (g2 : Graph) (x : Nat),
      group_items_to_graph n items g s repl 0 gn rg xs = .ok (g2, x) →
      plainList items = true → plainGraphOK g →
      graphExtends g g2 ∧ plainGraphOK g2 ∧
        ∀ w ∈ expandGroup items, ∃ pf, Frag g2 s w x pf := by
  intro items
  induction items with
  | nil =>
    intro g s repl gn rg xs g2 x hok hp hOK
    rw [group_items_to_graph] at hok
    simp only [Except.ok.injEq, Prod.mk.injEq] at hok
    obtain ⟨h1, h2⟩ := hok
    subst h1
    subst h2
    refine ⟨graphExtends_refl g, hOK, ?_⟩
    intro w hw
    rw [expandGroup] at hw
    rw [List.mem_singleton] at hw
    subst hw
    exact ⟨[], Frag.nil s⟩
  | cons item rest ih =>
    intro g s repl gn rg xs g2 x hok hp hOK
    obtain ⟨hpi, hpr⟩ := plainList_head item rest hp
    rw [group_items_to_graph] at hok
    cases h1 : expression_to_graph n item g s repl 0 gn rg xs with
    | error e =>
      rw [h1] at hok
      simp only [Bind.bind, Except.bind] at hok
      exact Except.noConfusion hok
    | ok q =>
      obtain ⟨g1, x1⟩ := q
      rw [h1] at hok
      simp only [Bind.bind, Except.bind] at hok
      have he := hexpr item g s repl gn rg xs g1 x1 h1 hpi hOK
      have hr := ih g1 x1 repl gn rg xs g2 x hok hpr he.2.1
      refine ⟨graphExtends_trans he.1 hr.1, hr.2.1, ?_⟩
      intro w hw
      rw [expandGroup] at hw
      obtain ⟨w1, hw1, hmap⟩ := List.mem_bind.mp hw
      obtain ⟨w2, hw2, hweq⟩ := List.mem_map.mp hmap
      subst hweq
      obtain ⟨pf1, hpf1⟩ := he.2.2 w1 hw1
      obtain ⟨pf2, hpf2⟩ := hr.2.2 w2 hw2
      refine ⟨pf1 ++ pf2, ?_⟩
      refine Frag_append g2 s w1 x1 pf1 ?_ w2 x pf2 hpf2
      exact Frag_mono g1 g2 hr.1.2.1 hr.1.2.2.1 he.2.1.1 s w1 x1 pf1 hpf1

/-- The dispatch of a plain expression satisfies the compile
postcondition. -/
theorem c1_dispatch (n : Nat)
    (hexpr : ∀ (e : Expression) (g : Graph) (s : Nat)
      (repl : ReplacementsType) (gn : Option String) (rg : String)
      (xs : Bool) (g2 : Graph) (x : Nat),
      expression_to_graph n e g s repl 0 gn rg xs = .ok (g2, x) →
      plainExpr e = true → plainGraphOK g → c1Post g s e g2 x) :
    ∀ (e : Expression) (g : Graph) (s : Nat) (repl : ReplacementsType)
      (gn : Option String) (rg : String) (xs : Bool) (g2 : Graph)
      (x : Nat),
      expr_dispatch n e g s repl 0 gn rg xs = .ok (g2, x) →
      plainExpr e = true → plainGraphOK g → c1Post g s e g2 x := by
  have halt := c1_alt_items n hexpr
  have hgrp := c1_group_items n hexpr
  intro e g s repl gn rg xs g2 x hok hp hOK
  cases e with
  | word text sub conv tag =>
    rw [expr_dispatch] at hok
    simp only [Pure.pure, Except.pure, Except.ok.injEq] at hok
    rw [plainExpr] at hp
    simp only [decide_eq_true_eq] at hp
    obtain ⟨ht, h2, hwc, hsub, hconv, htag⟩ := hp
    subst hsub
    have hw := c1_word_to_graph text g s hwc hOK
    rw [hok] at hw
    dsimp only at hw
    have hx : x = g.numNodes := hw.2.2.2.2
    subst hx
    refine ⟨hw.1, hw.2.1, ?_⟩
    intro w hwmem
    rw [expandExpr] at hwmem
    rw [List.mem_singleton] at hwmem
    subst hwmem
    exact ⟨[(s, [text])], Frag.word s g.numNodes text [] g.numNodes []
      hw.2.2.1 hw.2.2.2.1 ht h2 hwc (Frag.nil _)⟩
  | sequence ty items sub conv tag =>
    rw [plainExpr] at hp
    simp only [decide_eq_true_eq] at hp
    obtain ⟨hpl, hsub, hconv, htag⟩ := hp
    cases ty with
    | group =>
      rw [expr_dispatch] at hok
      have hg := hgrp items g s repl gn rg xs g2 x hok hpl hOK
      refine ⟨hg.1, hg.2.1, ?_⟩
      intro w hw
      rw [expandExpr] at hw
      exact hg.2.2 w hw
    | alternative =>
      rw [expr_dispatch] at hok
      cases h1 : alternative_items_to_graph n items g s repl 0 gn rg
          xs with
      | error e =>
        rw [h1] at hok
        simp only [Bind.bind, Except.bind] at hok
        exact Except.noConfusion hok
      | ok q =>
        obtain ⟨g1, states⟩ := q
        rw [h1] at hok
        simp only [Bind.bind, Except.bind, Pure.pure, Except.pure,
          Except.ok.injEq, Prod.mk.injEq] at hok
        obtain ⟨hg2, hx⟩ := hok
        have ha := halt items g s repl gn rg xs g1 states h1 hpl hOK
        have hinv0 : ∀ e2 ∈ g1.edges, e2.dst = g1.numNodes →
            e2.ilabel = "" ∧ e2.olabel = "" ∧ e2.weight = none ∧
              e2.sentence_count = none := by
          intro e2 hm hd
          have := (ha.2.1.1 e2 hm).2
          omega
        have hj := c1_alt_join g1.numNodes states g1 ha.2.1 hinv0
        subst hg2
        subst hx
        refine ⟨graphExtends_trans ha.1 hj.1, hj.2.1, ?_⟩
        intro w hw
        rw [expandExpr] at hw
        obtain ⟨fs, hfs, pf, hpf⟩ := ha.2.2 w hw
        refine ⟨pf ++ [(fs, [])], ?_⟩
        have hm2 := Frag_mono g1 _ hj.1.2.1 hj.1.2.2.1 ha.2.1.1 s w fs pf
          hpf
        have heps : Frag _ fs [] g1.numNodes [(fs, [])] :=
          Frag.eps fs g1.numNodes [] g1.numNodes [] (hj.2.2.2 fs hfs)
            (by rw [hj.2.2.1]
                exact wordOf_big g1 ha.2.1.2 g1.numNodes (le_refl _))
            (Frag.nil _)
        have happ := Frag_append _ s w fs pf hm2 [] g1.numNodes
          [(fs, [])] heps
        simpa using happ
  | ruleReference rn gnm tag =>
    rw [plainExpr] at hp
    exact Bool.noConfusion hp
  | slotReference sn sub conv tag =>
    rw [plainExpr] at hp
    exact Bool.noConfusion hp

/-- One fuel step of `expression_to_graph` keeps the plain compile
postcondition. -/
theorem c1_step (n : Nat)
    (hdisp : ∀ (e : Expression) (g : Graph) (s : Nat)
      (repl : ReplacementsType) (gn : Option String) (rg : String)
      (xs : Bool) (g2 : Graph) (x : Nat),
      expr_dispatch n e g s repl 0 gn rg xs = .ok (g2, x) →
      plainExpr e = true → plainGraphOK g → c1Post g s e g2 x) :
    ∀ (e : Expression) (g : Graph) (s : Nat) (repl : ReplacementsType)
      (gn : Option String) (rg : String) (xs : Bool) (g2 : Graph)
      (x : Nat),
      expression_to_graph (n + 1) e g s repl 0 gn rg xs = .ok (g2, x) →
      plainExpr e = true → plainGraphOK g → c1Post g s e g2 x := by
  intro e g s repl gn rg xs g2 x hok hp hOK
  rw [expression_to_graph] at hok
  rw [expr_prologue_plain e g s 0 hp] at hok
  dsimp only at hok
  cases h1 : expr_dispatch n e g s repl 0 gn rg xs with
  | error err =>
    rw [h1] at hok
    simp only [Bind.bind, Except.bind] at hok
    exact Except.noConfusion hok
  | ok q =>
    obtain ⟨g1, x1⟩ := q
    rw [h1] at hok
    simp only [Bind.bind, Except.bind, Pure.pure, Except.pure,
      Except.ok.injEq] at hok
    have hd := hdisp e g s repl gn rg xs g1 x1 h1 hp hOK
    rw [expr_epilogue_plain e g1 x1 0 hp] at hok
    rw [Prod.mk.injEq] at hok
    obtain ⟨hg, hx⟩ := hok
    subst hg
    subst hx
    exact hd

/-- The plain compile postcondition holds of every successful
`expression_to_graph` call on a plain expression. -/
theorem c1_compiler : ∀ (n : Nat),
    ∀ (e : Expression) (g : Graph) (s : Nat) (repl : ReplacementsType)
      (gn : Option String) (rg : String) (xs : Bool) (g2 : Graph)
      (x : Nat),
      expression_to_graph n e g s repl 0 gn rg xs = .ok (g2, x) →
      plainExpr e = true → plainGraphOK g → c1Post g s e g2 x := by
  intro n
  induction n with
  | zero =>
    intro e g s repl gn rg xs g2 x hok
    rw [expression_to_graph] at hok
    simp at hok
  | succ n ihn =>
    exact c1_step n (c1_dispatch n ihn)

/-- Each sentence list of a plain table is plain. -/
theorem plainTable_mem (l : List (String × List Expression))
    (hp : plainTable l = true) (I : String) (es : List Expression)
    (hm : (I, es) ∈ l) : plainList es = true := by
  unfold plainTable at hp
  rw [List.all_eq_true] at hp
  exact hp (I, es) hm

/-- A plain table splits into a plain head and tail. -/
theorem plainTable_head (q : String × List Expression)
    (rest : List (String × List Expression))
    (hp : plainTable (q :: rest) = true) :
    plainList q.2 = true ∧ plainTable rest = true := by
  unfold plainTable at hp ⊢
  rw [List.all_cons, Bool.and_eq_true] at hp
  exact hp

/-- The per-intent sentence loop on a plain sentence list: every
expansion of every sentence has a walk from the intent state to a
recorded exit. -/
theorem c1_intent_sentences (fuel : Nat) :
    ∀ (sents : List Expression) (g : Graph) (ist : Nat)
      (repl : ReplacementsType) (gname : String) (xs : Bool) (g2 : Graph)
      (states : List Nat),
      compile_intent_sentences fuel sents g ist repl gname xs =
        .ok (g2, states) →
      plainList sents = true → plainGraphOK g →
      graphExtends g g2 ∧ plainGraphOK g2 ∧
        ∀ e ∈ sents, ∀ w ∈ expandExpr e,
          ∃ fs ∈ states, ∃ pf, Frag g2 ist w fs pf := by
  intro sents
  induction sents with
  | nil =>
    intro g ist repl gname xs g2 states hok hp hOK
    rw [compile_intent_sentences] at hok
    simp only [Except.ok.injEq, Prod.mk.injEq] at hok
    obtain ⟨h1, h2⟩ := hok
    subst h1
    subst h2
    exact ⟨graphExtends_refl g, hOK, fun e he =>
      absurd he (List.not_mem_nil e)⟩
  | cons sent rest ih =>
    intro g ist repl gname xs g2 states hok hp hOK
    obtain ⟨hps, hpr⟩ := plainList_head sent rest hp
    rw [compile_intent_sentences] at hok
    cases h1 : expression_to_graph fuel sent g ist repl 0 (some gname) ""
        xs with
    | error e =>
      rw [h1] at hok
      simp only [Bind.bind, Except.bind] at hok
      exact Except.noConfusion hok
    | ok q =>
      obtain ⟨g1, x1⟩ := q
      rw [h1] at hok
      simp only [Bind.bind, Except.bind] at hok
      cases h2 : compile_intent_sentences fuel rest g1 ist repl gname
          xs with
      | error e =>
        rw [h2] at hok
        simp only [Except.bind] at hok
        exact Except.noConfusion hok
      | ok q2 =>
        obtain ⟨g2b, states2⟩ := q2
        rw [h2] at hok
        simp only [Except.bind, Pure.pure, Except.pure, Except.ok.injEq,
          Prod.mk.injEq] at hok
        obtain ⟨hg2, hst⟩ := hok
        subst hg2
        subst hst
        have he := c1_compiler fuel sent g ist repl (some gname) "" xs g1
          x1 h1 hps hOK
        have hr := ih g1 ist repl gname xs g2b states2 h2 hpr he.2.1
        refine ⟨graphExtends_trans he.1 hr.1, hr.2.1, ?_⟩
        intro e hemem w hw
        rcases List.mem_cons.mp hemem with hh | hh
        · subst hh
          obtain ⟨pf, hpf⟩ := he.2.2 w hw
          refine ⟨x1, List.mem_cons_self _ _, pf, ?_⟩
          exact Frag_mono g1 g2b hr.1.2.1 hr.1.2.2.1 he.2.1.1 ist w x1 pf
            hpf
        · obtain ⟨fs, hfs, pf, hpf⟩ := hr.2.2 e hh w hw
          exact ⟨fs, List.mem_cons_of_mem _ hfs, pf, hpf⟩

/-- The intent loop on a plain table: every expansion of every declared
sentence has a walk from its intent's branch state, which hangs off the
start node by a `__label__` edge. -/
theorem c1_intents (fuel : Nat) :
    ∀ (sents : List (String × List Expression)) (g : Graph)
      (repl : ReplacementsType)
      (icnts : List (String × Nat)) (iwts : List (String × ℚ))
      (aiw : Bool) (ni : Nat) (xs : Bool) (g2 : Graph)
      (states : List Nat),
      compile_intents fuel sents g repl icnts iwts aiw ni xs =
        .ok (g2, states) →
      plainTable sents = true → plainGraphOK g →
      graphExtends g g2 ∧ plainGraphOK g2 ∧
        ∀ I exprs, (I, exprs) ∈ sents → ∀ e ∈ exprs,
          ∀ w ∈ expandExpr e, ∃ ist fs pf el2,
            g2.edgeBetween 0 ist = some el2 ∧ el2.ilabel = "" ∧
            el2.olabel = "__label__" ++ I ∧ g2.wordOf ist = "" ∧
            Frag g2 ist w fs pf ∧ fs ∈ states := by
  intro sents
  induction sents with
  | nil =>
    intro g repl icnts iwts aiw ni xs g2 states hok hp hOK
    rw [compile_intents] at hok
    simp only [Except.ok.injEq, Prod.mk.injEq] at hok
    obtain ⟨h1, h2⟩ := hok
    subst h1
    subst h2
    exact ⟨graphExtends_refl g, hOK, fun I exprs hm =>
      absurd hm (List.not_mem_nil _)⟩
  | cons q rest ih =>
    intro g repl icnts iwts aiw ni xs g2 states hok hp hOK
    obtain ⟨I0, sents0⟩ := q
    obtain ⟨hps, hpr⟩ := plainTable_head (I0, sents0) rest hp
    rw [compile_intents] at hok
    dsimp only at hok
    have hlab : ∀ (wt : Option ℚ) (sc : Option Nat),
        graphExtends g (g.addEdge
          { src := 0, dst := g.numNodes, ilabel := "",
            olabel := "__label__" ++ I0, weight := wt,
            sentence_count := sc }) ∧
        plainGraphOK (g.addEdge
          { src := 0, dst := g.numNodes, ilabel := "",
            olabel := "__label__" ++ I0, weight := wt,
            sentence_count := sc }) ∧
        (g.addEdge
          { src := 0, dst := g.numNodes, ilabel := "",
            olabel := "__label__" ++ I0, weight := wt,
            sentence_count := sc }).edgeBetween 0 g.numNodes =
          some { src := 0, dst := g.numNodes, ilabel := "",
                 olabel := "__label__" ++ I0, weight := wt,
                 sentence_count := sc } ∧
        (g.addEdge
          { src := 0, dst := g.numNodes, ilabel := "",
            olabel := "__label__" ++ I0, weight := wt,
            sentence_count := sc }).wordOf g.numNodes = "" ∧
        g.numNodes < (g.addEdge
          { src := 0, dst := g.numNodes, ilabel := "",
            olabel := "__label__" ++ I0, weight := wt,
            sentence_count := sc }).numNodes := by
      intro wt sc
      refine ⟨graphExtends_addEdge_new g _ ?_, plainGraphOK_addEdge g _
        hOK, ?_, ?_, ?_⟩
      · intro e2 hm
        have := (hOK.1 e2 hm).2
        dsimp only
        omega
      · exact edgeBetween_addEdge_self g _
      · rw [wordOf_addEdge]
        exact wordOf_big g hOK.2 g.numNodes (le_refl _)
      · unfold Graph.addEdge
        dsimp only
        omega
    have hmain : ∀ (glab : Graph),
        graphExtends g glab → plainGraphOK glab →
        glab.edgeBetween 0 g.numNodes = some
          { src := 0, dst := g.numNodes, ilabel := "",
            olabel := "__label__" ++ I0,
            weight := (if aiw = true ∧ ni > 1 then
              some ((alGet iwts I0).getD 0) else none),
            sentence_count := (if aiw = true ∧ ni > 1 then
              some ((alGet icnts I0).getD 1) else none) } →
        glab.wordOf g.numNodes = "" → g.numNodes < glab.numNodes →
        ((do
          let (gq, states2) ← compile_intent_sentences fuel sents0 glab
            g.numNodes repl I0 xs
          let (gq2, more) ← compile_intents fuel rest gq repl icnts iwts
            aiw ni xs
          pure (gq2, states2 ++ more) : Except Err (Graph × List Nat)) =
          .ok (g2, states)) →
        graphExtends g g2 ∧ plainGraphOK g2 ∧
          ∀ I exprs, (I, exprs) ∈ (I0, sents0) :: rest → ∀ e ∈ exprs,
            ∀ w ∈ expandExpr e, ∃ ist fs pf el2,
              g2.edgeBetween 0 ist = some el2 ∧ el2.ilabel = "" ∧
              el2.olabel = "__label__" ++ I ∧ g2.wordOf ist = "" ∧
              Frag g2 ist w fs pf ∧ fs ∈ states := by
      intro glab hext0 hOKlab helab hwordlab hnn hok2
      dsimp only at hok2
      cases h1 : compile_intent_sentences fuel sents0 glab g.numNodes
          repl I0 xs with
      | error e =>
        rw [h1] at hok2
        simp only [Bind.bind, Except.bind] at hok2
        exact Except.noConfusion hok2
      | ok p1 =>
        obtain ⟨g1, states1⟩ := p1
        rw [h1] at hok2
        simp only [Bind.bind, Except.bind] at hok2
        cases h2 : compile_intents fuel rest g1 repl icnts iwts aiw ni
            xs with
        | error e =>
          rw [h2] at hok2
          simp only [Except.bind] at hok2
          exact Except.noConfusion hok2
        | ok p2 =>
          obtain ⟨g2b, more⟩ := p2
          rw [h2] at hok2
          simp only [Except.bind, Pure.pure, Except.pure, Except.ok.injEq,
            Prod.mk.injEq] at hok2
          obtain ⟨hg2, hst⟩ := hok2
          subst hg2
          subst hst
          have hs1 := c1_intent_sentences fuel sents0 glab g.numNodes repl
            I0 xs g1 states1 h1 hps hOKlab
          have hs2 := ih g1 repl icnts iwts aiw ni xs g2b more h2 hpr
            hs1.2.1
          refine ⟨graphExtends_trans hext0 (graphExtends_trans hs1.1
            hs2.1), hs2.2.1, ?_⟩
          intro I exprs hm e hemem w hw
          rcases List.mem_cons.mp hm with hh | hh
          · rw [Prod.mk.injEq] at hh
            obtain ⟨hI, hexprs⟩ := hh
            rw [hexprs] at hemem
            rw [hI]
            obtain ⟨fs, hfs, pf, hpf⟩ := hs1.2.2 e hemem w hw
            refine ⟨g.numNodes, fs, pf,
              { src := 0, dst := g.numNodes, ilabel := "",
                olabel := "__label__" ++ I0,
                weight := (if aiw = true ∧ ni > 1 then
                  some ((alGet iwts I0).getD 0) else none),
                sentence_count := (if aiw = true ∧ ni > 1 then
                  some ((alGet icnts I0).getD 1) else none) },
              ?_, rfl, rfl, ?_, ?_, ?_⟩
            · exact hs2.1.2.1 0 g.numNodes _ (hs1.1.2.1 0 g.numNodes _
                helab)
            · rw [hs2.1.2.2.1 g.numNodes (lt_of_lt_of_le hnn hs1.1.1)]
              rw [hs1.1.2.2.1 g.numNodes hnn]
              exact hwordlab
            · exact Frag_mono g1 g2b hs2.1.2.1 hs2.1.2.2.1 hs1.2.1.1
                g.numNodes w fs pf hpf
            · exact List.mem_append_left _ hfs
          · obtain ⟨ist, fs, pf, el2, ha, hb, hc2, hd, hee, hf⟩ :=
              hs2.2.2 I exprs hh e hemem w hw
            exact ⟨ist, fs, pf, el2, ha, hb, hc2, hd, hee,
              List.mem_append_right _ hf⟩
    by_cases hcond : (aiw = true ∧ ni > 1)
    · rw [if_pos hcond] at hok
      have hl := hlab (some ((alGet iwts I0).getD 0))
        (some ((alGet icnts I0).getD 1))
      refine hmain _ hl.1 hl.2.1 ?_ hl.2.2.2.1 hl.2.2.2.2 hok
      rw [if_pos hcond, if_pos hcond]
      exact hl.2.2.1
    · rw [if_neg hcond] at hok
      have hl := hlab none none
      refine hmain _ hl.1 hl.2.1 ?_ hl.2.2.2.1 hl.2.2.2.2 hok
      rw [if_neg hcond, if_neg hcond]
      exact hl.2.2.1

/-- What `sentences_to_graph` builds from a plain table: start flags
`[0]`, one final node `F`, and for every expansion of every declared
sentence a `__label__` branch edge, a walk from the branch state, and an
epsilon edge from the walk's exit to `F`. -/
theorem c1_sentences_to_graph (fuel : Nat)
    (sentences : List (String × List Expression))
    (repl : ReplacementsType) (aiw ecs xs : Bool) (G : Graph)
    (hok : sentences_to_graph fuel sentences repl aiw ecs xs = .ok G)
    (hp : plainTable sentences = true) :
    G.starts = [0] ∧ 0 < G.numNodes ∧ ∃ F, G.finals = [F] ∧ 0 < F ∧
      ∀ I exprs, (I, exprs) ∈ sentences → ∀ e ∈ exprs,
        ∀ w ∈ expandExpr e, ∃ ist x pf el2,
          G.edgeBetween 0 ist = some el2 ∧ el2.ilabel = "" ∧
          el2.olabel = "__label__" ++ I ∧ G.wordOf ist = "" ∧
          Frag G ist w x pf ∧
          G.edgeBetween x F =
            some { src := x, dst := F, ilabel := "", olabel := "" } := by
  have tailj : ∀ (icnts : List (String × Nat)) (iwts : List (String × ℚ)),
      ((do
        let g := Graph.empty.addStartNode 0
        let (g, final_states) ← compile_intents fuel sentences g repl
          icnts iwts aiw sentences.length xs
        let final_state := g.numNodes
        let g := g.addFinalNode final_state
        let g := final_states.foldl
          (fun g2 next_state => g2.addEdge
            { src := next_state, dst := final_state, ilabel := "",
              olabel := "" })
          g
        pure g : Except Err Graph) = .ok G) →
      G.starts = [0] ∧ 0 < G.numNodes ∧ ∃ F, G.finals = [F] ∧ 0 < F ∧
        ∀ I exprs, (I, exprs) ∈ sentences → ∀ e ∈ exprs,
          ∀ w ∈ expandExpr e, ∃ ist x pf el2,
            G.edgeBetween 0 ist = some el2 ∧ el2.ilabel = "" ∧
            el2.olabel = "__label__" ++ I ∧ G.wordOf ist = "" ∧
            Frag G ist w x pf ∧
            G.edgeBetween x F =
              some { src := x, dst := F, ilabel := "",
                     olabel := "" } := by
    intro icnts iwts hok2
    dsimp only at hok2
    cases hci : compile_intents fuel sentences
        (Graph.empty.addStartNode 0) repl icnts iwts aiw sentences.length
        xs with
    | error e =>
      rw [hci] at hok2
      simp only [Bind.bind, Except.bind] at hok2
      exact Except.noConfusion hok2
    | ok p =>
      obtain ⟨g1, fstates⟩ := p
      rw [hci] at hok2
      simp only [Bind.bind, Except.bind, Pure.pure, Except.pure,
        Except.ok.injEq] at hok2
      have hOK0 : plainGraphOK (Graph.empty.addStartNode 0) := by
        constructor
        · intro e he
          simp [Graph.empty, Graph.addStartNode] at he
        · intro q hq
          simp [Graph.empty, Graph.addStartNode] at hq
      have hc := c1_intents fuel sentences (Graph.empty.addStartNode 0)
        repl icnts iwts aiw sentences.length xs g1 fstates hci hp hOK0
      have hn1 : 1 ≤ g1.numNodes := le_trans (by decide) hc.1.1
      have hOKf : plainGraphOK (g1.addFinalNode g1.numNodes) :=
        plainGraphOK_addFinalNode g1 g1.numNodes hc.2.1
      have hinvf : ∀ e2 ∈ (g1.addFinalNode g1.numNodes).edges,
          e2.dst = g1.numNodes → e2.ilabel = "" ∧ e2.olabel = "" ∧
            e2.weight = none ∧ e2.sentence_count = none := by
        intro e2 hm hd
        have := (hc.2.1.1 e2 hm).2
        omega
      have hj := c1_alt_join g1.numNodes fstates
        (g1.addFinalNode g1.numNodes) hOKf hinvf
      rw [hok2] at hj
      have hstarts : G.starts = [0] := by
        rw [hj.1.2.2.2.1]
        show g1.starts = [0]
        rw [hc.1.2.2.2.1]
        rfl
      have hfinals : G.finals = [g1.numNodes] := by
        rw [hj.1.2.2.2.2]
        show g1.finals ++ [g1.numNodes] = [g1.numNodes]
        have : g1.finals = [] := by
          rw [hc.1.2.2.2.2]
          rfl
        rw [this]
        rfl
      have hnG : 0 < G.numNodes := by
        have h1 : (g1.addFinalNode g1.numNodes).numNodes ≤ G.numNodes :=
          hj.1.1
        have h2 : g1.numNodes ≤ (g1.addFinalNode g1.numNodes).numNodes :=
          by
          unfold Graph.addFinalNode
          dsimp only
          omega
        omega
      refine ⟨hstarts, hnG, g1.numNodes, hfinals, hn1, ?_⟩
      intro I exprs hm e hemem w hw
      obtain ⟨ist, fs, pf, el2, ha, hb, hc2, hd, hee, hf⟩ :=
        hc.2.2 I exprs hm e hemem w hw
      have hprefix : ∀ a b e3, g1.edgeBetween a b = some e3 →
          G.edgeBetween a b = some e3 := by
        intro a b e3 h3
        refine hj.1.2.1 a b e3 ?_
        rw [edgeBetween_addFinalNode]
        exact h3
      have hpword : ∀ n, n < g1.numNodes → G.wordOf n = g1.wordOf n := by
        intro n hn
        rw [hj.2.2.1 n]
        rfl
      refine ⟨ist, fs, pf, el2, hprefix 0 ist el2 ha, hb, hc2, ?_, ?_,
        ?_⟩
      · obtain ⟨hmm, hsrc, hdst⟩ := edgeBetween_elim g1 0 ist el2 ha
        have hbd := (hc.2.1.1 el2 hmm).2
        rw [hpword ist (by omega)]
        exact hd
      · exact Frag_mono g1 G hprefix hpword hc.2.1.1 ist w fs pf hee
      · exact hj.2.2.2 fs hf
  unfold sentences_to_graph at hok
  split at hok
  · cases hcnt : get_intent_counts fuel sentences repl ecs with
    | error e =>
      rw [hcnt] at hok
      simp only [Bind.bind, Except.bind] at hok
      exact Except.noConfusion hok
    | ok counts0 =>
      rw [hcnt] at hok
      simp only [Bind.bind, Except.bind, Pure.pure, Except.pure] at hok
      exact tailj _ _ hok
  · simp only [Bind.bind, Except.bind, Pure.pure, Except.pure] at hok
    exact tailj _ _ hok

/-- Slicing twice slices once. -/
theorem pyTake_pyTake (s : String) (n m : Nat) :
    pyTake (pyTake s n) m = pyTake s (min m n) := by
  unfold pyTake
  rw [List.take_take]

/-- A string whose first two characters are not `__` matches no
`__`-marker prefix. -/
theorem not_marker (t p : String) (n : Nat) (h2 : pyTake t 2 ≠ "__")
    (hn : 2 ≤ n) (hp : pyTake p 2 = "__") : pyTake t n ≠ p := by
  intro heq
  refine h2 ?_
  rw [← hp, ← heq, pyTake_pyTake]
  congr 1
  omega

/-- Taking the marker length off a marker-prefixed label yields the
marker. -/
theorem pyTake_label_append (ss : String) :
    pyTake ("__label__" ++ ss) 9 = "__label__" := by
  unfold pyTake
  rw [String.data_append]
  rw [show (9 : Nat) = "__label__".data.length from rfl]
  rw [List.take_left]

/-- Dropping the marker off a marker-prefixed label yields the
payload. -/
theorem pyDrop_label_append (ss : String) :
    pyDrop ("__label__" ++ ss) 9 = ss := by
  unfold pyDrop
  rw [String.data_append]
  rw [show (9 : Nat) = "__label__".data.length from rfl]
  rw [List.drop_left]

/-- A `__label__` label is not the wildcard. -/
theorem label_ne_wildcard (s : String) (h9 : pyTake s 9 = "__label__") :
    s ≠ WILDCARD := by
  intro hw
  rw [hw] at h9
  exact absurd h9 (by decide)

/-- A `__label__` label is not an `__unpack__` label. -/
theorem label_ne_unpack (s : String) (h9 : pyTake s 9 = "__label__") :
    pyTake s 10 ≠ "__unpack__" := by
  intro h10
  have hc := congrArg (fun q => pyTake q 9) h10
  dsimp only at hc
  rw [pyTake_pyTake] at hc
  rw [show min 9 10 = 9 from rfl] at hc
  rw [h9] at hc
  exact absurd hc (by decide)

/-- One step of olabel resolution over a plain word edge. -/
theorem resolve_step_word (g : Graph) (a b : Nat) (t : String)
    (ts : List String) (rest : List (PathEntry × PathEntry))
    (acc : List RSTok) (iname : String)
    (he : g.edgeBetween a b =
      some { src := a, dst := b, ilabel := t, olabel := t })
    (hw : g.wordOf b = t) (ht : t ≠ "") (h2 : pyTake t 2 ≠ "__")
    (hwc : t ≠ WILDCARD) :
    resolve_olabels_aux g (((a, [t]), (b, ts)) :: rest) acc iname =
      resolve_olabels_aux g rest (acc ++ [(t, t, [t])]) iname := by
  rw [resolve_olabels_aux]
  rw [hw, he]
  dsimp only
  rw [if_neg hwc]
  rw [if_neg (not_marker t "__unpack__" 10 h2 (by omega) (by decide))]
  simp only [Pure.pure, Bind.bind, Except.bind, Except.pure]
  rw [if_neg (not_marker t "__label__" 9 h2 (by omega) (by decide))]
  rw [if_pos (Or.inl ht)]

/-- One step of olabel resolution over an epsilon edge into a wordless
node. -/
theorem resolve_step_eps (g : Graph) (a b : Nat) (ats ts : List String)
    (rest : List (PathEntry × PathEntry)) (acc : List RSTok)
    (iname : String)
    (he : g.edgeBetween a b =
      some { src := a, dst := b, ilabel := "", olabel := "" })
    (hw : g.wordOf b = "") :
    resolve_olabels_aux g (((a, ats), (b, ts)) :: rest) acc iname =
      resolve_olabels_aux g rest acc iname := by
  rw [resolve_olabels_aux]
  rw [hw, he]
  dsimp only
  rw [if_neg (by decide : ¬ ("" : String) = WILDCARD)]
  rw [if_neg (by decide : ¬ pyTake "" 10 = "__unpack__")]
  simp only [Pure.pure, Bind.bind, Except.bind, Except.pure]
  rw [if_neg (by decide : ¬ pyTake "" 9 = "__label__")]
  rw [if_neg (fun hcon => hcon.elim (fun h => h rfl) (fun h => h rfl))]

/-- One step of olabel resolution over the intent `__label__` edge. -/
theorem resolve_step_label (g : Graph) (a b : Nat) (I : String)
    (el2 : Edge) (ats ts : List String)
    (rest : List (PathEntry × PathEntry)) (acc : List RSTok)
    (iname : String) (he : g.edgeBetween a b = some el2)
    (hol : el2.olabel = "__label__" ++ I) (hw : g.wordOf b = "") :
    resolve_olabels_aux g (((a, ats), (b, ts)) :: rest) acc iname =
      resolve_olabels_aux g rest acc I := by
  rw [resolve_olabels_aux]
  rw [hw, he]
  dsimp only
  rw [hol]
  rw [if_neg (label_ne_wildcard _ (pyTake_label_append I))]
  rw [if_neg (label_ne_unpack _ (pyTake_label_append I))]
  simp only [Pure.pure, Bind.bind, Except.bind, Except.pure]
  rw [if_pos (pyTake_label_append I)]
  rw [pyDrop_label_append I]

/-- Unfolding consecutive path pairs. -/
theorem path_pairs_cons2 (x y : PathEntry) (l : List PathEntry) :
    path_pairs (x :: y :: l) = (x, y) :: path_pairs (y :: l) := rfl

/-- Resolving the pairs of a plain walk (terminated by its exit entry)
appends exactly the consumed words, each as its own output token. -/
theorem frag_resolve (g : Graph) (a : Nat) (w : List String) (c : Nat)
    (pf : Path) (hf : Frag g a w c pf) :
    ∀ (acc : List RSTok) (iname : String),
      resolve_olabels_aux g (path_pairs (pf ++ [(c, [])])) acc iname =
        .ok (acc ++ w.map (fun t => (t, t, [t])), iname) := by
  induction hf with
  | nil a =>
    intro acc iname
    rw [show path_pairs ([] ++ [(a, ([] : List String))]) = [] from rfl]
    rw [resolve_olabels_aux]
    simp
  | word a b t toks c pf2 he hw ht h2 hwc hrest ih =>
    intro acc iname
    rcases Frag_shape g b toks c pf2 hrest with ⟨hpf2, hbc, htoks⟩ |
      ⟨ts, p2, hpf2⟩
    · subst hpf2
      subst htoks
      rw [← hbc]
      rw [show ((a, [t]) :: ([] : Path)) ++ [(b, ([] : List String))] =
        (a, [t]) :: (b, []) :: [] from rfl]
      rw [path_pairs_cons2]
      rw [resolve_step_word g a b t [] _ acc iname he hw ht h2 hwc]
      have := ih (acc ++ [(t, t, [t])]) iname
      rw [← hbc] at this
      rw [show ([] : Path) ++ [(b, ([] : List String))] = [(b, [])] from
        rfl] at this
      rw [this]
      simp
    · subst hpf2
      rw [show ((a, [t]) :: (b, ts) :: p2) ++ [(c, ([] : List String))] =
        (a, [t]) :: (b, ts) :: (p2 ++ [(c, [])]) from rfl]
      rw [path_pairs_cons2]
      rw [resolve_step_word g a b t ts _ acc iname he hw ht h2 hwc]
      have := ih (acc ++ [(t, t, [t])]) iname
      rw [show ((b, ts) :: p2) ++ [(c, ([] : List String))] =
        (b, ts) :: (p2 ++ [(c, [])]) from rfl] at this
      rw [this]
      simp
  | eps a b toks c pf2 he hw hrest ih =>
    intro acc iname
    rcases Frag_shape g b toks c pf2 hrest with ⟨hpf2, hbc, htoks⟩ |
      ⟨ts, p2, hpf2⟩
    · subst hpf2
      subst htoks
      rw [← hbc]
      rw [show ((a, ([] : List String)) :: ([] : Path)) ++
        [(b, ([] : List String))] = (a, []) :: (b, []) :: [] from rfl]
      rw [path_pairs_cons2]
      rw [resolve_step_eps g a b [] [] _ acc iname he hw]
      have := ih acc iname
      rw [← hbc] at this
      rw [show ([] : Path) ++ [(b, ([] : List String))] = [(b, [])] from
        rfl] at this
      rw [this]
    · subst hpf2
      rw [show ((a, ([] : List String)) :: (b, ts) :: p2) ++
        [(c, ([] : List String))] = (a, []) :: (b, ts) ::
        (p2 ++ [(c, [])]) from rfl]
      rw [path_pairs_cons2]
      rw [resolve_step_eps g a b [] ts _ acc iname he hw]
      have := ih acc iname
      rw [show ((b, ts) :: p2) ++ [(c, ([] : List String))] =
        (b, ts) :: (p2 ++ [(c, [])]) from rfl] at this
      rw [this]

/-- Resolving a full accepting path: the `__label__` branch edge names
the intent, the walk contributes its words, the final hop is skipped. -/
theorem frag_resolve_full (g : Graph) (ist : Nat) (w : List String)
    (x : Nat) (pf : Path) (el2 : Edge) (I : String)
    (hf : Frag g ist w x pf)
    (he : g.edgeBetween 0 ist = some el2)
    (hol : el2.olabel = "__label__" ++ I)
    (hword : g.wordOf ist = "") :
    resolve_olabels g ((0, []) :: (pf ++ [(x, [])])) =
      .ok (w.map (fun t => (t, t, [t])), I) := by
  unfold resolve_olabels
  rcases Frag_shape g ist w x pf hf with ⟨hpf, hax, hw0⟩ |
    ⟨ts, p2, hpf⟩
  · subst hpf
    subst hw0
    rw [← hax]
    rw [show ((0, ([] : List String)) :: (([] : Path) ++ [(ist, [])])) =
      (0, []) :: (ist, []) :: [] from rfl]
    rw [path_pairs_cons2]
    rw [resolve_step_label g 0 ist I el2 [] [] _ [] "" he hol hword]
    rw [show path_pairs [(ist, ([] : List String))] = [] from rfl]
    rw [resolve_olabels_aux]
    rfl
  · subst hpf
    rw [show ((0, ([] : List String)) :: (((ist, ts) :: p2) ++
      [(x, [])])) = (0, []) :: (ist, ts) :: (p2 ++ [(x, [])]) from rfl]
    rw [path_pairs_cons2]
    rw [resolve_step_label g 0 ist I el2 [] ts _ [] "" he hol hword]
    have := frag_resolve g ist w x ((ist, ts) :: p2) hf [] I
    rw [show (((ist, ts) :: p2) ++ [(x, ([] : List String))]) =
      (ist, ts) :: (p2 ++ [(x, [])]) from rfl] at this
    rw [this]
    simp

/-- The converter loop passes a marker-free stream through unchanged
(wrapping each token as a substituted string). -/
theorem apply_converters_plain (conv : String → Option ConvFn) :
    ∀ (stream : List RSTok) (out : List RCTok),
      (∀ tok ∈ stream, tok.2.1 ≠ "" ∧ pyTake tok.2.1 2 ≠ "__") →
      apply_converters conv [] out stream =
        .ok (out ++ stream.map (fun tok => (tok.1, some (.str tok.2.1),
          tok.2.2))) := by
  intro stream
  induction stream with
  | nil =>
    intro out hall
    rw [apply_converters]
    simp
  | cons tok rest ih =>
    intro out hall
    obtain ⟨raw, sub, orig⟩ := tok
    have hh := hall (raw, sub, orig) (List.mem_cons_self _ _)
    dsimp only at hh
    rw [apply_converters]
    simp only [Bind.bind, Except.bind]
    have hstep : convert_step conv [] out (raw, sub, orig) =
        .ok ([], out ++ [(raw, some (.str sub), orig)]) := by
      unfold convert_step
      dsimp only
      rw [if_neg (fun hcon => hcon.2.1 rfl)]
      rw [if_neg (not_marker sub "__convert__" 11 hh.2 (by omega)
        (by decide))]
      rw [if_neg (not_marker sub "__converted__" 13 hh.2 (by omega)
        (by decide))]
    rw [hstep]
    dsimp only
    rw [ih (out ++ [(raw, some (PyVal.str sub), orig)])
      (fun tok2 hm => hall tok2 (List.mem_cons_of_mem _ hm))]
    simp

/-- `raw_token_update` keeps an empty entity stack empty. -/
theorem raw_token_update_stack_nil (st : EntState) (raw : String)
    (orig : List String) (h : st.entity_stack = []) :
    (raw_token_update st raw orig).entity_stack = [] := by
  have := raw_token_update_names st raw orig
  rw [h] at this
  cases hs : (raw_token_update st raw orig).entity_stack with
  | nil => rfl
  | cons q l =>
    rw [hs] at this
    exact absurd this (by simp)

/-- One entity step on a marker-free substituted token succeeds and keeps
the stack empty. -/
theorem collect_entity_step_plain (st : EntState) (raw sub : String)
    (orig : List String) (hs : sub ≠ "") (h2 : pyTake sub 2 ≠ "__")
    (hstack : st.entity_stack = []) :
    ∃ st2, collect_entity_step st (raw, some (.str sub), orig) =
      .ok st2 ∧ st2.entity_stack = [] := by
  unfold collect_entity_step
  dsimp only
  rw [show pyStr (PyVal.str sub) = sub from rfl]
  rw [if_neg hs]
  rw [if_neg (not_marker sub "__begin__" 9 h2 (by omega) (by decide))]
  rw [if_neg (not_marker sub "__end__" 7 h2 (by omega) (by decide))]
  rw [if_neg (not_marker sub "__source__" 10 h2 (by omega) (by decide))]
  rw [raw_token_update_stack_nil st raw orig hstack]
  refine ⟨_, rfl, ?_⟩
  dsimp only

/-- The entity loop succeeds on a marker-free substituted stream. -/
theorem collect_entities_plain :
    ∀ (stream : List RCTok) (st : EntState),
      (∀ tok ∈ stream, ∃ raw sub orig,
        tok = (raw, some (.str sub), orig) ∧ sub ≠ "" ∧
          pyTake sub 2 ≠ "__") →
      st.entity_stack = [] →
      ∃ st2, collect_entities st stream = .ok st2 := by
  intro stream
  induction stream with
  | nil =>
    intro st hall hstack
    exact ⟨st, rfl⟩
  | cons tok rest ih =>
    intro st hall hstack
    obtain ⟨raw, sub, orig, htok, hsub, h2⟩ :=
      hall tok (List.mem_cons_self _ _)
    subst htok
    obtain ⟨st2, hstep, hstack2⟩ :=
      collect_entity_step_plain st raw sub orig hsub h2 hstack
    obtain ⟨st3, hst3⟩ := ih st2
      (fun tok2 hm => hall tok2 (List.mem_cons_of_mem _ hm)) hstack2
    refine ⟨st3, ?_⟩
    rw [collect_entities]
    simp only [Bind.bind, Except.bind]
    rw [hstep]
    exact hst3

/-- Step 4 with no cost only fills the text fields. -/
theorem finalize_none (r : Recognition) :
    finalize_recognition none r =
      .ok { r with text := " ".intercalate (r.tokens.map pyStr),
                   raw_text := " ".intercalate r.raw_tokens } := rfl

/-- Interpreting a full accepting path of a plain walk: success, with the
intent named by the `__label__` branch edge. -/
theorem c1_path_to_recognition (g : Graph) (ist x : Nat)
    (w : List String) (pf : Path) (el2 : Edge) (I : String)
    (cv ex : Option (String → Option ConvFn))
    (hf : Frag g ist w x pf)
    (he : g.edgeBetween 0 ist = some el2)
    (hol : el2.olabel = "__label__" ++ I)
    (hword : g.wordOf ist = "") :
    ∃ r, path_to_recognition ((0, []) :: (pf ++ [(x, [])])) g none cv
      ex = .ok (.success, some r) ∧
      r.intent = some { name := I, confidence := 1 } := by
  have hwords := Frag_words g ist w x pf hf
  unfold path_to_recognition
  rw [if_neg (by simp)]
  simp only [Bind.bind, Except.bind]
  rw [frag_resolve_full g ist w x pf el2 I hf he hol hword]
  dsimp only
  rw [apply_converters_plain (merge_converters cv ex)
    (w.map (fun t => (t, t, [t]))) [] ?hplain]
  case hplain =>
    intro tok hm
    obtain ⟨t, htm, htok⟩ := List.mem_map.mp hm
    rw [← htok]
    exact hwords t htm
  dsimp only
  have hplain2 : ∀ tok ∈ (([] : List RCTok) ++
      (w.map (fun t => (t, t, [t]))).map
        (fun tok => (tok.1, some (PyVal.str tok.2.1), tok.2.2))),
      ∃ raw sub orig, tok = (raw, some (.str sub), orig) ∧ sub ≠ "" ∧
        pyTake sub 2 ≠ "__" := by
    intro tok hm
    rw [List.nil_append] at hm
    obtain ⟨tok1, hm1, htok⟩ := List.mem_map.mp hm
    obtain ⟨t, htm, htok1⟩ := List.mem_map.mp hm1
    refine ⟨tok1.1, tok1.2.1, tok1.2.2, ?_, ?_⟩
    · rw [← htok]
    · rw [← htok1]
      exact hwords t htm
  obtain ⟨st2, hst2⟩ := collect_entities_plain
    (([] : List RCTok) ++ (w.map (fun t => (t, t, [t]))).map
      (fun tok => (tok.1, some (PyVal.str tok.2.1), tok.2.2)))
    { recognition := { intent := some { name := I, confidence := 1 } } }
    hplain2 rfl
  rw [hst2]
  dsimp only
  rw [finalize_none]
  dsimp only
  refine ⟨_, rfl, ?_⟩
  show ({ st2.recognition with
    text := " ".intercalate (st2.recognition.tokens.map pyStr),
    raw_text := " ".intercalate st2.recognition.raw_tokens }
      : Recognition).intent = some { name := I, confidence := 1 }
  show st2.recognition.intent = some { name := I, confidence := 1 }
  rw [collect_entities_intent _ _ _ hst2]

/-- A success result of `path_to_recognition` shows up (time-stamped) in
the interpreted recognition list. -/
theorem interpret_strict_mem (g : Graph)
    (cv ex : Option (String → Option ConvFn)) (secs : ℚ) :
    ∀ (paths : List Path) (recs : List Recognition) (P : Path)
      (r : Recognition),
      interpret_strict_paths g cv ex secs paths = .ok recs →
      P ∈ paths →
      path_to_recognition P g none cv ex = .ok (.success, some r) →
      { r with recognize_seconds := secs } ∈ recs := by
  intro paths
  induction paths with
  | nil =>
    intro recs P r hint hP hpr
    exact absurd hP (List.not_mem_nil P)
  | cons q rest ih =>
    intro recs P r hint hP hpr
    rw [interpret_strict_paths] at hint
    simp only [Bind.bind, Except.bind] at hint
    cases hq : path_to_recognition q g none cv ex with
    | error e =>
      rw [hq] at hint
      exact Except.noConfusion hint
    | ok pr =>
      obtain ⟨res, ro⟩ := pr
      rw [hq] at hint
      dsimp only at hint
      cases hrest : interpret_strict_paths g cv ex secs rest with
      | error e =>
        rw [hrest] at hint
        exact Except.noConfusion hint
      | ok acc =>
        rw [hrest] at hint
        dsimp only at hint
        rcases List.mem_cons.mp hP with hh | hh
        · subst hh
          rw [hpr] at hq
          rw [Except.ok.injEq, Prod.mk.injEq] at hq
          obtain ⟨hres, hro⟩ := hq
          rw [← hres, ← hro] at hint
          dsimp only at hint
          rw [Except.ok.injEq] at hint
          rw [← hint]
          exact List.mem_cons_self _ _
        · have hmem := ih acc P r hrest hh hpr
          cases res with
          | success =>
            cases ro with
            | some r0 =>
              dsimp only at hint
              rw [Except.ok.injEq] at hint
              rw [← hint]
              exact List.mem_cons_of_mem _ hmem
            | none =>
              dsimp only at hint
              exact Except.noConfusion hint
          | failure =>
            dsimp only at hint
            rw [Except.ok.injEq] at hint
            rw [← hint]
            exact hmem

/-- Any edge with empty input label passes `strict_edge_step` without
consuming. -/
theorem strict_edge_step_eps_abs (a : Nat) (e : Edge) (p : Path)
    (toks : List String) (hi : e.ilabel = "") :
    strict_edge_step none (fun _ => true) (fun x => x) a p toks e =
      some (e.dst, p ++ [(a, [])], toks) := by
  unfold strict_edge_step
  dsimp only
  rw [if_neg (fun hcon => hcon.2 rfl)]
  rw [hi]
  rw [if_neg (fun hcon => hcon rfl)]

/-- **C1** (amended): for a plain grammar (words with unreserved
non-empty text, bare groups and alternatives; no slots, rules,
substitutions, tags or converters) compiled by `sentences_to_graph`,
strict recognition of every non-empty sentence in the exhaustive
expansion of a declared intent returns at least one Recognition naming
that intent, whenever the strict search and the compile return at all.
Exactly-one fails in general: a sentence derivable along several paths
or declared under several intents is returned once per accepting path
(see the counterexample). -/
theorem c1_plain_expansion_recognized (cfuel sfuel : Nat)
    (sentences : List (String × List Expression))
    (repl : ReplacementsType) (aiw ecs xs : Bool) (g : Graph)
    (I : String) (exprs : List Expression) (e : Expression)
    (w : List String) (cv ex : Option (String → Option ConvFn))
    (t0 t1 : ℚ) (recs : List Recognition)
    (hplain : plainTable sentences = true)
    (hmem : (I, exprs) ∈ sentences) (he : e ∈ exprs)
    (hw : w ∈ expandExpr e) (hw0 : w ≠ [])
    (hcomp : sentences_to_graph cfuel sentences repl aiw ecs xs = .ok g)
    (hrec : recognize sfuel w g false none none none cv ex t0 t1 =
      .ok recs) :
    ∃ r ∈ recs, r.intent = some { name := I, confidence := 1 } := by
  obtain ⟨hstarts, hnG, F, hfinals, hF, hper⟩ :=
    c1_sentences_to_graph cfuel sentences repl aiw ecs xs g hcomp hplain
  obtain ⟨ist, x, pf, el2, ha, hbil, hbol, hwist, hfrag, hxF⟩ :=
    hper I exprs hmem e he w hw
  have hFfin : g.isFinal F = true := by
    unfold Graph.isFinal
    rw [hfinals]
    simp
  have hreach : Reach g 0 [] w ((0, []) :: (pf ++ [(x, [])])) := by
    have hdst : el2.dst = ist := (edgeBetween_elim g 0 ist el2 ha).2.2
    refine Reach.step 0 [] w el2 ist [(0, [])] w _ ?_ ?_ ?_
    · exact succOf_of_edgeBetween g 0 ist el2 ha
    · rw [strict_edge_step_eps_abs 0 el2 [] w hbil]
      rw [hdst]
      rfl
    · have htail : Reach g x ([(0, [])] ++ pf) []
          ((0, []) :: (pf ++ [(x, [])])) := by
        refine Reach.step x ([(0, [])] ++ pf) []
          { src := x, dst := F, ilabel := "", olabel := "" } F
          (([(0, [])] ++ pf) ++ [(x, [])]) [] _ ?_ ?_ ?_
        · exact succOf_of_edgeBetween g x F _ hxF
        · exact strict_edge_step_eps x F "" ([(0, [])] ++ pf) []
        · have hpe : (([(0, [])] ++ pf) ++ [(x, ([] : List String))]) =
              (0, []) :: (pf ++ [(x, [])]) := by
            simp
          rw [hpe]
          exact Reach.done F _ hFfin
      have hr2 := Frag_reach g ist w x pf hfrag [(0, [])] [] _ htail
      simpa using hr2
  unfold recognize at hrec
  rw [if_neg (fun hcon => Bool.noConfusion hcon)] at hrec
  simp only [Bind.bind, Except.bind] at hrec
  cases hps : paths_strict sfuel w g none none none none with
  | error e2 =>
    rw [hps] at hrec
    exact Except.noConfusion hrec
  | ok paths =>
    rw [hps] at hrec
    dsimp only at hrec
    rw [if_neg (fun hcon => Bool.noConfusion hcon.2)] at hrec
    simp only [Pure.pure, Except.pure, Bind.bind, Except.bind] at hrec
    have hP := paths_strict_complete sfuel w g paths hps hw0
      (get_start_end_fst g hstarts hnG) _ hreach
    obtain ⟨r, hpr, hint⟩ := c1_path_to_recognition g ist x w pf el2 I
      cv ex hfrag ha hbol hwist
    have hmem2 := interpret_strict_mem g cv ex (t1 - t0) paths recs _ r
      hrec hP hpr
    exact ⟨{ r with recognize_seconds := t1 - t0 }, hmem2, hint⟩

set_option maxRecDepth 100000 in
set_option maxHeartbeats 4000000 in
/-- The grammar `[TurnOn] ↦ on` with sentence `on`: the hypotheses of
the amended claim hold concretely and one Recognition naming `TurnOn`
comes back. -/
theorem c1_plain_expansion_recognized_witness :
    plainTable c1WitSentences = true ∧
    ("TurnOn", [Expression.word "on"]) ∈ c1WitSentences ∧
    Expression.word "on" ∈ [Expression.word "on"] ∧
    ["on"] ∈ expandExpr (Expression.word "on") ∧
    (["on"] : List String) ≠ [] ∧
    sentences_to_graph 50 c1WitSentences [] true true true =
      .ok c1WitGraph ∧
    recognize 50 ["on"] c1WitGraph false none none none none none 0 0 =
      .ok [c1WitRec] ∧
    ∃ r ∈ [c1WitRec], r.intent =
      some { name := "TurnOn", confidence := 1 } := by
  refine ⟨by with_unfolding_all rfl, List.mem_singleton.mpr rfl,
    List.mem_singleton.mpr rfl, ?_, by decide,
    by with_unfolding_all rfl, by with_unfolding_all rfl, ?_⟩
  · simp [expandExpr]
  · exact c1_plain_expansion_recognized 50 50 c1WitSentences []
      true true true c1WitGraph "TurnOn" [Expression.word "on"]
      (Expression.word "on") ["on"] none none 0 0 [c1WitRec]
      (by with_unfolding_all rfl) (List.mem_singleton.mpr rfl)
      (List.mem_singleton.mpr rfl) (by simp [expandExpr]) (by decide)
      (by with_unfolding_all rfl) (by with_unfolding_all rfl)

set_option maxRecDepth 100000 in
set_option maxHeartbeats 4000000 in
/-- **C1** counterexample: the plain, slot-free grammar
`[Greet] ↦ hello | hello` expands to the sentence `hello`, yet strict
recognition of exactly `hello` returns TWO Recognitions (one per
accepting path), refuting `exactly one Recognition`. -/
theorem c1_two_recognitions_counterexample :
    plainTable c1CexSentences = true ∧
    ["hello"] ∈ expandExpr (Expression.sequence .alternative
      [Expression.word "hello", Expression.word "hello"]) ∧
    (sentences_to_graph 50 c1CexSentences [] true true true >>= fun g =>
      recognize 50 ["hello"] g false none none none none none 0 0) =
      .ok [c1CexRec, c1CexRec] ∧
    c1CexRec.intent = some { name := "Greet", confidence := 1 } ∧
    [c1CexRec, c1CexRec].length ≠ 1 := by
  refine ⟨by with_unfolding_all rfl, ?_, by with_unfolding_all rfl,
    by with_unfolding_all rfl, by decide⟩
  simp [expandExpr, expandAlt]

end Fsticuffs
